import Mathlib

/-!
# Listing image pipeline: upload route and directory auditor

A shallow embedding of `api/routes/listing-images.route.js` (the upload route:
`formatUserIdHex`, `storage.filename`, `fileFilter`, `getDirectorySize`, the
`/upload-multiple` handler) and of the filename grammar used by
`utils/manage-listing-images.js`.

JavaScript strings are embedded as lists of characters.  The library calls the
source makes (`padStart`, `substring`, `replace`, `toLowerCase`, `path.extname`,
`parseInt`, the multer middleware) are embedded as definitions named after them.
-/

set_option autoImplicit false

namespace ListingImages

/-! ## Strings and the library calls of the source -/

/-- A JavaScript string. -/
abbrev Str := List Char

/-- One range `lo-hi` of a regular-expression character class. -/
def inRange (lo hi c : Char) : Bool :=
  decide (lo.toNat ≤ c.toNat) && decide (c.toNat ≤ hi.toNat)

/-- The class `[0-9a-f]` (complemented in `formatUserIdHex`, which has no `i` flag). -/
def classHex (c : Char) : Bool := inRange '0' '9' c || inRange 'a' 'f' c

/-- The class `[a-z0-9]`. -/
def classAlnum (c : Char) : Bool := inRange 'a' 'z' c || inRange '0' '9' c

/-- The class `\d`. -/
def classDigit (c : Char) : Bool := inRange '0' '9' c

/-- The class `[a-z]`. -/
def classAlpha (c : Char) : Bool := inRange 'a' 'z' c

/-- Membership in a class under the `i` flag (without the `u` flag): a character
matches when it, its lower-case form or its upper-case form is in the class.
Only ASCII letters have a case partner inside an ASCII class, which is what
`Char.toLower` and `Char.toUpper` compute. -/
def matchClassI (cls : Char → Bool) (c : Char) : Bool :=
  cls c || cls c.toLower || cls c.toUpper

/-- A literal character of a pattern under the `i` flag. -/
def matchCharI (p c : Char) : Bool := decide (p.toLower = c.toLower)

/-- The method `String.prototype.padStart(targetLength, padString)` for a
one-character `padString`. -/
def padStart (s : Str) (targetLength : Nat) (pad : Char) : Str :=
  if targetLength ≤ s.length then s
  else List.replicate (targetLength - s.length) pad ++ s

/-- The method `String.prototype.substring(start, end)` for non-negative
arguments: both are clamped to the length and swapped when out of order. -/
def substring (s : Str) (start stop : Nat) : Str :=
  (s.take (max start stop)).drop (min start stop)

/-- The method `String.prototype.toLowerCase()`, on the ASCII letters: the other
characters are kept (every extension the filename grammar accepts is ASCII). -/
def toLowerCase (s : Str) : Str := s.map Char.toLower

/-- The digit character of `Number.prototype.toString(radix)` for a digit value
below 36: `0`-`9`, then `a`-`z`. -/
def digitChar (d : Nat) : Char :=
  if d < 10 then Char.ofNat (48 + d) else Char.ofNat (87 + d)

/-- The digits of `n` in the given radix, most significant first, put in front
of `acc`. The first argument bounds the number of digits produced. -/
def toStringRadixLoop (radix : Nat) : Nat → Nat → Str → Str
  | 0, _, acc => acc
  | fuel + 1, n, acc =>
    if n / radix = 0 then digitChar (n % radix) :: acc
    else toStringRadixLoop radix fuel (n / radix) (digitChar (n % radix) :: acc)

/-- The method `Number.prototype.toString(radix)` on a non-negative integer
(`n + 1` digits are always enough). -/
def toStringRadix (n radix : Nat) : Str := toStringRadixLoop radix (n + 1) n []

/-- The method `Number.prototype.toString()` on a non-negative integer: its
decimal digits. -/
def numberToString (n : Nat) : Str := toStringRadix n 10

/-- A user identifier as found in `req.user.id`: a number or a string. -/
inductive UserId where
  | num (n : Nat)
  | str (s : Str)
  deriving DecidableEq, Repr

/-- The call `userId.toString()`. -/
def UserId.toString : UserId → Str
  | .num n => numberToString n
  | .str s => s

/-! ## `formatUserIdHex` -/

/-- The function `formatUserIdHex` of the upload route:
`userId.toString().replace(/[^0-9a-f]/g, '')`, then
`.padStart(7, '0').substring(0, 7)`. -/
def formatUserIdHex (userId : UserId) : Str :=
  let numericId := userId.toString.filter classHex
  substring (padStart numericId 7 '0') 0 7

/-! ### The spec's words for `UserIdHex` -/

/-- The spec's `stripNonHexChars`: every character outside `[0-9a-f]` removed. -/
def stripNonHexChars (s : Str) : Str :=
  match s with
  | [] => []
  | c :: rest =>
    if ('0' ≤ c ∧ c ≤ '9') ∨ ('a' ≤ c ∧ c ≤ 'f') then c :: stripNonHexChars rest
    else stripNonHexChars rest

/-- The spec's `leftPad(s, width, pad)`: `pad` is put in front of `s` until the
width is reached. -/
def leftPad (s : Str) (width : Nat) (pad : Char) : Str :=
  if s.length < width then leftPad (pad :: s) width pad else s
termination_by width - s.length
decreasing_by simp only [List.length_cons]; omega

/-- The spec's `truncate(n)`: the first `n` characters. -/
def truncate (s : Str) (n : Nat) : Str :=
  match n, s with
  | 0, _ => []
  | _ + 1, [] => []
  | k + 1, c :: rest => c :: truncate rest k

/-- The spec's `userIdHex`:
`leftPad(stripNonHexChars(toString(userIdRaw)), width=7, pad='0').truncate(7)`. -/
def userIdHexSpec (userIdRaw : UserId) : Str :=
  truncate (leftPad (stripNonHexChars userIdRaw.toString) 7 '0') 7

/-! ## `path.extname` -/

/-- The local variables of the loop of `path.extname` (`-1` is `none`). -/
structure ExtState where
  startDot : Option Nat
  startPart : Nat
  stop : Option Nat
  matchedSlash : Bool
  preDotState : Int

/-- The loop of `path.extname`, from the last character to the first: the
argument is the part of the path not yet visited, reversed, so that its head has
index `before.length`. -/
def extnameLoop : List Char → ExtState → ExtState
  | [], st => st
  | code :: before, st =>
    let i := before.length
    if code = '/' then
      if !st.matchedSlash then { st with startPart := i + 1 }
      else extnameLoop before st
    else
      let st1 : ExtState :=
        if st.stop = none then { st with matchedSlash := false, stop := some (i + 1) } else st
      let st2 : ExtState :=
        if code = '.' then
          if st1.startDot = none then { st1 with startDot := some i }
          else if st1.preDotState ≠ 1 then { st1 with preDotState := 1 }
          else st1
        else if st1.startDot ≠ none then { st1 with preDotState := -1 }
        else st1
      extnameLoop before st2

/-- The function `path.extname` (POSIX): the text from the last `.` of the last
path segment to its end, empty when there is no `.`, when the segment starts
with its only `.`, or when the segment is `..`. -/
def extname (path : Str) : Str :=
  let st := extnameLoop path.reverse ⟨none, 0, none, true, 0⟩
  match st.startDot, st.stop with
  | some startDot, some stop =>
    if st.preDotState = 0 ∨
        (st.preDotState = 1 ∧ startDot = stop - 1 ∧ startDot = st.startPart + 1) then []
    else (path.take stop).drop startDot
  | _, _ => []

/-! ## The request and `storage.filename` -/

/-- One file part of a multipart body, as multer presents it to `fileFilter` and
`storage.filename`; `size` is the number of bytes of its content. -/
structure FilePart where
  fieldname : Str
  originalname : Str
  mimetype : Str
  size : Nat
  deriving DecidableEq, Repr

/-- One part of a multipart body, in arrival order. -/
inductive Part where
  | field (name value : Str)
  | file (f : FilePart)
  deriving DecidableEq, Repr

/-- An entry of `req.files`: the part and what the storage engine adds to it. -/
structure StoredFile where
  fieldname : Str
  originalname : Str
  mimetype : Str
  filename : Str
  size : Nat
  deriving DecidableEq, Repr

/-- The request object, as far as the route reads or writes it: `req.user.id`,
the values received so far for the body field `listingCode`, `req.imageCount`
(`none` is `undefined`) and `req.files`. -/
structure Req where
  userId : UserId
  listingCodes : List Str
  imageCount : Option Nat
  files : List StoredFile
  deriving DecidableEq, Repr

/-- The value `req.body.listingCode` when it is truthy, as the template string
prints it: absent with no value received or with the empty string; one value is
that string; several values of the same field are an array, printed with its
elements joined by commas. -/
def bodyListingCode (values : List Str) : Option Str :=
  match values with
  | [] => none
  | [v] => if v = [] then none else some v
  | v :: rest => some (rest.foldl (fun acc w => acc ++ ',' :: w) v)

/-- The function `storage.filename` of the upload route; `now` is the value of
`Date.now()` at the call. It returns the name and the updated request. -/
def filename (now : Nat) (req : Req) (file : FilePart) : Str × Req :=
  let userId := req.userId
  let listingCode := (bodyListingCode req.listingCodes).getD (toStringRadix now 36)
  let imageNumber :=
    match req.imageCount with
    | none => 1
    | some 0 => 1
    | some c => c + 1
  let req1 := { req with imageCount := some imageNumber }
  let userIdHex := formatUserIdHex userId
  let paddedImageNum := padStart (numberToString imageNumber) 2 '0'
  let ext := toLowerCase (extname file.originalname)
  ("img.".toList ++ userIdHex ++ '.' :: listingCode ++ '.' :: paddedImageNum ++ ext, req1)

/-! ## `fileFilter` -/

/-- A JavaScript error value: whether it is an instance of `multer.MulterError`,
its `code` and its `message`. -/
structure JsError where
  isMulterError : Bool
  code : Str
  message : Str
  deriving DecidableEq, Repr

/-- The function `fileFilter` of the upload route: `cb(null, true)` is
`Except.ok true`, `cb(new Error(...), false)` is `Except.error`. -/
def fileFilter (file : FilePart) : Except JsError Bool :=
  if file.mimetype = "image/jpeg".toList ∨ file.mimetype = "image/png".toList ∨
      file.mimetype = "image/webp".toList then
    .ok true
  else
    .error ⟨false, [], "Only JPEG, PNG and WebP images are allowed".toList⟩

/-! ## The storage directory and `getDirectorySize` -/

/-- An entry of a directory with the `size` its `stat` reports: a regular file,
a sub-directory with its own entries, or another kind of entry (socket, FIFO,
device). -/
inductive Entry where
  | file (name : Str) (size : Nat)
  | dir (name : Str) (size : Nat) (children : List Entry)
  | other (name : Str) (size : Nat)

/-- The name `readdirSync` lists for an entry. -/
def Entry.name : Entry → Str
  | .file n _ => n
  | .dir n _ _ => n
  | .other n _ => n

/-- The result of `stats.isFile()`. -/
def Entry.isFile : Entry → Bool
  | .file _ _ => true
  | _ => false

/-- The value `stats.size`. -/
def Entry.size : Entry → Nat
  | .file _ s => s
  | .dir _ s _ => s
  | .other _ s => s

/-- A directory: its entries in the order `readdirSync` lists them. -/
abbrev Directory := List Entry

/-- The function `getDirectorySize`: `forEach` over the listing, adding
`stats.size` when `stats.isFile()`. -/
def getDirectorySize (directory : Directory) : Nat :=
  directory.foldl (fun totalSize file => if file.isFile then totalSize + file.size else totalSize) 0

/-- The spec's aggregate size: the sum of the sizes of the regular files
directly inside the directory. -/
def regularFileBytes : Directory → Nat
  | [] => 0
  | .file _ s :: rest => s + regularFileBytes rest
  | .dir _ _ _ :: rest => regularFileBytes rest
  | .other _ _ :: rest => regularFileBytes rest

/-- The effect of a finished write stream on the directory: the regular file
`name` now has `size` bytes. Every write is taken to succeed; a name the file
system refuses (see `storable`) makes the real write throw, so what is said of
stored files is said for storable names. -/
def writeFile (directory : Directory) (name : Str) (size : Nat) : Directory :=
  directory.filter (fun e => decide (e.name ≠ name)) ++ [Entry.file name size]

/-- The effect of `fs.unlink` on the directory. -/
def unlink (directory : Directory) (name : Str) : Directory :=
  directory.filter (fun e => decide (e.name ≠ name))

/-! ## The spec's filename and its accepted parts -/

/-- The spec's `encode`: `img.<userIdHex>.<listingCode>.<paddedSeq><extension>`
for the `n`-th file of a request. -/
def canonicalName (userId : UserId) (listingCode : Str) (n : Nat) (originalname : Str) : Str :=
  "img.".toList ++ formatUserIdHex userId ++ ".".toList ++ listingCode ++ ".".toList ++
    padStart (numberToString n) 2 '0' ++ toLowerCase (extname originalname)

/-- The entry of `req.files` for a part stored whole as the `n`-th file. -/
def storedAs (userId : UserId) (listingCode : Str) (n : Nat) (f : FilePart) : StoredFile :=
  ⟨f.fieldname, f.originalname, f.mimetype, canonicalName userId listingCode n f.originalname,
    f.size⟩

/-- The declared MIME types of the allow-list. -/
def allowedMime (mimetype : Str) : Prop :=
  mimetype = "image/jpeg".toList ∨ mimetype = "image/png".toList ∨
    mimetype = "image/webp".toList

instance (mimetype : Str) : Decidable (allowedMime mimetype) := by
  unfold allowedMime; infer_instance

/-- A file part that passes every check of the middleware under every version
of the library: sent in the field `images`, with a file name, an allowed
declared MIME type and fewer than `5 * 1024 * 1024` bytes. -/
def acceptable (f : FilePart) : Prop :=
  f.fieldname = "images".toList ∧ f.originalname ≠ [] ∧ allowedMime f.mimetype ∧
    f.size < 5 * 1024 * 1024

instance (f : FilePart) : Decidable (acceptable f) := by
  unfold acceptable; infer_instance

/-- A name under which the disk storage can create a file in the directory, on
which the embedding of the write and of `toLowerCase` is what the code does: at
most 255 characters, all of them ASCII, none of them `/` or NUL, and borne by no
entry of the directory other than a regular file. -/
def storable (directory : Directory) (name : Str) : Prop :=
  name.length ≤ 255 ∧ (∀ c ∈ name, c ≠ '/' ∧ c.toNat ≠ 0 ∧ c.toNat < 128) ∧
    ∀ e ∈ directory, e.name = name → e.isFile = true

instance (directory : Directory) (name : Str) : Decidable (storable directory name) := by
  unfold storable; infer_instance

/-- A part within the limits the route leaves at the defaults of the library: a
field has a name of 1 to 100 characters and a value of at most `1024 * 1024`
characters, all ASCII (so that characters are bytes); beyond them the library
ends the upload with an error of its own. A file part is not concerned. -/
def Part.withinFieldLimits : Part → Prop
  | .field name value =>
    name ≠ [] ∧ name.length ≤ 100 ∧ value.length ≤ 1024 * 1024 ∧
      ∀ c ∈ name ++ value, c.toNat < 128
  | .file _ => True

instance (p : Part) : Decidable p.withinFieldLimits := by
  cases p <;> (unfold Part.withinFieldLimits; infer_instance)

/-! ## The multer middleware `upload.array('images', 20)`

The middleware is a library (multer with its disk storage engine); the route
configures it with `storage`, `fileFilter`, `limits.fileSize` and
`limits.files`. It handles the parts in arrival order: a field is added to
`req.body`; a file part is counted against `limits.files`, skipped when it has
no file name, counted against the `maxCount` of its field, passed to
`fileFilter`, named by `storage.filename` and written. A part with more than
`limits.fileSize` bytes is written up to the limit and raises the size error.
A part of exactly `limits.fileSize` bytes is taken by the versions of the
library built on busboy 0.x and raises the size error under busboy 1.x; the
embedding follows the former, and what is proved of accepted parts is proved
for parts below that size.
The first error ends the upload: every file written for the request is removed
and the error is passed to the callback unchanged. The limits the route leaves
at their defaults (field sizes, number of parts) and failing writes are outside
the embedding: see `Part.withinFieldLimits` and `storable`. -/

/-- The option `limits.fileSize` of `upload`. -/
def limitFileSize : Nat := 5 * 1024 * 1024

/-- The option `limits.files` of `upload`. -/
def limitFiles : Nat := 20

/-- The `maxCount` of `upload.array('images', 20)`. -/
def arrayMaxCount : Nat := 20

/-- The error `new MulterError(code)` with the message multer gives the code. -/
def multerError (code : Str) : JsError :=
  ⟨true, code,
    if code = "LIMIT_FILE_SIZE".toList then "File too large".toList
    else if code = "LIMIT_FILE_COUNT".toList then "Too many files".toList
    else if code = "LIMIT_UNEXPECTED_FILE".toList then "Unexpected field".toList
    else []⟩

/-- The state of one run of the middleware: the request, the directory, the
number of file parts seen, the files still allowed for the field `images`, and
the files written so far (`uploadedFiles`). -/
structure MulterState where
  req : Req
  directory : Directory
  nfiles : Nat
  filesLeft : Nat
  uploadedFiles : List StoredFile

/-- What a run of the middleware leaves: the error passed to the callback
(`none` when there is none), the request, the directory, and the files the run
wrote. -/
structure UploadResult where
  err : Option JsError
  req : Req
  directory : Directory
  uploadedFiles : List StoredFile

/-- The end of an upload on an error: every file written for the request is
unlinked. -/
def abortWithError (st : MulterState) (err : JsError) : UploadResult :=
  ⟨some err, st.req, st.uploadedFiles.foldl (fun d f => unlink d f.filename) st.directory,
    st.uploadedFiles⟩

/-- The middleware on the parts still to come; `clock i` is the value of
`Date.now()` when `storage.filename` is called with `i` files already written
for the request. -/
def uploadArrayLoop (clock : Nat → Nat) : List Part → MulterState → UploadResult
  | [], st => ⟨none, st.req, st.directory, st.uploadedFiles⟩
  | .field name value :: rest, st =>
    if name = "listingCode".toList then
      uploadArrayLoop clock rest
        { st with req := { st.req with listingCodes := st.req.listingCodes ++ [value] } }
    else uploadArrayLoop clock rest st
  | .file f :: rest, st =>
    if st.nfiles = limitFiles then abortWithError st (multerError "LIMIT_FILE_COUNT".toList)
    else
      let st1 := { st with nfiles := st.nfiles + 1 }
      if f.originalname = [] then uploadArrayLoop clock rest st1
      else if f.fieldname ≠ "images".toList ∨ st1.filesLeft = 0 then
        abortWithError st1 (multerError "LIMIT_UNEXPECTED_FILE".toList)
      else
        let st2 := { st1 with filesLeft := st1.filesLeft - 1 }
        match fileFilter f with
        | .error err => abortWithError st2 err
        | .ok false => uploadArrayLoop clock rest st2
        | .ok true =>
          let named := filename (clock st2.uploadedFiles.length) st2.req f
          let written := min f.size limitFileSize
          let stored : StoredFile :=
            ⟨f.fieldname, f.originalname, f.mimetype, named.1, written⟩
          let directory := writeFile st2.directory named.1 written
          if limitFileSize < f.size then
            abortWithError
              { st2 with req := named.2, directory := directory,
                         uploadedFiles := st2.uploadedFiles ++ [stored] }
              (multerError "LIMIT_FILE_SIZE".toList)
          else
            uploadArrayLoop clock rest
              { st2 with req := { named.2 with files := named.2.files ++ [stored] },
                         directory := directory,
                         uploadedFiles := st2.uploadedFiles ++ [stored] }

/-- The call `upload.array('images', 20)(req, res, callback)` on a multipart
request of the authenticated user `userId`. -/
def uploadArray (clock : Nat → Nat) (userId : UserId) (parts : List Part)
    (directory : Directory) : UploadResult :=
  uploadArrayLoop clock parts ⟨⟨userId, [], none, []⟩, directory, 0, arrayMaxCount, []⟩

/-- The file parts of a multipart body, in arrival order. -/
def fileParts : List Part → List FilePart
  | [] => []
  | .field _ _ :: rest => fileParts rest
  | .file f :: rest => f :: fileParts rest

/-! ## The handler of `POST /upload-multiple` -/

/-- The JSON body of a response of the upload route. -/
inductive Body where
  | error (error : Str)
  | success (message : Str) (imageUrls : List Str)
  deriving DecidableEq, Repr

/-- A response: `res.status(status).json(body)`. -/
structure Response where
  status : Nat
  body : Body
  deriving DecidableEq, Repr

/-- The constant `MAX_SIZE` of the handler. -/
def MAX_SIZE : Nat := 5 * 1024 * 1024 * 1024

/-- The text of the quota response. -/
def quotaMessage : Str :=
  ("The server administrator has set a 5GB limit for images. " ++
    "Please contact support or remove old images.").toList

/-- The callback given to `upload.array('images', 20)`. -/
def uploadCallback (err : Option JsError) (req : Req) : Response :=
  match err with
  | some e =>
    if e.isMulterError then
      if e.code = "LIMIT_FILE_SIZE".toList then
        ⟨400, .error "File too large. Maximum size is 5MB".toList⟩
      else if e.code = "LIMIT_FILE_COUNT".toList then
        ⟨400, .error "Too many files. Maximum is 20 files".toList⟩
      else ⟨400, .error e.message⟩
    else ⟨500, .error e.message⟩
  | none =>
    if req.files.length = 0 then ⟨400, .error "No images uploaded".toList⟩
    else
      let imageUrls := req.files.map (fun file => "/uploads/listings/".toList ++ file.filename)
      ⟨200, .success "Upload successful!".toList imageUrls⟩

/-- The handler of `router.post('/upload-multiple', verifyToken, ...)` for an
authenticated user and a multipart body: the response and the directory
`imagesDir` after it. -/
def uploadMultiple (clock : Nat → Nat) (userId : UserId) (parts : List Part)
    (imagesDir : Directory) : Response × Directory :=
  let currentSize := getDirectorySize imagesDir
  if currentSize ≥ MAX_SIZE then (⟨400, .error quotaMessage⟩, imagesDir)
  else
    let result := uploadArray clock userId parts imagesDir
    (uploadCallback result.err result.req, result.directory)

/-! ## The auditor's filename grammar -/

/-- The groups captured by the pattern of `analyzeListingImages`:
`match[1]` to `match[4]`. -/
structure FileMatch where
  userId : Str
  listingCode : Str
  imageNumber : Str
  extension : Str
  deriving DecidableEq, Repr

/-- The call `file.match(pattern)` for the pattern
`/^img\.([0-9a-f]{7})\.([a-z0-9]+)\.(\d{2})(\.[a-z]+)$/i`.
No class of the pattern contains `.`, so each greedy group can only end at the
next `.` (or at the end of the name) and the match, if any, is found without
backtracking: seven class characters, the longest run of `[a-z0-9]`, two
digits, and a run of `[a-z]` that reaches the end. -/
def matchPattern (file : Str) : Option FileMatch :=
  match file with
  | c1 :: c2 :: c3 :: c4 :: rest =>
    if matchCharI 'i' c1 && matchCharI 'm' c2 && matchCharI 'g' c3 && decide (c4 = '.') then
      let userId := rest.take 7
      if userId.length = 7 ∧ userId.all (matchClassI classHex) = true then
        match rest.drop 7 with
        | '.' :: rest1 =>
          let listingCode := rest1.takeWhile (matchClassI classAlnum)
          if listingCode = [] then none
          else
            match rest1.dropWhile (matchClassI classAlnum) with
            | '.' :: d1 :: d2 :: '.' :: ext =>
              if classDigit d1 && classDigit d2 && !ext.isEmpty &&
                  ext.all (matchClassI classAlpha) then
                some ⟨userId, listingCode, [d1, d2], '.' :: ext⟩
              else none
            | _ => none
        | _ => none
      else none
    else none
  | _ => none

/-- The white space `parseInt` skips: the `WhiteSpace` and `LineTerminator`
code points. -/
def isStrWhiteSpace (c : Char) : Bool :=
  let n := c.toNat
  n = 0x09 || n = 0x0A || n = 0x0B || n = 0x0C || n = 0x0D || n = 0x20 || n = 0xA0 ||
  n = 0x1680 || (0x2000 ≤ n && n ≤ 0x200A) || n = 0x2028 || n = 0x2029 || n = 0x202F ||
  n = 0x205F || n = 0x3000 || n = 0xFEFF

/-- The value of a run of decimal digits, read from the left. -/
def digitsValue (digits : Str) : Nat :=
  digits.foldl (fun acc d => 10 * acc + (d.toNat - '0'.toNat)) 0

/-- The call `parseInt(string, 10)`: leading white space is skipped, one sign is
read, then the longest run of decimal digits; `none` is `NaN`. -/
def parseInt (string : Str) : Option Int :=
  let s := string.dropWhile isStrWhiteSpace
  let negative := s.head? = some '-'
  let s1 := if s.head? = some '-' ∨ s.head? = some '+' then s.drop 1 else s
  let digits := s1.takeWhile classDigit
  if digits = [] then none
  else if negative then some (-(digitsValue digits : Int))
  else some (digitsValue digits : Int)

/-! ## `analyzeListingImages`: the two categories -/

/-- An element of `validFiles` (without `fullPath`, which is the directory path
joined with `filename`). -/
structure ValidFile where
  filename : Str
  userId : Str
  listingCode : Str
  imageNumber : Str
  extension : Str
  deriving DecidableEq, Repr

/-- The loop `files.forEach(file => ...)` that fills `validFiles` and
`invalidFiles`, on the names still to visit. -/
def categorizeLoop : List Str → List ValidFile × List Str → List ValidFile × List Str
  | [], acc => acc
  | file :: rest, (validFiles, invalidFiles) =>
    match matchPattern file with
    | some m =>
      categorizeLoop rest
        (validFiles ++ [⟨file, m.userId, m.listingCode, m.imageNumber, m.extension⟩],
          invalidFiles)
    | none => categorizeLoop rest (validFiles, invalidFiles ++ [file])

/-- The arrays `validFiles` and `invalidFiles` of `analyzeListingImages` for the
names `readdirSync` returned. -/
def categorize (files : List Str) : List ValidFile × List Str :=
  categorizeLoop files ([], [])

/-! ### The spec's words for the grammar -/

/-- A character of `0-9a-f`, compared case-insensitively. -/
def isHexDigitI (c : Char) : Prop :=
  c.isDigit = true ∨ ('a' ≤ c.toLower ∧ c.toLower ≤ 'f')

instance (c : Char) : Decidable (isHexDigitI c) := by
  unfold isHexDigitI; infer_instance

/-- The spec's grammar `img.<7 hex chars>.<alnum listingCode>.<2 digits>.<alpha
extension>`, case-insensitive, for a whole name. -/
def isGrammarName (name : Str) : Prop :=
  ∃ img hex code digits ext : Str,
    name = img ++ ".".toList ++ hex ++ ".".toList ++ code ++ ".".toList ++ digits ++
      ".".toList ++ ext ∧
    toLowerCase img = "img".toList ∧
    hex.length = 7 ∧ (∀ c ∈ hex, isHexDigitI c) ∧
    code ≠ [] ∧ (∀ c ∈ code, c.isAlphanum = true) ∧
    digits.length = 2 ∧ (∀ c ∈ digits, c.isDigit = true) ∧
    ext ≠ [] ∧ (∀ c ∈ ext, c.isAlpha = true)

/-! ## `analyzeListingImages`: listings and their sequences -/

/-- The statistics `listingStats[listingKey]` of one listing. -/
structure ListingStat where
  key : Str
  userId : Str
  listingCode : Str
  imageCount : Nat
  numberSequence : List Int
  deriving DecidableEq, Repr

/-- The key of a file in `listingStats`: the template string with `userId`,
a hyphen and `listingCode`. -/
def listingKey (file : ValidFile) : Str :=
  file.userId ++ '-' :: file.listingCode

/-- The listing part of the body of `validFiles.forEach(file => ...)`: the entry
of the key is created when absent, then its count grows by one and the number
`parseInt(file.imageNumber, 10)` is pushed. The entries are kept in the order
of their creation, in which `for (const key in listingStats)` visits them.
(`parseInt` never yields `NaN` here, `imageNumber` being two digits; `0` stands
for it.) -/
def addListingStat (listingStats : List ListingStat) (file : ValidFile) : List ListingStat :=
  let key := listingKey file
  let created :=
    if listingStats.any (fun s => decide (s.key = key)) then listingStats
    else listingStats ++ [⟨key, file.userId, file.listingCode, 0, []⟩]
  created.map (fun s =>
    if s.key = key then
      { s with imageCount := s.imageCount + 1,
               numberSequence := s.numberSequence ++ [(parseInt file.imageNumber).getD 0] }
    else s)

/-- The object `listingStats` after `validFiles.forEach`. -/
def listingStats (validFiles : List ValidFile) : List ListingStat :=
  validFiles.foldl addListingStat []

/-- The call `numberSequence.sort((a, b) => a - b)`: ascending and stable. -/
def sortNumbers (numberSequence : List Int) : List Int :=
  numberSequence.insertionSort (fun a b => a ≤ b)

/-- The loop over the sorted sequence from index `i` on: the first
`numberSequence[i] !== i + 1` sets `isSequential = false` and breaks. -/
def isSequentialLoop : List Int → Nat → Bool
  | [], _ => true
  | x :: rest, i => if x ≠ (i : Int) + 1 then false else isSequentialLoop rest (i + 1)

/-- The call `Math.max(...sequence)`; `none` is `-Infinity`, its value on no
argument. -/
def mathMax : List Int → Option Int
  | [] => none
  | x :: rest => some (rest.foldl (fun m y => max m y) x)

/-- The method `Array.prototype.join(separator)` on strings. -/
def joinWith (separator : Str) : List Str → Str
  | [] => []
  | [s] => s
  | s :: rest => s ++ separator ++ joinWith separator rest

/-- The function `findMissingNumbers`: `i` runs from 1 to the maximum and is
kept when `sequence.includes(i)` is false. -/
def findMissingNumbers (sequence : List Int) : Str :=
  if sequence.length = 0 then "none".toList
  else
    match mathMax sequence with
    | none => "none".toList
    | some max =>
      let missing : List Nat :=
        (List.range' 1 max.toNat).filter (fun (i : Nat) => !decide (Int.ofNat i ∈ sequence))
      if missing.length ≠ 0 then joinWith ", ".toList (missing.map numberToString)
      else "none".toList

/-- What `analyzeListingImages` prints for one listing: the listing, its image
count, `Sequence Integrity` (`true` is `OK`, `false` is `BROKEN`) and, when
broken, the sorted sequence and the missing numbers. -/
structure ListingReport where
  listingCode : Str
  userId : Str
  imageCount : Nat
  isSequential : Bool
  actualSequence : Option (List Int)
  missingNumbers : Option Str
  deriving DecidableEq, Repr

/-- The body of `for (const key in listingStats)` for one listing. -/
def reportListing (listing : ListingStat) : ListingReport :=
  let numberSequence := sortNumbers listing.numberSequence
  let isSequential := isSequentialLoop numberSequence 0
  ⟨listing.listingCode, listing.userId, listing.imageCount, isSequential,
    if isSequential then none else some numberSequence,
    if isSequential then none else some (findMissingNumbers numberSequence)⟩

/-! ## The listings directory of the auditor -/

/-- The content of a regular file. -/
abbrev Bytes := List Nat

/-- The regular files of a directory with their contents, in the order
`readdirSync` lists them. -/
abbrev FileTable := List (Str × Bytes)

/-- The content stored under a name, if any. -/
def readFile : FileTable → Str → Option Bytes
  | [], _ => none
  | (n, content) :: rest, name => if n = name then some content else readFile rest name

/-- The table after a file is written under a name (a file of that name is
replaced). -/
def FileTable.write (table : FileTable) (name : Str) (content : Bytes) : FileTable :=
  table.filter (fun e => decide (e.1 ≠ name)) ++ [(name, content)]

/-- The table after the file of a name is unlinked. -/
def FileTable.remove (table : FileTable) (name : Str) : FileTable :=
  table.filter (fun e => decide (e.1 ≠ name))

/-- The directory `listingsDir` as the auditor sees it: its regular files, and
its sub-directory `temp` (the scratch directory of `fixSequenceNumbers`) with
the regular files in it, `none` when there is no such sub-directory. Other
kinds of entries are outside the embedding. -/
structure ListingsDir where
  files : FileTable
  temp : Option FileTable
  deriving DecidableEq, Repr

/-- The names `fs.readdirSync(listingsDir)` returns. -/
def readdirListings (dir : ListingsDir) : List Str :=
  dir.files.map Prod.fst ++ (if dir.temp.isSome then ["temp".toList] else [])

/-- The result of `fs.existsSync(tempDir)`: a directory or a regular file named
`temp`. -/
def existsTemp (dir : ListingsDir) : Bool :=
  dir.temp.isSome || (readFile dir.files "temp".toList).isSome

/-! ## `fixSequenceNumbers` -/

/-- The line terminators, which `.` does not match. -/
def isLineTerminator (c : Char) : Bool :=
  c.toNat = 0x0A || c.toNat = 0x0D || c.toNat = 0x2028 || c.toNat = 0x2029

/-- A literal text of a pattern under the `i` flag, matched at the start of a
text: the rest of the text after it. -/
def matchLiteralI : Str → Str → Option Str
  | [], s => some s
  | _ :: _, [] => none
  | p :: ps, c :: cs => if matchCharI p c then matchLiteralI ps cs else none

/-- The call `file.match(pattern)` for the pattern of `fixSequenceNumbers`,
built from the template with `^img\.`, `userId`, `\.`, `listingCode` and
`\.(\d{2})\.(.*?)$`, flag `i`: the groups `match[1]` and `match[2]`. The
arguments are taken as literal text, which they are when made of letters and
digits. The lazy `(.*?)` before `$` takes the rest of the name, which must hold
no line terminator. -/
def matchFixPattern (userId listingCode file : Str) : Option (Str × Str) :=
  match matchLiteralI ("img.".toList ++ userId ++ '.' :: listingCode ++ ['.']) file with
  | some (d1 :: d2 :: '.' :: extension) =>
    if classDigit d1 && classDigit d2 && extension.all (fun c => !isLineTerminator c) then
      some ([d1, d2], extension)
    else none
  | _ => none

/-- An element of the array `files` of `fixSequenceNumbers` (without
`fullPath`). -/
structure FixFile where
  filename : Str
  number : Int
  extension : Str
  deriving DecidableEq, Repr

/-- The names kept by `.filter(file => pattern.test(file))`, turned into records
by `.map(...)`, in the order of the listing. -/
def matchingFiles (userId listingCode : Str) (names : List Str) : List FixFile :=
  names.filterMap (fun file =>
    (matchFixPattern userId listingCode file).map (fun m =>
      (⟨file, (parseInt m.1).getD 0, m.2⟩ : FixFile)))

/-- The array `files`: the matching files after
`.sort((a, b) => a.number - b.number)`, ascending and stable. -/
def selectFiles (userId listingCode : Str) (names : List Str) : List FixFile :=
  (matchingFiles userId listingCode names).insertionSort (fun a b => a.number ≤ b.number)

/-- The name `newFilename` given to `files[i]`. -/
def newFilename (userId listingCode : Str) (i : Nat) (file : FixFile) : Str :=
  "img.".toList ++ userId ++ '.' :: listingCode ++ '.' ::
    padStart (numberToString (i + 1)) 2 '0' ++ '.' :: file.extension

/-- One file-system call of `fixSequenceNumbers`. -/
inductive FsOp where
  | mkdirTemp
  | copyToTemp (source target : Str)
  | unlink (name : Str)
  | copyFromTemp (name : Str)
  | unlinkTemp (name : Str)
  | rmdirTemp
  deriving DecidableEq, Repr

/-- The effect of one call, `none` when it throws: `mkdirSync(tempDir)`,
`copyFileSync(listingsDir/source, tempDir/target)`, `unlinkSync` of an original,
`copyFileSync(tempDir/name, listingsDir/name)`, `unlinkSync` in the scratch
directory, `rmdirSync(tempDir)`. -/
def FsOp.run (op : FsOp) (dir : ListingsDir) : Option ListingsDir :=
  match op with
  | .mkdirTemp => if existsTemp dir then none else some { dir with temp := some [] }
  | .copyToTemp source target =>
    match readFile dir.files source, dir.temp with
    | some content, some temp => some { dir with temp := some (temp.write target content) }
    | _, _ => none
  | .unlink name =>
    if (readFile dir.files name).isSome then some { dir with files := dir.files.remove name }
    else none
  | .copyFromTemp name =>
    match dir.temp with
    | some temp =>
      match readFile temp name with
      | some content =>
        if name = "temp".toList then none
        else some { dir with files := dir.files.write name content }
      | none => none
    | none => none
  | .unlinkTemp name =>
    match dir.temp with
    | some temp =>
      if (readFile temp name).isSome then some { dir with temp := some (temp.remove name) }
      else none
    | none => none
  | .rmdirTemp =>
    match dir.temp with
    | some [] => some { dir with temp := none }
    | _ => none

/-- The states after each call of a run of calls that stops at the first call
that throws. -/
def runOps : List FsOp → ListingsDir → List ListingsDir
  | [], _ => []
  | op :: rest, dir =>
    match op.run dir with
    | none => []
    | some next => next :: runOps rest next

/-- The calls of `fixSequenceNumbers` up to the deletion of the originals: the
scratch directory is created when absent, every file is copied into it under
its new name, then every original is unlinked. -/
def phase1Ops (userId listingCode : Str) (dir : ListingsDir) (files : List FixFile) :
    List FsOp :=
  (if existsTemp dir then [] else [FsOp.mkdirTemp]) ++
    files.enum.map (fun p => FsOp.copyToTemp p.2.filename (newFilename userId listingCode p.1 p.2)) ++
    files.map (fun file => FsOp.unlink file.filename)

/-- The calls of `fixSequenceNumbers` from `fs.readdirSync(tempDir)` on: every
file of the scratch directory is copied back, then unlinked there, and the
scratch directory is removed. -/
def phase2Ops (fixedFiles : List Str) : List FsOp :=
  fixedFiles.map FsOp.copyFromTemp ++ fixedFiles.map FsOp.unlinkTemp ++ [FsOp.rmdirTemp]

/-- The states of the directory after each file-system call of
`fixSequenceNumbers(userId, listingCode)`; a call that throws ends the run (the
`catch` block only logs). -/
def fixSequenceTrace (userId listingCode : Str) (dir : ListingsDir) : List ListingsDir :=
  if userId = [] ∨ listingCode = [] then []
  else
    let files := selectFiles userId listingCode (readdirListings dir)
    if files.length = 0 then []
    else
      let states1 := runOps (phase1Ops userId listingCode dir files) dir
      if states1.length < (phase1Ops userId listingCode dir files).length then states1
      else
        let dir1 := states1.getLastD dir
        let fixedFiles := (dir1.temp.getD []).map Prod.fst
        states1 ++ runOps (phase2Ops fixedFiles) dir1

/-- The directory after `fixSequenceNumbers(userId, listingCode)`. -/
def fixSequenceNumbers (userId listingCode : Str) (dir : ListingsDir) : ListingsDir :=
  (fixSequenceTrace userId listingCode dir).getLastD dir

/-! ## `analyzeListingImages` as a whole -/

/-- What `analyzeListingImages` prints: the number of entries, the two
categories, the listings, and the total size of the valid files. -/
structure AnalysisReport where
  totalFiles : Nat
  validFiles : List ValidFile
  invalidFiles : List Str
  listings : List ListingReport
  totalSize : Nat
  deriving DecidableEq, Repr

/-- The function `analyzeListingImages` on the file system, `none` when
`listingsDir` does not exist: the report, if one is printed, and the file system
afterwards. Without the directory it is created (`mkdirSync`, recursive) and the
function returns; with it the directory is read (`readdirSync`, `statSync`). -/
def analyzeListingImages (fs : Option ListingsDir) : Option AnalysisReport × Option ListingsDir :=
  match fs with
  | none => (none, some ⟨[], none⟩)
  | some dir =>
    let files := readdirListings dir
    let categories := categorize files
    let listings := (listingStats categories.1).map reportListing
    let totalSize :=
      categories.1.foldl
        (fun total file => total + ((readFile dir.files file.filename).getD []).length) 0
    (some ⟨files.length, categories.1, categories.2, listings, totalSize⟩, some dir)

/-- The files `fixSequenceNumbers` writes for the array `files` from index `k`
on: the new name of each with the content of its original in `table`. -/
def renamedFiles (userId listingCode : Str) (table : FileTable) (files : List FixFile)
    (k : Nat) : FileTable :=
  (files.enumFrom k).map (fun p =>
    (newFilename userId listingCode p.1 p.2, (readFile table p.2.filename).getD []))

/-- The array `files` a second run of `fixSequenceNumbers` finds after a run on
the array `files`: the renamed files whose new number still has two digits,
with their new numbers. -/
def renumbered (userId listingCode : Str) (files : List FixFile) : List FixFile :=
  ((files.enumFrom 0).take 99).map (fun p =>
    (⟨newFilename userId listingCode p.1 p.2, (p.1 : Int) + 1, p.2.extension⟩ : FixFile))

/-! ## The command line of the auditor -/

/-- What `main` writes to the console, as far as the commands differ: the usage
text of `showHelp`, a line of `console.error`, the run of `analyze` with the
report it prints, the run of `fix-sequence` on its two arguments. -/
inductive CliOutput where
  | usage
  | error (message : Str)
  | analysis (report : Option AnalysisReport)
  | repair (userId listingCode : Str)
  deriving DecidableEq, Repr

/-- The function `main` on `args = process.argv.slice(2)` and the file system
(`none` when `listingsDir` does not exist): what it prints and the file system
afterwards. A missing directory makes `fs.readdirSync` throw inside
`fixSequenceNumbers`, whose `catch` block only logs. -/
def main (args : List Str) (fs : Option ListingsDir) : List CliOutput × Option ListingsDir :=
  match args.head? with
  | none => ([.usage], fs)
  | some command =>
    if command = [] ∨ command = "help".toList then ([.usage], fs)
    else if command = "analyze".toList then
      ([.analysis (analyzeListingImages fs).1], (analyzeListingImages fs).2)
    else if command = "fix-sequence".toList then
      match args with
      | _ :: userId :: listingCode :: _ =>
        ([.repair userId listingCode], fs.map (fixSequenceNumbers userId listingCode))
      | _ =>
        ([.error "Both userId and listingCode are required for fix-sequence command".toList,
          .usage], fs)
    else ([.error ("Unknown command: ".toList ++ command), .usage], fs)

/-- One run of `node manage-listing-images.js` with its arguments: what is
printed, the file system afterwards and the exit status. The module ends with
`main().catch(console.error)`; no statement of it calls `process.exit` or
assigns `process.exitCode`, so the status is the default `0`. -/
structure CliRun where
  output : List CliOutput
  fs : Option ListingsDir
  exitCode : Nat
  deriving DecidableEq, Repr

/-- The script `manage-listing-images.js` run with `args`. -/
def manageListingImages (args : List Str) (fs : Option ListingsDir) : CliRun :=
  ⟨(main args fs).1, (main args fs).2, 0⟩

/-! ## The route that serves an image -/

/-- The segments of a path between its separators `/`; the second argument is
the segment being read, last character first. -/
def splitSegments : Str → Str → List Str
  | [], segment => [segment.reverse]
  | c :: rest, segment =>
    if c = '/' then segment.reverse :: splitSegments rest []
    else splitSegments rest (c :: segment)

/-- The segments `path.normalize` keeps for an absolute path, the kept ones
last first: an empty segment and `.` are dropped, `..` removes the segment
before it (and nothing at the root). -/
def normalizeSegments : List Str → List Str → List Str
  | [], kept => kept.reverse
  | segment :: rest, kept =>
    if segment = [] ∨ segment = ".".toList then normalizeSegments rest kept
    else if segment = "..".toList then normalizeSegments rest kept.tail
    else normalizeSegments rest (segment :: kept)

/-- The call `path.join(directory, name)` of the POSIX `path` module for an
absolute `directory` (`imagesDir` is built from `__dirname`): the two are
joined with `/` and the result is normalized. -/
def pathJoin (directory name : Str) : Str :=
  let joined := if name = [] then directory else directory ++ '/' :: name
  let path := joinWith "/".toList (normalizeSegments (splitSegments joined []) [])
  if path = [] then "/".toList
  else if joined.getLast? = some '/' then '/' :: path ++ "/".toList
  else '/' :: path

/-- A response of the route that serves an image: `res.redirect(url)`, or
`res.set('Cache-Control', value)` followed by `res.sendFile(path)`. -/
inductive ImageResponse where
  | redirect (url : Str)
  | sendFile (cacheControl : Str) (path : Str)
  deriving DecidableEq, Repr

/-- The address of the placeholder image, with `width = 800` and
`height = 600` filled in. -/
def placeholderUrl : Str :=
  "https://via.placeholder.com/800x600/e0e0e0/808080?text=Image+Not+Available".toList

/-- The handler of `router.get('/:userIdHex/:listingCode/:filename', ...)`:
`existsSync` is `fs.existsSync` on the file system of the server, `filename` is
`req.params.filename` (the path segment, percent-decoded by the router).
Neither `path.join` nor `fs.existsSync` throws on a string, so the `catch`
branch is not reached. -/
def serveImage (existsSync : Str → Bool) (imagesDir filename : Str) : ImageResponse :=
  let imagePath := pathJoin imagesDir filename
  if !existsSync imagePath then .redirect placeholderUrl
  else .sendFile "public, max-age=31536000".toList imagePath

/-! ## The client-side check `validateImageFile` -/

/-- A `File` object of the browser, as far as `validateImageFile` reads it. -/
structure ClientFile where
  name : Str
  type : Str
  size : Nat
  deriving DecidableEq, Repr

/-- The constant `MAX_FILE_SIZE` of the client script. -/
def MAX_FILE_SIZE : Nat := 5 * 1024 * 1024

/-- The constant `MAX_FILES` of the client script. -/
def MAX_FILES : Nat := 20

/-- The constant `ALLOWED_TYPES` of the client script. -/
def ALLOWED_TYPES : List Str :=
  ["image/jpeg".toList, "image/png".toList, "image/webp".toList]

/-- The message of the error thrown for a type outside `ALLOWED_TYPES`. -/
def invalidTypeMessage (file : ClientFile) : Str :=
  "File ".toList ++ Char.ofNat 34 :: file.name ++ Char.ofNat 34 ::
    " is not a valid image type. Only JPEG, PNG and WebP are allowed.".toList

/-- The message of the error thrown for a size above `MAX_FILE_SIZE`. -/
def tooLargeMessage (file : ClientFile) : Str :=
  "File ".toList ++ Char.ofNat 34 :: file.name ++ Char.ofNat 34 ::
    " is too large. Maximum size is 5MB.".toList

/-- The function `validateImageFile` of the client script: `Except.error` is
the message of the `Error` thrown. -/
def validateImageFile (file : ClientFile) : Except Str Bool :=
  if ¬ file.type ∈ ALLOWED_TYPES then .error (invalidTypeMessage file)
  else if file.size > MAX_FILE_SIZE then .error (tooLargeMessage file)
  else .ok true

/-! ### The spec's words for a base-36 numeral -/

/-- The value of a base-36 digit: `0`-`9` stand for 0 to 9 and `a`-`z` for 10
to 35. -/
def base36Digit (c : Char) : Nat :=
  if c.toNat < 58 then c.toNat - 48 else c.toNat - 87

/-- The number a run of base-36 digits denotes, read from the left. -/
def base36Value (digits : Str) : Nat :=
  digits.foldl (fun acc c => 36 * acc + base36Digit c) 0

/-! ## The storage summary of `analyzeListingImages` -/

/-- The result of a JavaScript division of two non-negative integers: a
quotient, `NaN` or `Infinity`. The quotient is kept exact; its rounding to a
double is outside the embedding. -/
inductive JsNumber where
  | finite (value : ℚ)
  | nan
  | infinity
  deriving DecidableEq

/-- The operator `/` on two non-negative integers: `0 / 0` is `NaN` and any
other division by `0` is `Infinity`. -/
def jsDivide (a b : Nat) : JsNumber :=
  if b = 0 then (if a = 0 then .nan else .infinity)
  else .finite ((a : ℚ) / (b : ℚ))

/-- The value `totalSize / validFiles.length` passed to `formatBytes` for the
line `Average file size`; the line is printed for every report. -/
def averageFileSize (report : AnalysisReport) : JsNumber :=
  jsDivide report.totalSize report.validFiles.length

end ListingImages

namespace ListingImages

/-! # Theorems -/

theorem char_le_iff (a b : Char) : a ≤ b ↔ a.toNat ≤ b.toNat := by
  rfl

theorem classHex_iff (c : Char) :
    classHex c = true ↔ (('0' ≤ c ∧ c ≤ '9') ∨ ('a' ≤ c ∧ c ≤ 'f')) := by
  simp only [classHex, inRange, Bool.or_eq_true, Bool.and_eq_true, decide_eq_true_eq, char_le_iff]

theorem stripNonHexChars_eq_filter (s : Str) : stripNonHexChars s = s.filter classHex := by
  induction s with
  | nil => rfl
  | cons c rest ih =>
    by_cases h : classHex c = true
    · have h2 := (classHex_iff c).1 h
      simp [stripNonHexChars, List.filter_cons, h, h2, ih]
    · have h2 : ¬ (('0' ≤ c ∧ c ≤ '9') ∨ ('a' ≤ c ∧ c ≤ 'f')) := fun hh => h ((classHex_iff c).2 hh)
      simp only [stripNonHexChars, List.filter_cons, h, h2, ih, if_false]
      simp

theorem leftPad_eq (s : Str) (width : Nat) (pad : Char) :
    leftPad s width pad = List.replicate (width - s.length) pad ++ s := by
  generalize hk : width - s.length = k
  induction k generalizing s with
  | zero =>
    rw [leftPad]
    have : ¬ s.length < width := by omega
    simp [this]
  | succ k ih =>
    rw [leftPad]
    have h1 : s.length < width := by omega
    rw [if_pos h1, ih (pad :: s) (by simp only [List.length_cons]; omega)]
    rw [List.replicate_succ', List.append_assoc]
    rfl

theorem truncate_eq_take (s : Str) (n : Nat) : truncate s n = s.take n := by
  induction n generalizing s with
  | zero => cases s <;> rfl
  | succ k ih =>
    cases s with
    | nil => rfl
    | cons c rest => simp [truncate, ih]

theorem padStart_eq (s : Str) (t : Nat) (pad : Char) :
    padStart s t pad = List.replicate (t - s.length) pad ++ s := by
  unfold padStart
  split
  · next h => simp [Nat.sub_eq_zero_of_le h]
  · rfl

/-- C2: for every user identifier, `formatUserIdHex` returns exactly 7 characters,
each in `[0-9a-f]`, equal to the identifier's string form with every character
outside `[0-9a-f]` removed, left-padded with `0` to width 7 and truncated to its
first 7 characters. -/
theorem formatUserIdHex_spec (userId : UserId) :
    (formatUserIdHex userId).length = 7 ∧
    (∀ c ∈ formatUserIdHex userId, ('0' ≤ c ∧ c ≤ '9') ∨ ('a' ≤ c ∧ c ≤ 'f')) ∧
    formatUserIdHex userId = userIdHexSpec userId := by
  have hform : formatUserIdHex userId =
      (List.replicate (7 - (userId.toString.filter classHex).length) '0' ++
        userId.toString.filter classHex).take 7 := by
    simp [formatUserIdHex, substring, padStart_eq]
  refine ⟨?_, ?_, ?_⟩
  · rw [hform]
    simp only [List.length_take, List.length_append, List.length_replicate]
    omega
  · intro c hc
    rw [hform] at hc
    have hc2 := List.mem_of_mem_take hc
    rw [List.mem_append] at hc2
    rcases hc2 with h | h
    · have : c = '0' := (List.mem_replicate.1 h).2
      subst this
      left; decide
    · exact (classHex_iff c).1 (List.mem_filter.1 h).2
  · rw [hform, userIdHexSpec, truncate_eq_take, leftPad_eq, stripNonHexChars_eq_filter]

theorem ascii_cases (P : Char → Prop) (h : ∀ k, k < 128 → P (Char.ofNat k)) (c : Char)
    (hc : c.toNat < 128) : P c := by
  have := h c.toNat hc
  rwa [Char.ofNat_toNat] at this

theorem isUpper_iff (c : Char) : c.isUpper = true ↔ 65 ≤ c.toNat ∧ c.toNat ≤ 90 := by
  simp only [Char.isUpper, Bool.and_eq_true, decide_eq_true_eq, ge_iff_le]
  rfl

theorem isLower_iff (c : Char) : c.isLower = true ↔ 97 ≤ c.toNat ∧ c.toNat ≤ 122 := by
  simp only [Char.isLower, Bool.and_eq_true, decide_eq_true_eq, ge_iff_le]
  rfl

theorem isDigit_iff (c : Char) : c.isDigit = true ↔ 48 ≤ c.toNat ∧ c.toNat ≤ 57 := by
  simp only [Char.isDigit, Bool.and_eq_true, decide_eq_true_eq, ge_iff_le]
  rfl

theorem isAlphanum_lt (c : Char) (h : c.isAlphanum = true) : c.toNat < 128 := by
  simp only [Char.isAlphanum, Char.isAlpha, Bool.or_eq_true, isUpper_iff, isLower_iff,
    isDigit_iff] at h
  omega

theorem isAlpha_lt (c : Char) (h : c.isAlpha = true) : c.toNat < 128 := by
  simp only [Char.isAlpha, Bool.or_eq_true, isUpper_iff, isLower_iff] at h
  omega

theorem matchClassI_alnum_of_isAlphanum (c : Char) (h : c.isAlphanum = true) :
    matchClassI classAlnum c = true := by
  have key : ∀ k, k < 128 → (Char.ofNat k).isAlphanum = true →
      matchClassI classAlnum (Char.ofNat k) = true := by decide
  exact ascii_cases (fun c => c.isAlphanum = true → matchClassI classAlnum c = true) key c
    (isAlphanum_lt c h) h

theorem matchClassI_alpha_toLower (c : Char) (h : c.isAlpha = true) :
    matchClassI classAlpha c.toLower = true := by
  have key : ∀ k, k < 128 → (Char.ofNat k).isAlpha = true →
      matchClassI classAlpha (Char.ofNat k).toLower = true := by decide
  exact ascii_cases (fun c => c.isAlpha = true → matchClassI classAlpha c.toLower = true) key c
    (isAlpha_lt c h) h

theorem matchClassI_of_class (cls : Char → Bool) (c : Char) (h : cls c = true) :
    matchClassI cls c = true := by
  simp [matchClassI, h]

theorem takeWhile_append_stop (p : Char → Bool) (l r : Str) (x : Char)
    (hl : ∀ c ∈ l, p c = true) (hx : p x = false) :
    (l ++ x :: r).takeWhile p = l ∧ (l ++ x :: r).dropWhile p = x :: r := by
  induction l with
  | nil => simp [List.takeWhile, List.dropWhile, hx]
  | cons a l ih =>
    have ha : p a = true := hl a (List.mem_cons_self _ _)
    have ih2 := ih (fun c hc => hl c (List.mem_cons_of_mem _ hc))
    simp [List.takeWhile, List.dropWhile, ha, ih2.1, ih2.2]

theorem pad2_facts (n : Nat) (h1 : 1 ≤ n) (h2 : n ≤ 99) :
    (padStart (numberToString n) 2 '0').length = 2 ∧
    (padStart (numberToString n) 2 '0').all classDigit = true ∧
    parseInt (padStart (numberToString n) 2 '0') = some (n : Int) := by
  interval_cases n <;> decide

theorem formatUserIdHex_length (userId : UserId) : (formatUserIdHex userId).length = 7 := by
  simp only [formatUserIdHex, substring, padStart_eq, List.length_take, List.length_drop,
    List.length_append, List.length_replicate]
  omega

theorem formatUserIdHex_class (userId : UserId) :
    (formatUserIdHex userId).all (matchClassI classHex) = true := by
  rw [List.all_eq_true]
  intro c hc
  apply matchClassI_of_class
  simp only [formatUserIdHex, substring, padStart_eq] at hc
  have hc2 := List.mem_of_mem_take (List.mem_of_mem_drop hc)
  rw [List.mem_append] at hc2
  rcases hc2 with h | h
  · have : c = '0' := (List.mem_replicate.1 h).2
    subst this
    decide
  · exact (List.mem_filter.1 h).2

/-- The pattern of the auditor on a name assembled from well-formed components. -/
theorem matchPattern_assembled (hex code ext : Str) (d1 d2 : Char)
    (hlen : hex.length = 7) (hhex : hex.all (matchClassI classHex) = true)
    (hne : code ≠ []) (hcode : ∀ c ∈ code, matchClassI classAlnum c = true)
    (hd1 : classDigit d1 = true) (hd2 : classDigit d2 = true)
    (hext : ext ≠ []) (hall : ext.all (matchClassI classAlpha) = true) :
    matchPattern ('i' :: 'm' :: 'g' :: '.' :: (hex ++ '.' :: (code ++ '.' :: d1 :: d2 :: '.' :: ext)))
      = some ⟨hex, code, [d1, d2], '.' :: ext⟩ := by
  have hdot : matchClassI classAlnum '.' = false := by decide
  have htw := takeWhile_append_stop (matchClassI classAlnum) code (d1 :: d2 :: '.' :: ext) '.'
    hcode hdot
  have htake : (hex ++ '.' :: (code ++ '.' :: d1 :: d2 :: '.' :: ext)).take 7 = hex := by
    rw [← hlen]; exact List.take_left _ _
  have hdrop : (hex ++ '.' :: (code ++ '.' :: d1 :: d2 :: '.' :: ext)).drop 7
      = '.' :: (code ++ '.' :: d1 :: d2 :: '.' :: ext) := by
    rw [← hlen]; exact List.drop_left _ _
  have hemp : ext.isEmpty = false := by
    cases ext with
    | nil => exact absurd rfl hext
    | cons _ _ => rfl
  have h1 : matchCharI 'i' 'i' = true := by decide
  have h2 : matchCharI 'm' 'm' = true := by decide
  have h3 : matchCharI 'g' 'g' = true := by decide
  simp only [matchPattern, h1, h2, h3, htake, hdrop, htw.1, htw.2, hlen, hhex, hne, hd1, hd2,
    hemp, hall, decide_True, Bool.and_self, Bool.not_false, and_self, if_true, if_false]

/-- C1: the name `storage.filename` builds from a non-empty alphanumeric listing
code, a sequence number from 1 to 99 and an original name whose extension is a
dot followed by letters is `img.<hex>.<code>.<2 digits><lowercased extension>`,
it matches the auditor's pattern, and the captured groups are the hex user id,
the listing code, two digits that `parseInt` reads back as the number, and the
lowercased extension. -/
theorem filename_roundtrip (now : Nat) (req : Req) (file : FilePart)
    (listingCode letters : Str) (n : Nat)
    (hcode : bodyListingCode req.listingCodes = some listingCode)
    (hne : listingCode ≠ []) (halnum : ∀ c ∈ listingCode, c.isAlphanum = true)
    (hn : (filename now req file).2.imageCount = some n) (h1 : 1 ≤ n) (h99 : n ≤ 99)
    (hext : extname file.originalname = '.' :: letters) (hletters : letters ≠ [])
    (halpha : ∀ c ∈ letters, c.isAlpha = true) :
    (filename now req file).1 =
        "img.".toList ++ formatUserIdHex req.userId ++ ".".toList ++ listingCode ++ ".".toList ++
          padStart (numberToString n) 2 '0' ++ toLowerCase (extname file.originalname) ∧
    ∃ m, matchPattern (filename now req file).1 = some m ∧
      m.userId = formatUserIdHex req.userId ∧ m.listingCode = listingCode ∧
      parseInt m.imageNumber = some (n : Int) ∧
      m.extension = toLowerCase (extname file.originalname) := by
  obtain ⟨hplen, hpdig, hpparse⟩ := pad2_facts n h1 h99
  have hname : (filename now req file).1 =
      "img.".toList ++ formatUserIdHex req.userId ++ ".".toList ++ listingCode ++ ".".toList ++
        padStart (numberToString n) 2 '0' ++ toLowerCase (extname file.originalname) := by
    simp only [filename] at hn
    simp only [filename, hcode, Option.getD_some]
    have := Option.some.inj hn
    rw [this]
    simp
  refine ⟨hname, ?_⟩
  rw [hname]
  obtain ⟨d1, d2, hpad⟩ : ∃ d1 d2, padStart (numberToString n) 2 '0' = [d1, d2] := by
    match hp : padStart (numberToString n) 2 '0', hplen with
    | [a, b], _ => exact ⟨a, b, rfl⟩
  rw [hpad] at hpdig hpparse
  simp only [List.all_cons, List.all_nil, Bool.and_true, Bool.and_eq_true] at hpdig
  have hlow : toLowerCase (extname file.originalname) = '.' :: letters.map Char.toLower := by
    rw [hext]; rfl
  have hform : "img.".toList ++ formatUserIdHex req.userId ++ ".".toList ++ listingCode ++
      ".".toList ++ padStart (numberToString n) 2 '0' ++ toLowerCase (extname file.originalname)
      = 'i' :: 'm' :: 'g' :: '.' :: (formatUserIdHex req.userId ++ '.' :: (listingCode ++
          '.' :: d1 :: d2 :: '.' :: letters.map Char.toLower)) := by
    rw [hpad, hlow]; simp
  rw [hform, matchPattern_assembled (formatUserIdHex req.userId) listingCode
    (letters.map Char.toLower) d1 d2 (formatUserIdHex_length _) (formatUserIdHex_class _) hne
    (fun c hc => matchClassI_alnum_of_isAlphanum c (halnum c hc)) hpdig.1 hpdig.2
    (by simpa using hletters)
    (by
      rw [List.all_eq_true]
      intro c hc
      obtain ⟨a, ha, rfl⟩ := List.mem_map.1 hc
      exact matchClassI_alpha_toLower a (halpha a ha))]
  exact ⟨_, rfl, rfl, rfl, hpparse, hlow.symm⟩

/-- C1 at userId 42, listing code `abc123`, the first file, `photo.JPG`. -/
theorem filename_roundtrip_witness :
    (filename 0 ⟨.num 42, ["abc123".toList], none, []⟩ ⟨[], "photo.JPG".toList, [], 0⟩).1 =
        "img.".toList ++ formatUserIdHex (.num 42) ++ ".".toList ++ "abc123".toList ++
          ".".toList ++ padStart (numberToString 1) 2 '0' ++
          toLowerCase (extname "photo.JPG".toList) ∧
    ∃ m, matchPattern
        (filename 0 ⟨.num 42, ["abc123".toList], none, []⟩ ⟨[], "photo.JPG".toList, [], 0⟩).1
          = some m ∧
      m.userId = formatUserIdHex (.num 42) ∧ m.listingCode = "abc123".toList ∧
      parseInt m.imageNumber = some (1 : Int) ∧
      m.extension = toLowerCase (extname "photo.JPG".toList) :=
  filename_roundtrip 0 ⟨.num 42, ["abc123".toList], none, []⟩ ⟨[], "photo.JPG".toList, [], 0⟩
    "abc123".toList "JPG".toList 1 (by decide) (by decide) (by decide) (by decide) (by decide)
    (by decide) (by decide) (by decide) (by decide)

theorem fileFilter_ok_iff (f : FilePart) : fileFilter f = .ok true ↔ allowedMime f.mimetype := by
  unfold fileFilter allowedMime
  split <;> simp_all

theorem filename_supplied (now : Nat) (req : Req) (f : FilePart) (c : Str) (j : Nat)
    (hc : bodyListingCode req.listingCodes = some c)
    (hj : req.imageCount = some j ∨ (req.imageCount = none ∧ j = 0)) :
    filename now req f =
      (canonicalName req.userId c (j + 1) f.originalname,
        { req with imageCount := some (j + 1) }) := by
  have hnum : (match req.imageCount with | none => 1 | some 0 => 1 | some c => c + 1) = j + 1 := by
    rcases hj with h | ⟨h, rfl⟩
    · rw [h]; cases j <;> rfl
    · rw [h]
  simp only [filename, hc, Option.getD_some, hnum, canonicalName]
  simp

theorem uploadArrayLoop_accepts (clock : Nat → Nat) (u : UserId) (c : Str)
    (files : List FilePart) :
    ∀ (st : MulterState) (j : Nat), st.req.userId = u →
      bodyListingCode st.req.listingCodes = some c →
      (st.req.imageCount = some j ∨ (st.req.imageCount = none ∧ j = 0)) →
      st.nfiles + files.length ≤ limitFiles → files.length ≤ st.filesLeft →
      (∀ f ∈ files, acceptable f) →
      (uploadArrayLoop clock (files.map Part.file) st).err = none ∧
      (uploadArrayLoop clock (files.map Part.file) st).req.files =
        st.req.files ++ (files.enumFrom (j + 1)).map (fun p => storedAs u c p.1 p.2) ∧
      (uploadArrayLoop clock (files.map Part.file) st).directory =
        ((files.enumFrom (j + 1)).map (fun p => storedAs u c p.1 p.2)).foldl
          (fun d s => writeFile d s.filename s.size) st.directory := by
  induction files with
  | nil =>
    intro st j _ _ _ _ _ _
    simp [uploadArrayLoop]
  | cons f rest ih =>
    intro st j hu hc hj hn hl hacc
    obtain ⟨hfield, hname, hmime, hsize⟩ := hacc f (List.mem_cons_self _ _)
    have hff : fileFilter f = .ok true := (fileFilter_ok_iff f).2 hmime
    simp only [List.length_cons] at hn hl
    have h1 : st.nfiles ≠ limitFiles := by omega
    have h2 : ¬ (f.fieldname ≠ "images".toList ∨ st.filesLeft = 0) := by
      rw [hfield]; simp; omega
    have h3 : ¬ limitFileSize < f.size := by
      simp only [limitFileSize]; omega
    have h4 : min f.size limitFileSize = f.size := by
      simp only [limitFileSize]; omega
    subst hu
    have hfn := filename_supplied (clock st.uploadedFiles.length) st.req f c j hc hj
    have step : uploadArrayLoop clock ((f :: rest).map Part.file) st =
        uploadArrayLoop clock (rest.map Part.file)
          { req := { st.req with imageCount := some (j + 1),
                                 files := st.req.files ++ [storedAs st.req.userId c (j + 1) f] },
            directory :=
              writeFile st.directory (canonicalName st.req.userId c (j + 1) f.originalname) f.size,
            nfiles := st.nfiles + 1,
            filesLeft := st.filesLeft - 1,
            uploadedFiles := st.uploadedFiles ++ [storedAs st.req.userId c (j + 1) f] } := by
      simp only [List.map_cons, uploadArrayLoop, h1, hname, h2, hff, hfn, h3, h4, if_false,
        storedAs]
    rw [step]
    have := ih
      { req := { st.req with imageCount := some (j + 1),
                             files := st.req.files ++ [storedAs st.req.userId c (j + 1) f] },
        directory :=
          writeFile st.directory (canonicalName st.req.userId c (j + 1) f.originalname) f.size,
        nfiles := st.nfiles + 1,
        filesLeft := st.filesLeft - 1,
        uploadedFiles := st.uploadedFiles ++ [storedAs st.req.userId c (j + 1) f] }
      (j + 1) rfl hc (Or.inl rfl)
      (by simp only; omega) (by simp only; omega)
      (fun g hg => hacc g (List.mem_cons_of_mem _ hg))
    obtain ⟨r1, r2, r3⟩ := this
    refine ⟨r1, ?_, ?_⟩
    · rw [r2]; simp [List.enumFrom_cons]
    · rw [r3]; simp [List.enumFrom_cons, storedAs]

theorem getDirectorySize_foldl (directory : Directory) (acc : Nat) :
    directory.foldl (fun totalSize file => if file.isFile then totalSize + file.size else totalSize)
      acc = acc + regularFileBytes directory := by
  induction directory generalizing acc with
  | nil => simp [regularFileBytes]
  | cons e rest ih =>
    rw [List.foldl_cons, ih]
    cases e with
    | file n s => simp [Entry.isFile, Entry.size, regularFileBytes, Nat.add_assoc]
    | dir n s ch => simp [Entry.isFile, regularFileBytes]
    | other n s => simp [Entry.isFile, regularFileBytes]

theorem regularFileBytes_append (a b : Directory) :
    regularFileBytes (a ++ b) = regularFileBytes a + regularFileBytes b := by
  induction a with
  | nil => simp [regularFileBytes]
  | cons e rest ih =>
    cases e <;> simp [regularFileBytes, ih, Nat.add_assoc]

/-- C5: `getDirectorySize` returns the sum of the sizes of the entries directly
inside the directory that are regular files; a sub-directory (whatever it
contains and whatever size its own `stat` reports) and any other non-regular
entry contribute 0, a regular file contributes its size, and an empty directory
yields 0. -/
theorem getDirectorySize_sums_regular_files (directory : Directory) :
    getDirectorySize directory = regularFileBytes directory ∧
    getDirectorySize [] = 0 ∧
    (∀ (before after : Directory) (name : Str) (size : Nat) (children : List Entry),
      getDirectorySize (before ++ Entry.dir name size children :: after) =
        getDirectorySize (before ++ after)) ∧
    (∀ (before after : Directory) (name : Str) (size : Nat),
      getDirectorySize (before ++ Entry.other name size :: after) =
        getDirectorySize (before ++ after)) ∧
    (∀ (before after : Directory) (name : Str) (size : Nat),
      getDirectorySize (before ++ Entry.file name size :: after) =
        getDirectorySize (before ++ after) + size) := by
  have h : ∀ d : Directory, getDirectorySize d = regularFileBytes d := by
    intro d
    simp [getDirectorySize, getDirectorySize_foldl]
  refine ⟨h directory, rfl, ?_, ?_, ?_⟩
  · intro before after name size children
    simp [h, regularFileBytes_append, regularFileBytes]
  · intro before after name size
    simp [h, regularFileBytes_append, regularFileBytes]
  · intro before after name size
    simp only [h, regularFileBytes_append, regularFileBytes]
    omega

/-- The errors the middleware can pass to the callback, with the part that
causes the size and the MIME errors. -/
theorem uploadArrayLoop_error_cases (clock : Nat → Nat) (parts : List Part) :
    ∀ st : MulterState,
      (uploadArrayLoop clock parts st).err = none ∨
      (uploadArrayLoop clock parts st).err = some (multerError "LIMIT_FILE_COUNT".toList) ∨
      (uploadArrayLoop clock parts st).err = some (multerError "LIMIT_UNEXPECTED_FILE".toList) ∨
      ((uploadArrayLoop clock parts st).err = some (multerError "LIMIT_FILE_SIZE".toList) ∧
        ∃ f, Part.file f ∈ parts ∧ limitFileSize < f.size) ∨
      ((uploadArrayLoop clock parts st).err =
          some ⟨false, [], "Only JPEG, PNG and WebP images are allowed".toList⟩ ∧
        ∃ f, Part.file f ∈ parts ∧ ¬ allowedMime f.mimetype) := by
  induction parts with
  | nil => intro st; left; rfl
  | cons p rest ih =>
    intro st
    have lift : ∀ st2 : MulterState,
        uploadArrayLoop clock (p :: rest) st = uploadArrayLoop clock rest st2 →
        ((uploadArrayLoop clock (p :: rest) st).err = none ∨
        (uploadArrayLoop clock (p :: rest) st).err = some (multerError "LIMIT_FILE_COUNT".toList) ∨
        (uploadArrayLoop clock (p :: rest) st).err =
          some (multerError "LIMIT_UNEXPECTED_FILE".toList) ∨
        ((uploadArrayLoop clock (p :: rest) st).err = some (multerError "LIMIT_FILE_SIZE".toList) ∧
          ∃ f, Part.file f ∈ p :: rest ∧ limitFileSize < f.size) ∨
        ((uploadArrayLoop clock (p :: rest) st).err =
            some ⟨false, [], "Only JPEG, PNG and WebP images are allowed".toList⟩ ∧
          ∃ f, Part.file f ∈ p :: rest ∧ ¬ allowedMime f.mimetype)) := by
      intro st2 h
      rw [h]
      rcases ih st2 with h1 | h1 | h1 | ⟨h1, f, hf, hs⟩ | ⟨h1, f, hf, hs⟩
      · exact Or.inl h1
      · exact Or.inr (Or.inl h1)
      · exact Or.inr (Or.inr (Or.inl h1))
      · exact Or.inr (Or.inr (Or.inr (Or.inl ⟨h1, f, List.mem_cons_of_mem _ hf, hs⟩)))
      · exact Or.inr (Or.inr (Or.inr (Or.inr ⟨h1, f, List.mem_cons_of_mem _ hf, hs⟩)))
    cases p with
    | field name value =>
      by_cases hname : name = "listingCode".toList
      · exact lift _ (by simp only [uploadArrayLoop, hname, if_true]; rfl)
      · exact lift _ (by simp only [uploadArrayLoop, hname, if_false]; rfl)
    | file f =>
      by_cases h1 : st.nfiles = limitFiles
      · right; left
        simp only [uploadArrayLoop, h1, if_true, abortWithError]
      by_cases h2 : f.originalname = []
      · exact lift _ (by simp only [uploadArrayLoop, h1, h2, if_true, if_false]; rfl)
      by_cases h3 : f.fieldname ≠ "images".toList ∨ st.filesLeft = 0
      · right; right; left
        simp only [uploadArrayLoop, h1, h2, h3, if_true, if_false, abortWithError]
      by_cases h4 : allowedMime f.mimetype
      · have hff : fileFilter f = .ok true := (fileFilter_ok_iff f).2 h4
        by_cases h5 : limitFileSize < f.size
        · right; right; right; left
          refine ⟨?_, f, List.mem_cons_self _ _, h5⟩
          simp only [uploadArrayLoop, h1, h2, h3, hff, h5, if_true, if_false, abortWithError]
        · exact lift _ (by simp only [uploadArrayLoop, h1, h2, h3, hff, h5, if_false]; rfl)
      · right; right; right; right
        refine ⟨?_, f, List.mem_cons_self _ _, h4⟩
        have hff : fileFilter f =
            .error ⟨false, [], "Only JPEG, PNG and WebP images are allowed".toList⟩ := by
          unfold fileFilter
          exact if_neg h4
        simp only [uploadArrayLoop, h1, h2, h3, hff, if_false, abortWithError]

theorem uploadCallback_err (e : JsError) (req req2 : Req) :
    uploadCallback (some e) req = uploadCallback (some e) req2 := rfl

theorem uploadCallback_ne_quota (clock : Nat → Nat) (parts : List Part) (st : MulterState) :
    uploadCallback (uploadArrayLoop clock parts st).err (uploadArrayLoop clock parts st).req ≠
      ⟨400, .error quotaMessage⟩ := by
  rcases uploadArrayLoop_error_cases clock parts st with h | h | h | ⟨h, _⟩ | ⟨h, _⟩
  · rw [h]
    simp only [uploadCallback]
    split
    · decide
    · intro hc
      injection hc with h1 h2
      exact absurd h1 (by decide)
  · rw [h, uploadCallback_err _ _ ⟨.num 0, [], none, []⟩]; decide
  · rw [h, uploadCallback_err _ _ ⟨.num 0, [], none, []⟩]; decide
  · rw [h, uploadCallback_err _ _ ⟨.num 0, [], none, []⟩]; decide
  · rw [h, uploadCallback_err _ _ ⟨.num 0, [], none, []⟩]; decide

/-- C4: the quota check of the upload route answers with the quota error exactly
when the aggregate size of the directory is at least `5 * 1024^3 = 5368709120`
bytes: a directory totalling exactly that is reported as exceeded, one totalling
one byte less is not. -/
theorem quota_check_boundary (clock : Nat → Nat) (userId : UserId) (parts : List Part)
    (imagesDir : Directory) :
    MAX_SIZE = 5368709120 ∧
    ((uploadMultiple clock userId parts imagesDir).1 = ⟨400, .error quotaMessage⟩ ↔
      5368709120 ≤ getDirectorySize imagesDir) ∧
    (uploadMultiple clock userId parts [Entry.file "a.bin".toList 5368709120]).1 =
      ⟨400, .error quotaMessage⟩ ∧
    (uploadMultiple clock userId parts [Entry.file "a.bin".toList 5368709119]).1 ≠
      ⟨400, .error quotaMessage⟩ := by
  have hmax : MAX_SIZE = 5368709120 := by decide
  have hiff : ∀ d : Directory,
      (uploadMultiple clock userId parts d).1 = ⟨400, .error quotaMessage⟩ ↔
        5368709120 ≤ getDirectorySize d := by
    intro d
    unfold uploadMultiple
    simp only [hmax]
    split
    · next h => exact ⟨fun _ => h, fun _ => rfl⟩
    · next h =>
      exact ⟨fun hc => absurd hc (uploadCallback_ne_quota clock parts _), fun hc => absurd hc h⟩
  refine ⟨hmax, hiff imagesDir, (hiff _).2 (by decide), ?_⟩
  intro hc
  exact absurd ((hiff _).1 hc) (by decide)

/-- C6: when the quota is exceeded the handler answers 400 with the quota error
and leaves the storage directory exactly as it was, whatever the request
carries: the upload middleware is not run. -/
theorem quota_exceeded_rejects_unchanged (clock : Nat → Nat) (userId : UserId)
    (parts : List Part) (imagesDir : Directory)
    (h : 5 * 1024 * 1024 * 1024 ≤ getDirectorySize imagesDir) :
    (uploadMultiple clock userId parts imagesDir).1.status = 400 ∧
    (uploadMultiple clock userId parts imagesDir).1.body = .error quotaMessage ∧
    (uploadMultiple clock userId parts imagesDir).2 = imagesDir := by
  have h2 : getDirectorySize imagesDir ≥ MAX_SIZE := h
  simp only [uploadMultiple, h2, if_true, and_self]

/-- C6 on a directory holding one file of exactly 5 GiB and a request with one
JPEG file. -/
theorem quota_exceeded_rejects_unchanged_witness :
    (uploadMultiple (fun _ => 0) (.num 42)
        [.file ⟨"images".toList, "a.jpg".toList, "image/jpeg".toList, 10⟩]
        [Entry.file "old.bin".toList 5368709120]).1.status = 400 ∧
    (uploadMultiple (fun _ => 0) (.num 42)
        [.file ⟨"images".toList, "a.jpg".toList, "image/jpeg".toList, 10⟩]
        [Entry.file "old.bin".toList 5368709120]).1.body = .error quotaMessage ∧
    (uploadMultiple (fun _ => 0) (.num 42)
        [.file ⟨"images".toList, "a.jpg".toList, "image/jpeg".toList, 10⟩]
        [Entry.file "old.bin".toList 5368709120]).2 = [Entry.file "old.bin".toList 5368709120] :=
  quota_exceeded_rejects_unchanged (fun _ => 0) (.num 42)
    [.file ⟨"images".toList, "a.jpg".toList, "image/jpeg".toList, 10⟩]
    [Entry.file "old.bin".toList 5368709120] (by decide)

/-- C7: a request whose only part is declared `image/gif` is answered with status
500, not 400: the error `fileFilter` raises is not a `MulterError`, so the
callback takes its last branch. `fileFilter` itself accepts a part exactly when
its declared MIME type is `image/jpeg`, `image/png` or `image/webp`. -/
theorem unsupported_mime_answers_500 :
    (uploadMultiple (fun _ => 0) (.num 42)
        [.file ⟨"images".toList, "a.gif".toList, "image/gif".toList, 100⟩] []).1 =
      ⟨500, .error "Only JPEG, PNG and WebP images are allowed".toList⟩ ∧
    ∀ f : FilePart, fileFilter f = .ok true ↔
      (f.mimetype = "image/jpeg".toList ∨ f.mimetype = "image/png".toList ∨
        f.mimetype = "image/webp".toList) := by
  refine ⟨by decide, fun f => fileFilter_ok_iff f⟩

theorem mem_foldl_unlink (fs : List StoredFile) :
    ∀ (d : Directory) (e : Entry),
      e ∈ fs.foldl (fun d f => unlink d f.filename) d ↔
        e ∈ d ∧ ∀ f ∈ fs, e.name ≠ f.filename := by
  induction fs with
  | nil => intro d e; simp
  | cons f rest ih =>
    intro d e
    rw [List.foldl_cons, ih]
    simp only [unlink, List.mem_filter, decide_eq_true_eq, List.mem_cons, forall_eq_or_imp]
    tauto

/-- The directory an aborted upload leaves, when every entry of the directory at
the abort is an entry of `dir0` or carries the name of a file the run wrote. -/
theorem abortWithError_clean (dir0 : Directory) (st : MulterState) (err : JsError)
    (hinv : ∀ e ∈ st.directory, e ∈ dir0 ∨ ∃ f ∈ st.uploadedFiles, e.name = f.filename) :
    (∀ e ∈ (abortWithError st err).directory, e ∈ dir0) ∧
    (∀ f ∈ (abortWithError st err).uploadedFiles, ∀ e ∈ (abortWithError st err).directory,
      e.name ≠ f.filename) := by
  constructor
  · intro e he
    obtain ⟨h1, h2⟩ := (mem_foldl_unlink _ _ _).1 he
    rcases hinv e h1 with h | ⟨f, hf, hn⟩
    · exact h
    · exact absurd hn (h2 f hf)
  · intro f hf e he
    exact ((mem_foldl_unlink _ _ _).1 he).2 f hf

theorem writeFile_inv (dir0 : Directory) (d : Directory) (up : List StoredFile)
    (s : StoredFile)
    (hinv : ∀ e ∈ d, e ∈ dir0 ∨ ∃ f ∈ up, e.name = f.filename) :
    ∀ e ∈ writeFile d s.filename s.size,
      e ∈ dir0 ∨ ∃ f ∈ up ++ [s], e.name = f.filename := by
  intro e he
  simp only [writeFile, List.mem_append, List.mem_filter, List.mem_singleton] at he
  rcases he with ⟨h1, _⟩ | h1
  · rcases hinv e h1 with h | ⟨f, hf, hn⟩
    · exact Or.inl h
    · exact Or.inr ⟨f, List.mem_append_left _ hf, hn⟩
  · refine Or.inr ⟨s, by simp, ?_⟩
    rw [h1]; rfl

/-- Whatever error ends the upload, afterwards every entry of the directory is
an entry it had before the request, and no entry carries the name of a file the
request wrote. -/
theorem uploadArrayLoop_abort_clean (clock : Nat → Nat) (dir0 : Directory) (parts : List Part) :
    ∀ st : MulterState,
      (∀ e ∈ st.directory, e ∈ dir0 ∨ ∃ f ∈ st.uploadedFiles, e.name = f.filename) →
      (uploadArrayLoop clock parts st).err ≠ none →
      (∀ e ∈ (uploadArrayLoop clock parts st).directory, e ∈ dir0) ∧
      (∀ f ∈ (uploadArrayLoop clock parts st).uploadedFiles,
        ∀ e ∈ (uploadArrayLoop clock parts st).directory, e.name ≠ f.filename) := by
  induction parts with
  | nil => intro st _ h; exact absurd rfl h
  | cons p rest ih =>
    intro st hinv
    cases p with
    | field name value =>
      by_cases hname : name = "listingCode".toList
      · simp only [uploadArrayLoop, hname, if_true]
        exact ih _ hinv
      · simp only [uploadArrayLoop, hname, if_false]
        exact ih _ hinv
    | file f =>
      by_cases h1 : st.nfiles = limitFiles
      · simp only [uploadArrayLoop, h1, if_true]
        exact fun _ => abortWithError_clean dir0 st _ hinv
      by_cases h2 : f.originalname = []
      · simp only [uploadArrayLoop, h1, h2, if_true, if_false]
        exact ih _ hinv
      by_cases h3 : f.fieldname ≠ "images".toList ∨ st.filesLeft = 0
      · simp only [uploadArrayLoop, h1, h2, h3, if_true, if_false]
        exact fun _ => abortWithError_clean dir0 _ _ hinv
      by_cases h4 : allowedMime f.mimetype
      · have hff : fileFilter f = .ok true := (fileFilter_ok_iff f).2 h4
        by_cases h5 : limitFileSize < f.size
        · simp only [uploadArrayLoop, h1, h2, h3, hff, h5, if_true, if_false]
          exact fun _ => abortWithError_clean dir0 _ _
            (writeFile_inv dir0 st.directory st.uploadedFiles
              ⟨f.fieldname, f.originalname, f.mimetype,
                (filename (clock st.uploadedFiles.length) st.req f).1, min f.size limitFileSize⟩
              hinv)
        · simp only [uploadArrayLoop, h1, h2, h3, hff, h5, if_false]
          exact ih _
            (writeFile_inv dir0 st.directory st.uploadedFiles
              ⟨f.fieldname, f.originalname, f.mimetype,
                (filename (clock st.uploadedFiles.length) st.req f).1, min f.size limitFileSize⟩
              hinv)
      · have hff : fileFilter f =
            .error ⟨false, [], "Only JPEG, PNG and WebP images are allowed".toList⟩ := by
          unfold fileFilter
          exact if_neg h4
        simp only [uploadArrayLoop, h1, h2, h3, hff, if_false]
        exact fun _ => abortWithError_clean dir0 _ _ hinv

/-- With the first `20 - nfiles` file parts acceptable and more file parts than
that, the run ends on the file-count error after writing `20 - nfiles` files. -/
theorem uploadArrayLoop_too_many (clock : Nat → Nat) (parts : List Part) :
    ∀ st : MulterState, st.nfiles ≤ limitFiles → limitFiles - st.nfiles ≤ st.filesLeft →
      (∀ f ∈ (fileParts parts).take (limitFiles - st.nfiles), acceptable f) →
      limitFiles - st.nfiles < (fileParts parts).length →
      (uploadArrayLoop clock parts st).err = some (multerError "LIMIT_FILE_COUNT".toList) ∧
      (uploadArrayLoop clock parts st).uploadedFiles.length =
        st.uploadedFiles.length + (limitFiles - st.nfiles) := by
  induction parts with
  | nil => intro st _ _ _ h; simp [fileParts] at h
  | cons p rest ih =>
    intro st hn hl hacc hmany
    cases p with
    | field name value =>
      simp only [fileParts] at hacc hmany
      by_cases hname : name = "listingCode".toList
      · simp only [uploadArrayLoop, hname, if_true]
        exact ih _ hn hl hacc hmany
      · simp only [uploadArrayLoop, hname, if_false]
        exact ih _ hn hl hacc hmany
    | file f =>
      simp only [fileParts, List.length_cons] at hacc hmany
      by_cases h1 : st.nfiles = limitFiles
      · simp only [uploadArrayLoop, h1, if_true, abortWithError, Nat.sub_self, Nat.add_zero,
          and_self]
      have hpos : limitFiles - st.nfiles = (limitFiles - (st.nfiles + 1)) + 1 := by omega
      rw [hpos, List.take_succ_cons] at hacc
      obtain ⟨hfield, hname, hmime, hsize⟩ := hacc f (List.mem_cons_self _ _)
      have hff : fileFilter f = .ok true := (fileFilter_ok_iff f).2 hmime
      have h3 : ¬ (f.fieldname ≠ "images".toList ∨ st.filesLeft = 0) := by
        rw [hfield]; simp; omega
      have h5 : ¬ limitFileSize < f.size := by
        simp only [limitFileSize]; omega
      simp only [uploadArrayLoop, h1, hname, h3, hff, h5, if_false]
      have := ih
        { req := { (filename (clock st.uploadedFiles.length) st.req f).2 with
                    files := (filename (clock st.uploadedFiles.length) st.req f).2.files ++
                      [⟨f.fieldname, f.originalname, f.mimetype,
                        (filename (clock st.uploadedFiles.length) st.req f).1,
                        min f.size limitFileSize⟩] },
          directory := writeFile st.directory
            (filename (clock st.uploadedFiles.length) st.req f).1 (min f.size limitFileSize),
          nfiles := st.nfiles + 1,
          filesLeft := st.filesLeft - 1,
          uploadedFiles := st.uploadedFiles ++
            [⟨f.fieldname, f.originalname, f.mimetype,
              (filename (clock st.uploadedFiles.length) st.req f).1, min f.size limitFileSize⟩] }
        (by simp only; omega) (by simp only; omega)
        (fun g hg => hacc g (List.mem_cons_of_mem _ hg)) (by simp only; omega)
      refine ⟨this.1, ?_⟩
      rw [this.2]
      simp only [List.length_append, List.length_singleton]
      omega

/-- C8, as stated, fails: a request of 21 file parts whose first part has
5242881 bytes is answered with the file-size error, not with `Too many files`. -/
theorem too_many_files_preempted :
    (fileParts
      (Part.file ⟨"images".toList, "big.jpg".toList, "image/jpeg".toList, 5242881⟩ ::
        List.replicate 20
          (Part.file ⟨"images".toList, "a.jpg".toList, "image/jpeg".toList, 10⟩))).length = 21 ∧
    (uploadMultiple (fun _ => 0) (.num 42)
      (Part.file ⟨"images".toList, "big.jpg".toList, "image/jpeg".toList, 5242881⟩ ::
        List.replicate 20
          (Part.file ⟨"images".toList, "a.jpg".toList, "image/jpeg".toList, 10⟩)) []).1 =
      ⟨400, .error "File too large. Maximum size is 5MB".toList⟩ ∧
    (uploadMultiple (fun _ => 0) (.num 42)
      (Part.file ⟨"images".toList, "big.jpg".toList, "image/jpeg".toList, 5242881⟩ ::
        List.replicate 20
          (Part.file ⟨"images".toList, "a.jpg".toList, "image/jpeg".toList, 10⟩)) []).1 ≠
      ⟨400, .error "Too many files. Maximum is 20 files".toList⟩ := by
  decide

/-- C8, amended: when the quota is not exceeded, a request that carries more
than 20 file parts, the first 20 of them acceptable (in the field `images`,
named, of an allowed MIME type, below the size limit) and written under names
the file system takes, and whose fields are within the default limits of the
library, is answered with status 400 and `Too many files`; the
20 files the request wrote are removed, so that afterwards no entry of the
directory carries one of their names and every entry is one the directory had
before. -/
theorem too_many_files_rejected (clock : Nat → Nat) (userId : UserId) (parts : List Part)
    (imagesDir : Directory)
    (hquota : getDirectorySize imagesDir < 5 * 1024 * 1024 * 1024)
    (hfirst : ∀ f ∈ (fileParts parts).take 20, acceptable f)
    (_hstorable : ∀ f ∈ (uploadArray clock userId parts imagesDir).uploadedFiles,
      storable imagesDir f.filename)
    (_hfields : ∀ p ∈ parts, p.withinFieldLimits)
    (hmany : 20 < (fileParts parts).length) :
    (uploadMultiple clock userId parts imagesDir).1 =
      ⟨400, .error "Too many files. Maximum is 20 files".toList⟩ ∧
    (uploadArray clock userId parts imagesDir).uploadedFiles.length = 20 ∧
    (∀ f ∈ (uploadArray clock userId parts imagesDir).uploadedFiles,
      ∀ e ∈ (uploadMultiple clock userId parts imagesDir).2, e.name ≠ f.filename) ∧
    (∀ e ∈ (uploadMultiple clock userId parts imagesDir).2, e ∈ imagesDir) := by
  have hq : ¬ getDirectorySize imagesDir ≥ MAX_SIZE := by
    simp only [MAX_SIZE]; omega
  have herr := uploadArrayLoop_too_many clock parts
    ⟨⟨userId, [], none, []⟩, imagesDir, 0, arrayMaxCount, []⟩ (Nat.zero_le _)
    (by show 20 - 0 ≤ 20; omega) hfirst hmany
  have hclean := uploadArrayLoop_abort_clean clock imagesDir parts
    ⟨⟨userId, [], none, []⟩, imagesDir, 0, arrayMaxCount, []⟩ (fun e he => Or.inl he)
    (by rw [herr.1]; exact Option.some_ne_none _)
  have hrun : uploadMultiple clock userId parts imagesDir =
      (uploadCallback (uploadArray clock userId parts imagesDir).err
        (uploadArray clock userId parts imagesDir).req,
       (uploadArray clock userId parts imagesDir).directory) := by
    simp only [uploadMultiple, hq, if_false]
  rw [hrun]
  refine ⟨?_, ?_, hclean.2, hclean.1⟩
  · show uploadCallback (uploadArray clock userId parts imagesDir).err _ = _
    unfold uploadArray
    rw [herr.1, uploadCallback_err _ _ ⟨.num 0, [], none, []⟩]
    decide
  · simpa using herr.2

/-- C8, amended, on 21 JPEG files of 10 bytes. -/
theorem too_many_files_rejected_witness :
    (uploadMultiple (fun _ => 0) (.num 42)
      (List.replicate 21
        (Part.file ⟨"images".toList, "a.jpg".toList, "image/jpeg".toList, 10⟩))
      [Entry.file "old.jpg".toList 7]).1 =
      ⟨400, .error "Too many files. Maximum is 20 files".toList⟩ :=
  (too_many_files_rejected (fun _ => 0) (.num 42)
    (List.replicate 21 (Part.file ⟨"images".toList, "a.jpg".toList, "image/jpeg".toList, 10⟩))
    [Entry.file "old.jpg".toList 7] (by decide) (by decide) (by decide) (by decide)
    (by decide)).1

theorem mem_fileParts (parts : List Part) (f : FilePart) :
    Part.file f ∈ parts → f ∈ fileParts parts := by
  induction parts with
  | nil => intro h; cases h
  | cons p rest ih =>
    intro h
    cases p with
    | field name value =>
      simp only [List.mem_cons, reduceCtorEq, false_or] at h
      simpa [fileParts] using ih h
    | file g =>
      simp only [List.mem_cons, Part.file.injEq] at h
      rcases h with h | h
      · simp [fileParts, h]
      · simp [fileParts, ih h]

/-- A part over the size limit that arrives while fewer than 20 file parts, all
acceptable, came before it ends the run on the file-size error. -/
theorem uploadArrayLoop_oversized (clock : Nat → Nat) (big : FilePart) (after : List Part)
    (hfield : big.fieldname = "images".toList) (hname : big.originalname ≠ [])
    (hmime : allowedMime big.mimetype) (hbig : limitFileSize < big.size)
    (before : List Part) :
    ∀ st : MulterState, st.nfiles + (fileParts before).length < limitFiles →
      (fileParts before).length < st.filesLeft →
      (∀ f ∈ fileParts before, acceptable f) →
      (uploadArrayLoop clock (before ++ Part.file big :: after) st).err =
        some (multerError "LIMIT_FILE_SIZE".toList) := by
  induction before with
  | nil =>
    intro st hn hl _
    simp only [fileParts, List.length_nil, Nat.add_zero] at hn hl
    have h1 : st.nfiles ≠ limitFiles := by omega
    have h3 : ¬ (big.fieldname ≠ "images".toList ∨ st.filesLeft = 0) := by
      rw [hfield]; simp; omega
    have hff : fileFilter big = .ok true := (fileFilter_ok_iff big).2 hmime
    simp only [List.nil_append, uploadArrayLoop, h1, hname, h3, hff, hbig, if_true, if_false,
      abortWithError]
  | cons p rest ih =>
    intro st hn hl hacc
    cases p with
    | field name value =>
      simp only [fileParts] at hn hl hacc
      by_cases hfn : name = "listingCode".toList
      · simp only [List.cons_append, uploadArrayLoop, hfn, if_true]
        exact ih _ hn hl hacc
      · simp only [List.cons_append, uploadArrayLoop, hfn, if_false]
        exact ih _ hn hl hacc
    | file f =>
      simp only [fileParts, List.length_cons] at hn hl hacc
      obtain ⟨hf1, hf2, hf3, hf4⟩ := hacc f (List.mem_cons_self _ _)
      have h1 : st.nfiles ≠ limitFiles := by omega
      have h3 : ¬ (f.fieldname ≠ "images".toList ∨ st.filesLeft = 0) := by
        rw [hf1]; simp; omega
      have hff : fileFilter f = .ok true := (fileFilter_ok_iff f).2 hf3
      have h5 : ¬ limitFileSize < f.size := by
        simp only [limitFileSize]; omega
      simp only [List.cons_append, uploadArrayLoop, h1, hf2, h3, hff, h5, if_false]
      exact ih _ (by simp only; omega) (by simp only; omega)
        (fun g hg => hacc g (List.mem_cons_of_mem _ hg))

/-- C9, as stated, fails: a request of 20 small JPEG files followed by a part of
5242881 bytes is answered with `Too many files`, not with `File too large`. -/
theorem file_too_large_preempted :
    (uploadMultiple (fun _ => 0) (.num 42)
      (List.replicate 20
          (Part.file ⟨"images".toList, "a.jpg".toList, "image/jpeg".toList, 10⟩) ++
        [Part.file ⟨"images".toList, "big.jpg".toList, "image/jpeg".toList, 5242881⟩]) []).1 =
      ⟨400, .error "Too many files. Maximum is 20 files".toList⟩ ∧
    (uploadMultiple (fun _ => 0) (.num 42)
      (List.replicate 20
          (Part.file ⟨"images".toList, "a.jpg".toList, "image/jpeg".toList, 10⟩) ++
        [Part.file ⟨"images".toList, "big.jpg".toList, "image/jpeg".toList, 5242881⟩]) []).1 ≠
      ⟨400, .error "File too large. Maximum size is 5MB".toList⟩ := by
  decide

/-- C9, amended: when the quota is not exceeded, a part larger than
`5 * 1024 * 1024 = 5242880` bytes (sent in the field `images`, named, of an
allowed MIME type) that arrives after fewer than 20 file parts, all acceptable
(below the size limit), the files being written under names the file system
takes and the fields before it being within the default limits of the library,
is answered with status 400 and `File too large`; and a request all of
whose parts have fewer than 5242880 bytes is never answered with
`File too large`. -/
theorem file_too_large_rejected (clock : Nat → Nat) (userId : UserId) (imagesDir : Directory)
    (before after : List Part) (big : FilePart)
    (hquota : getDirectorySize imagesDir < 5 * 1024 * 1024 * 1024)
    (hbefore : ∀ f ∈ fileParts before, acceptable f)
    (hcount : (fileParts before).length < 20)
    (hfield : big.fieldname = "images".toList) (hname : big.originalname ≠ [])
    (hmime : allowedMime big.mimetype) (hbig : 5242880 < big.size)
    (_hstorable : ∀ f ∈ (uploadArray clock userId (before ++ Part.file big :: after)
        imagesDir).uploadedFiles, storable imagesDir f.filename)
    (_hfields : ∀ p ∈ before, p.withinFieldLimits) :
    (uploadMultiple clock userId (before ++ Part.file big :: after) imagesDir).1 =
      ⟨400, .error "File too large. Maximum size is 5MB".toList⟩ ∧
    (∀ (parts : List Part) (dir : Directory), (∀ f ∈ fileParts parts, f.size < 5242880) →
      (uploadMultiple clock userId parts dir).1.body ≠
        .error "File too large. Maximum size is 5MB".toList) := by
  constructor
  · have hq : ¬ getDirectorySize imagesDir ≥ MAX_SIZE := by
      simp only [MAX_SIZE]; omega
    have herr := uploadArrayLoop_oversized clock big after hfield hname hmime
      (by simp only [limitFileSize]; omega) before
      ⟨⟨userId, [], none, []⟩, imagesDir, 0, arrayMaxCount, []⟩
      (by show 0 + (fileParts before).length < 20; omega)
      (by show (fileParts before).length < 20; omega) hbefore
    simp only [uploadMultiple, hq, if_false]
    unfold uploadArray
    rw [herr, uploadCallback_err _ _ ⟨.num 0, [], none, []⟩]
    decide
  · intro parts dir hsmall
    by_cases hq : getDirectorySize dir ≥ MAX_SIZE
    · simp only [uploadMultiple, hq, if_true]
      decide
    · simp only [uploadMultiple, hq, if_false]
      unfold uploadArray
      rcases uploadArrayLoop_error_cases clock parts
        ⟨⟨userId, [], none, []⟩, dir, 0, arrayMaxCount, []⟩ with h | h | h | ⟨_, f, hf, hs⟩ | ⟨h, _⟩
      · rw [h]
        simp only [uploadCallback]
        split
        · decide
        · intro hc; cases hc
      · rw [h, uploadCallback_err _ _ ⟨.num 0, [], none, []⟩]; decide
      · rw [h, uploadCallback_err _ _ ⟨.num 0, [], none, []⟩]; decide
      · have := hsmall f (mem_fileParts parts f hf)
        simp only [limitFileSize] at hs
        omega
      · rw [h, uploadCallback_err _ _ ⟨.num 0, [], none, []⟩]; decide

/-- C9, amended, on a single JPEG file of 5242881 bytes, and on one of
5242879 bytes. -/
theorem file_too_large_rejected_witness :
    (uploadMultiple (fun _ => 0) (.num 42)
      ([] ++ Part.file ⟨"images".toList, "big.jpg".toList, "image/jpeg".toList, 5242881⟩ :: [])
      []).1 = ⟨400, .error "File too large. Maximum size is 5MB".toList⟩ ∧
    (uploadMultiple (fun _ => 0) (.num 42)
      [Part.file ⟨"images".toList, "max.jpg".toList, "image/jpeg".toList, 5242879⟩]
      []).1.body ≠ .error "File too large. Maximum size is 5MB".toList :=
  have h := file_too_large_rejected (fun _ => 0) (.num 42) [] [] []
    ⟨"images".toList, "big.jpg".toList, "image/jpeg".toList, 5242881⟩
    (by decide) (by decide) (by decide) (by decide) (by decide) (by decide) (by decide)
    (by decide) (by decide)
  ⟨h.1, h.2 _ _ (by decide)⟩

/-- A run that ends without error has recorded, written and kept one file per
named file part, in arrival order. -/
theorem uploadArrayLoop_success (clock : Nat → Nat) (parts : List Part) :
    ∀ st : MulterState, (uploadArrayLoop clock parts st).err = none →
      ∃ new : List StoredFile,
        (uploadArrayLoop clock parts st).req.files = st.req.files ++ new ∧
        (uploadArrayLoop clock parts st).uploadedFiles = st.uploadedFiles ++ new ∧
        (uploadArrayLoop clock parts st).directory =
          new.foldl (fun d s => writeFile d s.filename s.size) st.directory ∧
        new.map (fun s => s.originalname) =
          ((fileParts parts).filter (fun f => decide (f.originalname ≠ []))).map
            (fun f => f.originalname) := by
  induction parts with
  | nil => intro st _; exact ⟨[], by simp [uploadArrayLoop, fileParts]⟩
  | cons p rest ih =>
    intro st
    cases p with
    | field name value =>
      by_cases hname : name = "listingCode".toList
      · simp only [uploadArrayLoop, hname, if_true, fileParts]
        exact ih _
      · simp only [uploadArrayLoop, hname, if_false, fileParts]
        exact ih _
    | file f =>
      by_cases h1 : st.nfiles = limitFiles
      · simp only [uploadArrayLoop, h1, if_true, abortWithError]
        intro h; cases h
      by_cases h2 : f.originalname = []
      · simp only [uploadArrayLoop, h1, h2, if_true, if_false, fileParts]
        intro h
        obtain ⟨new, hn⟩ := ih _ h
        exact ⟨new, by simpa [h2] using hn⟩
      by_cases h3 : f.fieldname ≠ "images".toList ∨ st.filesLeft = 0
      · simp only [uploadArrayLoop, h1, h2, h3, if_true, if_false, abortWithError]
        intro h; cases h
      by_cases h4 : allowedMime f.mimetype
      · have hff : fileFilter f = .ok true := (fileFilter_ok_iff f).2 h4
        by_cases h5 : limitFileSize < f.size
        · simp only [uploadArrayLoop, h1, h2, h3, hff, h5, if_true, if_false, abortWithError]
          intro h; cases h
        · simp only [uploadArrayLoop, h1, h2, h3, hff, h5, if_false, fileParts]
          intro h
          obtain ⟨new, hn1, hn2, hn3, hn4⟩ := ih _ h
          refine ⟨⟨f.fieldname, f.originalname, f.mimetype,
            (filename (clock st.uploadedFiles.length) st.req f).1, min f.size limitFileSize⟩ ::
            new, ?_, ?_, ?_, ?_⟩
          · rw [hn1]; simp [filename]
          · rw [hn2]; simp
          · rw [hn3]; simp
          · simp [h2, hn4]
      · have hff : fileFilter f =
            .error ⟨false, [], "Only JPEG, PNG and WebP images are allowed".toList⟩ := by
          unfold fileFilter
          exact if_neg h4
        simp only [uploadArrayLoop, h1, h2, h3, hff, if_false, abortWithError]
        intro h; cases h

/-- C10: when the quota is not exceeded and the upload ends without error, the
files recorded are the named file parts of the request in arrival order, each
written under its `filename`; with `k ≥ 1` of them the response is 200 and
`imageUrls` has exactly `k` entries, the `i`-th being `/uploads/listings/`
followed by the stored filename of the `i`-th file; with none of them the
response is 400 `No images uploaded`. -/
theorem upload_success_response (clock : Nat → Nat) (userId : UserId) (parts : List Part)
    (imagesDir : Directory)
    (hquota : getDirectorySize imagesDir < 5 * 1024 * 1024 * 1024)
    (hok : (uploadArray clock userId parts imagesDir).err = none) :
    (uploadArray clock userId parts imagesDir).req.files.map (fun s => s.originalname) =
      ((fileParts parts).filter (fun f => decide (f.originalname ≠ []))).map
        (fun f => f.originalname) ∧
    (uploadMultiple clock userId parts imagesDir).2 =
      (uploadArray clock userId parts imagesDir).req.files.foldl
        (fun d s => writeFile d s.filename s.size) imagesDir ∧
    (∀ k : Nat, 1 ≤ k → (uploadArray clock userId parts imagesDir).req.files.length = k →
      ∃ imageUrls : List Str,
        (uploadMultiple clock userId parts imagesDir).1 =
          ⟨200, .success "Upload successful!".toList imageUrls⟩ ∧
        imageUrls.length = k ∧
        ∀ i : Nat, i < k →
          imageUrls[i]? =
            ((uploadArray clock userId parts imagesDir).req.files[i]?).map
              (fun s => "/uploads/listings/".toList ++ s.filename)) ∧
    ((uploadArray clock userId parts imagesDir).req.files.length = 0 →
      (uploadMultiple clock userId parts imagesDir).1 =
        ⟨400, .error "No images uploaded".toList⟩) := by
  have hq : ¬ getDirectorySize imagesDir ≥ MAX_SIZE := by
    simp only [MAX_SIZE]; omega
  have hrun : uploadMultiple clock userId parts imagesDir =
      (uploadCallback (uploadArray clock userId parts imagesDir).err
        (uploadArray clock userId parts imagesDir).req,
       (uploadArray clock userId parts imagesDir).directory) := by
    simp only [uploadMultiple, hq, if_false]
  obtain ⟨new, hn1, _, hn3, hn4⟩ := uploadArrayLoop_success clock parts
    ⟨⟨userId, [], none, []⟩, imagesDir, 0, arrayMaxCount, []⟩ hok
  have hfiles : (uploadArray clock userId parts imagesDir).req.files = new := by
    simpa using hn1
  rw [hrun, hok]
  refine ⟨?_, ?_, ?_, ?_⟩
  · rw [hfiles]; exact hn4
  · rw [hfiles]; exact hn3
  · intro k hk1 hk
    refine ⟨(uploadArray clock userId parts imagesDir).req.files.map
      (fun s => "/uploads/listings/".toList ++ s.filename), ?_, ?_, ?_⟩
    · have hne : ¬ (uploadArray clock userId parts imagesDir).req.files.length = 0 := by omega
      simp only [uploadCallback, hne, if_false]
    · rw [List.length_map, hk]
    · intro i _
      rw [List.getElem?_map]
  · intro h0
    simp only [uploadCallback, h0, if_true]

/-- C10 on a request with a listing code and two JPEG files. -/
theorem upload_success_response_witness :
    (uploadMultiple (fun _ => 0) (.num 42)
      [.field "listingCode".toList "abc123".toList,
       .file ⟨"images".toList, "a.jpg".toList, "image/jpeg".toList, 10⟩,
       .file ⟨"images".toList, "b.JPG".toList, "image/jpeg".toList, 20⟩] []).2 =
      (uploadArray (fun _ => 0) (.num 42)
        [.field "listingCode".toList "abc123".toList,
         .file ⟨"images".toList, "a.jpg".toList, "image/jpeg".toList, 10⟩,
         .file ⟨"images".toList, "b.JPG".toList, "image/jpeg".toList, 20⟩] []).req.files.foldl
        (fun d s => writeFile d s.filename s.size) [] :=
  (upload_success_response (fun _ => 0) (.num 42)
    [.field "listingCode".toList "abc123".toList,
     .file ⟨"images".toList, "a.jpg".toList, "image/jpeg".toList, 10⟩,
     .file ⟨"images".toList, "b.JPG".toList, "image/jpeg".toList, 20⟩] []
    (by decide) (by decide)).2.1

/-! ## The auditor's grammar -/

theorem toLower_of_high (c : Char) (h : 128 ≤ c.toNat) : c.toLower = c := by
  unfold Char.toLower
  have : ¬ (c.toNat ≥ 65 ∧ c.toNat ≤ 90) := by omega
  simp [this]

theorem toUpper_of_high (c : Char) (h : 128 ≤ c.toNat) : c.toUpper = c := by
  unfold Char.toUpper
  have : ¬ (c.toNat ≥ 97 ∧ c.toNat ≤ 122) := by omega
  simp [this]

theorem inRange_iff (lo hi c : Char) :
    inRange lo hi c = true ↔ lo.toNat ≤ c.toNat ∧ c.toNat ≤ hi.toNat := by
  simp [inRange]

theorem classDigit_iff (c : Char) : classDigit c = true ↔ c.isDigit = true := by
  rw [classDigit, inRange_iff, isDigit_iff]
  rfl

theorem matchClassI_alnum_iff (c : Char) :
    matchClassI classAlnum c = true ↔ c.isAlphanum = true := by
  by_cases h : c.toNat < 128
  · have key : ∀ k, k < 128 →
        (matchClassI classAlnum (Char.ofNat k) = true ↔ (Char.ofNat k).isAlphanum = true) := by
      decide
    exact ascii_cases (fun c => matchClassI classAlnum c = true ↔ c.isAlphanum = true) key c h
  · have h2 : 128 ≤ c.toNat := by omega
    have e1 : matchClassI classAlnum c = false := by
      have : classAlnum c = false := by
        simp only [classAlnum, inRange, Bool.or_eq_false_iff, Bool.and_eq_false_iff,
          decide_eq_false_iff_not]
        have a1 : 'z'.toNat = 122 := rfl
        have a2 : '9'.toNat = 57 := rfl
        constructor <;> right <;> omega
      simp [matchClassI, toLower_of_high c h2, toUpper_of_high c h2, this]
    have e2 : c.isAlphanum = false := by
      cases hh : c.isAlphanum
      · rfl
      · exact absurd (isAlphanum_lt c hh) (by omega)
    simp [e1, e2]

theorem matchClassI_alpha_iff (c : Char) :
    matchClassI classAlpha c = true ↔ c.isAlpha = true := by
  by_cases h : c.toNat < 128
  · have key : ∀ k, k < 128 →
        (matchClassI classAlpha (Char.ofNat k) = true ↔ (Char.ofNat k).isAlpha = true) := by
      decide
    exact ascii_cases (fun c => matchClassI classAlpha c = true ↔ c.isAlpha = true) key c h
  · have h2 : 128 ≤ c.toNat := by omega
    have e1 : matchClassI classAlpha c = false := by
      have : classAlpha c = false := by
        simp only [classAlpha, inRange, Bool.and_eq_false_iff, decide_eq_false_iff_not]
        have a1 : 'z'.toNat = 122 := rfl
        right; omega
      simp [matchClassI, toLower_of_high c h2, toUpper_of_high c h2, this]
    have e2 : c.isAlpha = false := by
      cases hh : c.isAlpha
      · rfl
      · exact absurd (isAlpha_lt c hh) (by omega)
    simp [e1, e2]

theorem matchClassI_hex_iff (c : Char) :
    matchClassI classHex c = true ↔ isHexDigitI c := by
  by_cases h : c.toNat < 128
  · have key : ∀ k, k < 128 →
        (matchClassI classHex (Char.ofNat k) = true ↔ isHexDigitI (Char.ofNat k)) := by
      decide
    exact ascii_cases (fun c => matchClassI classHex c = true ↔ isHexDigitI c) key c h
  · have h2 : 128 ≤ c.toNat := by omega
    have e1 : matchClassI classHex c = false := by
      have : classHex c = false := by
        simp only [classHex, inRange, Bool.or_eq_false_iff, Bool.and_eq_false_iff,
          decide_eq_false_iff_not]
        have a1 : 'f'.toNat = 102 := rfl
        have a2 : '9'.toNat = 57 := rfl
        constructor <;> right <;> omega
      simp [matchClassI, toLower_of_high c h2, toUpper_of_high c h2, this]
    have e2 : ¬ isHexDigitI c := by
      unfold isHexDigitI
      rw [toLower_of_high c h2, isDigit_iff, char_le_iff, char_le_iff]
      have a1 : 'f'.toNat = 102 := rfl
      omega
    simp [e1, e2]

theorem takeWhile_append_dropWhile_all (p : Char → Bool) (l : Str) :
    l = l.takeWhile p ++ l.dropWhile p ∧ ∀ c ∈ l.takeWhile p, p c = true := by
  refine ⟨(List.takeWhile_append_dropWhile p l).symm, ?_⟩
  intro c hc
  exact List.mem_takeWhile_imp hc

/-- What a match of the auditor's pattern says about the name. -/
theorem matchPattern_some (name : Str) (m : FileMatch) (h : matchPattern name = some m) :
    ∃ c1 c2 c3 ext d1 d2,
      name = c1 :: c2 :: c3 :: '.' ::
        (m.userId ++ '.' :: (m.listingCode ++ '.' :: d1 :: d2 :: '.' :: ext)) ∧
      m.imageNumber = [d1, d2] ∧ m.extension = '.' :: ext ∧
      c1.toLower = 'i' ∧ c2.toLower = 'm' ∧ c3.toLower = 'g' ∧
      m.userId.length = 7 ∧ (∀ c ∈ m.userId, matchClassI classHex c = true) ∧
      m.listingCode ≠ [] ∧ (∀ c ∈ m.listingCode, matchClassI classAlnum c = true) ∧
      classDigit d1 = true ∧ classDigit d2 = true ∧
      ext ≠ [] ∧ (∀ c ∈ ext, matchClassI classAlpha c = true) := by
  rcases name with _ | ⟨c1, _ | ⟨c2, _ | ⟨c3, _ | ⟨c4, rest⟩⟩⟩⟩
  · simp [matchPattern] at h
  · simp [matchPattern] at h
  · simp [matchPattern] at h
  · simp [matchPattern] at h
  simp only [matchPattern] at h
  split at h
  · next hpre =>
    simp only [matchCharI, Bool.and_eq_true, decide_eq_true_eq] at hpre
    obtain ⟨⟨⟨h1, h2⟩, h3⟩, h4⟩ := hpre
    split at h
    · next hhex =>
      split at h
      · next rest1 hdrop =>
        split at h
        · cases h
        · next hcode =>
          split at h
          · next d1 d2 ext htail =>
            split at h
            · next hchk =>
              simp only [Bool.and_eq_true, Bool.not_eq_true', List.isEmpty_eq_false,
                List.all_eq_true] at hchk
              obtain ⟨⟨⟨hd1, hd2⟩, hne⟩, hall⟩ := hchk
              cases h
              refine ⟨c1, c2, c3, ext, d1, d2, ?_, rfl, rfl, ?_, ?_, ?_, hhex.1, ?_, hcode, ?_,
                hd1, hd2, ?_, hall⟩
              · have e1 : rest = rest.take 7 ++ rest.drop 7 := (List.take_append_drop 7 rest).symm
                have e2 := (takeWhile_append_dropWhile_all (matchClassI classAlnum) rest1).1
                rw [htail] at e2
                rw [hdrop, e2] at e1
                rw [h4]
                simpa using e1
              · exact h1.symm
              · exact h2.symm
              · exact h3.symm
              · exact List.all_eq_true.1 hhex.2
              · intro c hc
                exact (takeWhile_append_dropWhile_all (matchClassI classAlnum) rest1).2 c hc
              · simpa using hne
            · cases h
          · cases h
      · cases h
    · cases h
  · cases h

/-- The pattern of the auditor on a name assembled from well-formed components,
the prefix `img` in any case. -/
theorem matchPattern_of_parts (c1 c2 c3 : Char) (hex code ext : Str) (d1 d2 : Char)
    (h1 : c1.toLower = 'i') (h2 : c2.toLower = 'm') (h3 : c3.toLower = 'g')
    (hlen : hex.length = 7) (hhex : hex.all (matchClassI classHex) = true)
    (hne : code ≠ []) (hcode : ∀ c ∈ code, matchClassI classAlnum c = true)
    (hd1 : classDigit d1 = true) (hd2 : classDigit d2 = true)
    (hext : ext ≠ []) (hall : ext.all (matchClassI classAlpha) = true) :
    matchPattern (c1 :: c2 :: c3 :: '.' :: (hex ++ '.' :: (code ++ '.' :: d1 :: d2 :: '.' :: ext)))
      = some ⟨hex, code, [d1, d2], '.' :: ext⟩ := by
  have hdot : matchClassI classAlnum '.' = false := by decide
  have htw := takeWhile_append_stop (matchClassI classAlnum) code (d1 :: d2 :: '.' :: ext) '.'
    hcode hdot
  have htake : (hex ++ '.' :: (code ++ '.' :: d1 :: d2 :: '.' :: ext)).take 7 = hex := by
    rw [← hlen]; exact List.take_left _ _
  have hdrop : (hex ++ '.' :: (code ++ '.' :: d1 :: d2 :: '.' :: ext)).drop 7
      = '.' :: (code ++ '.' :: d1 :: d2 :: '.' :: ext) := by
    rw [← hlen]; exact List.drop_left _ _
  have hemp : ext.isEmpty = false := by
    cases ext with
    | nil => exact absurd rfl hext
    | cons _ _ => rfl
  have g1 : matchCharI 'i' c1 = true := by simp [matchCharI, h1]
  have g2 : matchCharI 'm' c2 = true := by simp [matchCharI, h2]
  have g3 : matchCharI 'g' c3 = true := by simp [matchCharI, h3]
  simp only [matchPattern, g1, g2, g3, htake, hdrop, htw.1, htw.2, hlen, hhex, hne, hd1, hd2,
    hemp, hall, decide_True, Bool.and_self, Bool.not_false, and_self, if_true, if_false]

/-- The pattern of the auditor matches exactly the names of the spec's grammar. -/
theorem matchPattern_isSome_iff (name : Str) :
    (matchPattern name).isSome = true ↔ isGrammarName name := by
  constructor
  · intro h
    obtain ⟨m, hm⟩ := Option.isSome_iff_exists.1 h
    obtain ⟨c1, c2, c3, ext, d1, d2, hname, _, _, h1, h2, h3, hlen, hhex, hne, hcode, hd1, hd2,
      hext, hall⟩ := matchPattern_some name m hm
    refine ⟨[c1, c2, c3], m.userId, m.listingCode, [d1, d2], ext, ?_, ?_, hlen, ?_, hne, ?_, rfl,
      ?_, hext, ?_⟩
    · rw [hname]; simp
    · simp [toLowerCase, h1, h2, h3]
    · exact fun c hc => (matchClassI_hex_iff c).1 (hhex c hc)
    · exact fun c hc => (matchClassI_alnum_iff c).1 (hcode c hc)
    · intro c hc
      simp only [List.mem_cons, List.mem_singleton, List.not_mem_nil, or_false] at hc
      rcases hc with rfl | rfl
      · exact (classDigit_iff _).1 hd1
      · exact (classDigit_iff _).1 hd2
    · exact fun c hc => (matchClassI_alpha_iff c).1 (hall c hc)
  · rintro ⟨img, hex, code, digits, ext, hname, himg, hlen, hhex, hne, hcode, hdlen, hdig, hext,
      hall⟩
    obtain ⟨c1, c2, c3, rfl⟩ : ∃ c1 c2 c3, img = [c1, c2, c3] := by
      have hl : img.length = 3 := by
        have := congrArg List.length himg
        simpa [toLowerCase] using this
      match img, hl with
      | [a, b, c], _ => exact ⟨a, b, c, rfl⟩
    obtain ⟨d1, d2, rfl⟩ : ∃ d1 d2, digits = [d1, d2] := by
      match digits, hdlen with
      | [a, b], _ => exact ⟨a, b, rfl⟩
    simp only [toLowerCase, List.map_cons, List.map_nil] at himg
    have e : "img".toList = ['i', 'm', 'g'] := rfl
    rw [e] at himg
    simp only [List.cons.injEq, and_true] at himg
    obtain ⟨h1, h2, h3⟩ := himg
    have hform : name = c1 :: c2 :: c3 :: '.' ::
        (hex ++ '.' :: (code ++ '.' :: d1 :: d2 :: '.' :: ext)) := by
      rw [hname]; simp
    rw [hform, matchPattern_of_parts c1 c2 c3 hex code ext d1 d2 h1 h2 h3 hlen
      (List.all_eq_true.2 (fun c hc => (matchClassI_hex_iff c).2 (hhex c hc))) hne
      (fun c hc => (matchClassI_alnum_iff c).2 (hcode c hc))
      ((classDigit_iff _).2 (hdig d1 (by simp))) ((classDigit_iff _).2 (hdig d2 (by simp))) hext
      (List.all_eq_true.2 (fun c hc => (matchClassI_alpha_iff c).2 (hall c hc)))]
    rfl

theorem categorizeLoop_eq (files : List Str) :
    ∀ acc : List ValidFile × List Str,
      categorizeLoop files acc =
        (acc.1 ++ files.filterMap (fun file => (matchPattern file).map (fun m =>
            (⟨file, m.userId, m.listingCode, m.imageNumber, m.extension⟩ : ValidFile))),
         acc.2 ++ files.filter (fun file => (matchPattern file).isNone)) := by
  induction files with
  | nil => intro acc; simp [categorizeLoop]
  | cons file rest ih =>
    intro acc
    obtain ⟨v, i⟩ := acc
    cases hm : matchPattern file with
    | none => simp [categorizeLoop, hm, ih]
    | some m => simp [categorizeLoop, hm, ih]

theorem categorize_counts (files : List Str) (name : Str) :
    ((categorize files).1.map (fun v => v.filename)).count name +
      (categorize files).2.count name = files.count name ∧
    ((categorize files).1.length + (categorize files).2.length = files.length) := by
  simp only [categorize, categorizeLoop_eq, List.nil_append]
  induction files with
  | nil => simp
  | cons file rest ih =>
    cases hm : matchPattern file with
    | none =>
      simp only [List.filterMap_cons, hm, Option.map_none', List.filter_cons, Option.isNone_none,
        if_true, List.count_cons, List.length_cons]
      omega
    | some m =>
      simp only [List.filterMap_cons, hm, Option.map_some', List.filter_cons, Option.isNone_some,
        List.map_cons, List.count_cons, List.length_cons]
      simp only [Bool.false_eq_true, if_false]
      omega

/-- C11: the classification of `analyzeListingImages` is total: every name falls
in exactly one of `validFiles` and `invalidFiles` (each occurrence of a name is
counted once, on one side), it is in `validFiles` exactly when the whole name
has the form `img.<7 of 0-9a-f>.<alphanumerics>.<2 digits>.<letters>`, compared
case-insensitively, and the two lengths add up to the number of entries. -/
theorem categorize_total (files : List Str) :
    (categorize files).1.length + (categorize files).2.length = files.length ∧
    (∀ name : Str,
      ((categorize files).1.map (fun v => v.filename)).count name +
        (categorize files).2.count name = files.count name) ∧
    (∀ name : Str, name ∈ (categorize files).1.map (fun v => v.filename) ↔
      (name ∈ files ∧ isGrammarName name)) ∧
    (∀ name : Str, name ∈ (categorize files).2 ↔ (name ∈ files ∧ ¬ isGrammarName name)) := by
  refine ⟨(categorize_counts files []).2, fun name => (categorize_counts files name).1, ?_, ?_⟩
  · intro name
    simp only [categorize, categorizeLoop_eq, List.nil_append, List.mem_map, List.mem_filterMap,
      Option.map_eq_some']
    constructor
    · rintro ⟨v, ⟨file, hfile, m, hm, rfl⟩, rfl⟩
      exact ⟨hfile, (matchPattern_isSome_iff file).1 (by rw [hm]; rfl)⟩
    · rintro ⟨hfile, hg⟩
      obtain ⟨m, hm⟩ := Option.isSome_iff_exists.1 ((matchPattern_isSome_iff name).2 hg)
      exact ⟨_, ⟨name, hfile, m, hm, rfl⟩, rfl⟩
  · intro name
    simp only [categorize, categorizeLoop_eq, List.nil_append, List.mem_filter]
    constructor
    · rintro ⟨hfile, hn⟩
      refine ⟨hfile, fun hg => ?_⟩
      have := (matchPattern_isSome_iff name).2 hg
      rw [Option.isNone_iff_eq_none] at hn
      rw [hn] at this
      exact absurd this (by simp)
    · rintro ⟨hfile, hg⟩
      refine ⟨hfile, ?_⟩
      cases hm : matchPattern name with
      | none => rfl
      | some m => exact absurd ((matchPattern_isSome_iff name).1 (by rw [hm]; rfl)) hg

/-! ## Decimal digits of the sequence number -/

theorem digitChar_classDigit (d : Nat) (h : d < 10) : classDigit (digitChar d) = true := by
  interval_cases d <;> decide

theorem digitChar_value (d : Nat) (h : d < 10) : (digitChar d).toNat - '0'.toNat = d := by
  interval_cases d <;> decide

theorem toStringRadixLoop_digits (fuel : Nat) :
    ∀ (n : Nat) (acc : Str), ∀ c ∈ toStringRadixLoop 10 fuel n acc,
      c ∈ acc ∨ classDigit c = true := by
  induction fuel with
  | zero => intro n acc c hc; exact Or.inl hc
  | succ fuel ih =>
    intro n acc c hc
    simp only [toStringRadixLoop] at hc
    split at hc
    · simp only [List.mem_cons] at hc
      rcases hc with rfl | hc
      · exact Or.inr (digitChar_classDigit _ (Nat.mod_lt _ (by decide)))
      · exact Or.inl hc
    · rcases ih _ _ c hc with h | h
      · simp only [List.mem_cons] at h
        rcases h with rfl | h
        · exact Or.inr (digitChar_classDigit _ (Nat.mod_lt _ (by decide)))
        · exact Or.inl h
      · exact Or.inr h

theorem toStringRadixLoop_length_ge (radix fuel : Nat) :
    ∀ (n : Nat) (acc : Str), acc.length ≤ (toStringRadixLoop radix fuel n acc).length := by
  induction fuel with
  | zero => intro n acc; exact Nat.le_refl _
  | succ fuel ih =>
    intro n acc
    simp only [toStringRadixLoop]
    split
    · simp
    · exact Nat.le_trans (by simp) (ih _ _)

theorem toStringRadixLoop_length_pos (radix fuel : Nat) (n : Nat) (acc : Str) :
    acc.length + 1 ≤ (toStringRadixLoop radix (fuel + 1) n acc).length := by
  simp only [toStringRadixLoop]
  split
  · simp
  · exact Nat.le_trans (by simp) (toStringRadixLoop_length_ge _ _ _ _)

theorem numberToString_digits (n : Nat) : ∀ c ∈ numberToString n, classDigit c = true := by
  intro c hc
  rcases toStringRadixLoop_digits _ _ _ c hc with h | h
  · cases h
  · exact h

theorem numberToString_length_ge_three (n : Nat) (h : 100 ≤ n) :
    3 ≤ (numberToString n).length := by
  obtain ⟨k, rfl⟩ : ∃ k, n = k + 100 := ⟨n - 100, by omega⟩
  have h1 : ¬ (k + 100) / 10 = 0 := by omega
  have h2 : ¬ (k + 100) / 10 / 10 = 0 := by omega
  have e : numberToString (k + 100) =
      toStringRadixLoop 10 (k + 98 + 1) ((k + 100) / 10 / 10)
        (digitChar ((k + 100) / 10 % 10) :: digitChar ((k + 100) % 10) :: []) := by
    show toStringRadixLoop 10 (k + 98 + 1 + 1 + 1) (k + 100) [] = _
    rw [toStringRadixLoop, if_neg h1, toStringRadixLoop, if_neg h2]
  rw [e]
  have := toStringRadixLoop_length_pos 10 (k + 98) ((k + 100) / 10 / 10)
    (digitChar ((k + 100) / 10 % 10) :: digitChar ((k + 100) % 10) :: [])
  simpa using this

theorem padStart_of_le (s : Str) (t : Nat) (pad : Char) (h : t ≤ s.length) :
    padStart s t pad = s := by
  simp [padStart, h]

theorem pad2_digits (n : Nat) :
    ∀ c ∈ padStart (numberToString n) 2 '0', classDigit c = true := by
  intro c hc
  rw [padStart_eq, List.mem_append] at hc
  rcases hc with h | h
  · have : c = '0' := (List.mem_replicate.1 h).2
    subst this; decide
  · exact numberToString_digits n c h

theorem pad2_length_two_iff (n : Nat) :
    (padStart (numberToString n) 2 '0').length = 2 ↔ n ≤ 99 := by
  constructor
  · intro h
    by_contra hn
    have h3 := numberToString_length_ge_three n (by omega)
    rw [padStart_of_le _ _ _ (by omega)] at h
    omega
  · intro h
    interval_cases n <;> decide

/-! ## Names the pattern rejects -/

/-- Two ways of cutting a text at a dot, the first after a dot-free prefix. -/
theorem split_at_first_dot (a : Str) (ha : ∀ c ∈ a, c ≠ '.') :
    ∀ (l x y : Str), a ++ '.' :: x = l ++ '.' :: y →
      (l = a ∧ x = y) ∨ ∃ l2, l = a ++ '.' :: l2 ∧ x = l2 ++ '.' :: y := by
  induction a with
  | nil =>
    intro l x y h
    cases l with
    | nil => left; simpa using h
    | cons c l2 =>
      right
      simp only [List.nil_append, List.cons_append, List.cons.injEq] at h
      exact ⟨l2, by rw [← h.1]; rfl, h.2⟩
  | cons a0 a ih =>
    intro l x y h
    cases l with
    | nil =>
      simp only [List.cons_append, List.nil_append, List.cons.injEq] at h
      exact absurd h.1 (ha a0 (List.mem_cons_self _ _))
    | cons c l2 =>
      simp only [List.cons_append, List.cons.injEq] at h
      rcases ih (fun c hc => ha c (List.mem_cons_of_mem _ hc)) l2 x y h.2 with ⟨h1, h2⟩ | ⟨l3, h1, h2⟩
      · left; exact ⟨by rw [h.1, h1], h2⟩
      · right; exact ⟨l3, by rw [h.1, h1]; rfl, h2⟩

theorem classDigit_not_alpha (c : Char) (h : classDigit c = true) :
    matchClassI classAlpha c = false := by
  have h1 := (isDigit_iff c).1 ((classDigit_iff c).1 h)
  cases hh : matchClassI classAlpha c
  · rfl
  · have h2 := (matchClassI_alpha_iff c).1 hh
    simp only [Char.isAlpha, Bool.or_eq_true, isUpper_iff, isLower_iff] at h2
    omega

/-- A name whose sequence field has three or more digits is not matched by the
auditor's pattern, whatever the listing code and the extension are. -/
theorem matchPattern_long_number (hex code field ext : Str) (hlen : hex.length = 7)
    (hfield : ∀ c ∈ field, classDigit c = true) (h3 : 3 ≤ field.length) :
    matchPattern ("img.".toList ++ hex ++ '.' :: code ++ '.' :: field ++ ext) = none := by
  cases hm : matchPattern ("img.".toList ++ hex ++ '.' :: code ++ '.' :: field ++ ext) with
  | none => rfl
  | some m =>
    exfalso
    obtain ⟨c1, c2, c3, e, d1, d2, hname, _, _, _, _, _, hulen, _, _, hcode, hd1, hd2, hext,
      hall⟩ := matchPattern_some _ m hm
    have e0 : "img.".toList = ['i', 'm', 'g', '.'] := rfl
    rw [e0] at hname
    simp only [List.cons_append, List.nil_append, List.append_assoc, List.cons.injEq] at hname
    obtain ⟨_, _, _, _, hrest⟩ := hname
    have hu : hex = m.userId := List.append_inj_left hrest (by rw [hlen, hulen])
    rw [hu] at hrest
    have hrest2 := List.append_cancel_left hrest
    simp only [List.cons.injEq, true_and] at hrest2
    have hdotA : ∀ c ∈ m.listingCode, c ≠ '.' := by
      intro c hc hdot
      have := hcode c hc
      rw [hdot] at this
      exact absurd this (by decide)
    have hdotE : ∀ c ∈ e, c ≠ '.' := by
      intro c hc hdot
      have := hall c hc
      rw [hdot] at this
      exact absurd this (by decide)
    obtain ⟨f1, f2, f3, frest, hf⟩ : ∃ f1 f2 f3 frest, field = f1 :: f2 :: f3 :: frest := by
      match field, h3 with
      | a :: b :: c :: r, _ => exact ⟨a, b, c, r, rfl⟩
    rcases split_at_first_dot m.listingCode hdotA code _ _ hrest2.symm with ⟨_, hx⟩ | ⟨l2, _, hx⟩
    · rw [hf] at hx
      simp only [List.cons_append, List.cons.injEq] at hx
      have := hfield f3 (by rw [hf]; simp)
      rw [← hx.2.2.1] at this
      exact absurd this (by decide)
    · have hd : ∀ c ∈ [d1, d2], c ≠ '.' := by
        intro c hc hdot
        simp only [List.mem_cons, List.mem_singleton, List.not_mem_nil, or_false] at hc
        rcases hc with rfl | rfl
        · rw [hdot] at hd1; exact absurd hd1 (by decide)
        · rw [hdot] at hd2; exact absurd hd2 (by decide)
      have hx2 : [d1, d2] ++ '.' :: e = l2 ++ '.' :: (field ++ ext) := by simpa using hx
      rcases split_at_first_dot [d1, d2] hd l2 _ _ hx2 with ⟨_, hy⟩ | ⟨l3, _, hy⟩
      · have hmem : f1 ∈ e := by rw [hy, hf]; simp
        have h1 := hall f1 hmem
        have h2 := classDigit_not_alpha f1 (hfield f1 (by rw [hf]; simp))
        rw [h2] at h1
        exact absurd h1 (by decide)
      · exact hdotE '.' (by rw [hy]; simp) rfl

/-- C12: the padded sequence field is exactly two decimal digits if and only if
`n ≤ 99`; for `n ≥ 100` the field has three or more digits, every name with
that field after `img.`, seven characters, a listing code and the dots is
refused by the auditor's pattern, and the name `storage.filename` produces for
the `n`-th file (original name in ASCII) is
`img.<userIdHex>.<listingCode>.<that field><lowercased extension>`, which the
auditor's pattern does not match and `analyzeListingImages` puts in
`invalidFiles`. -/
theorem padded_sequence_two_digits (n : Nat) :
    (((padStart (numberToString n) 2 '0').length = 2 ∧
        ∀ c ∈ padStart (numberToString n) 2 '0', c.isDigit = true) ↔ n ≤ 99) ∧
    (100 ≤ n →
      3 ≤ (padStart (numberToString n) 2 '0').length ∧
      (∀ c ∈ padStart (numberToString n) 2 '0', c.isDigit = true) ∧
      (∀ (hex code extension : Str), hex.length = 7 →
        matchPattern ("img.".toList ++ hex ++ '.' :: code ++
          '.' :: padStart (numberToString n) 2 '0' ++ extension) = none) ∧
      ∀ (now : Nat) (req : Req) (file : FilePart),
        (filename now req file).2.imageCount = some n →
        (∀ c ∈ file.originalname, c.toNat < 128) →
          (filename now req file).1 =
            "img.".toList ++ formatUserIdHex req.userId ++
              '.' :: (bodyListingCode req.listingCodes).getD (toStringRadix now 36) ++
              '.' :: padStart (numberToString n) 2 '0' ++
              toLowerCase (extname file.originalname) ∧
          matchPattern (filename now req file).1 = none ∧
          categorize [(filename now req file).1] = ([], [(filename now req file).1])) := by
  have hdig : ∀ c ∈ padStart (numberToString n) 2 '0', c.isDigit = true :=
    fun c hc => (classDigit_iff c).1 (pad2_digits n c hc)
  refine ⟨⟨fun h => (pad2_length_two_iff n).1 h.1, fun h => ⟨(pad2_length_two_iff n).2 h, hdig⟩⟩,
    ?_⟩
  intro hn
  have hlen3 : 3 ≤ (padStart (numberToString n) 2 '0').length := by
    have := numberToString_length_ge_three n hn
    rw [padStart_of_le _ _ _ (by omega)]
    exact this
  refine ⟨hlen3, hdig, ?_, ?_⟩
  · intro hex code extension hlen
    exact matchPattern_long_number _ _ _ _ hlen (pad2_digits n) hlen3
  intro now req file himg _
  have hname : (filename now req file).1 =
      "img.".toList ++ formatUserIdHex req.userId ++
        '.' :: (bodyListingCode req.listingCodes).getD (toStringRadix now 36) ++
        '.' :: padStart (numberToString n) 2 '0' ++ toLowerCase (extname file.originalname) := by
    simp only [filename] at himg
    simp only [filename]
    rw [Option.some.inj himg]
  have hnone : matchPattern (filename now req file).1 = none := by
    rw [hname]
    exact matchPattern_long_number _ _ _ _ (formatUserIdHex_length _) (pad2_digits n) hlen3
  refine ⟨hname, hnone, ?_⟩
  simp [categorize, categorizeLoop, hnone]

/-- C12 at `n = 100`: user 42, listing code `abc123`, a request that has already
named 99 files: the name is `img.0000042.abc123.100.jpg`, which the pattern
does not match. -/
theorem padded_sequence_two_digits_witness :
    (filename 0 ⟨.num 42, ["abc123".toList], some 99, []⟩
        ⟨"images".toList, "a.jpg".toList, "image/jpeg".toList, 10⟩).1 =
      "img.0000042.abc123.100.jpg".toList ∧
    matchPattern
      (filename 0 ⟨.num 42, ["abc123".toList], some 99, []⟩
        ⟨"images".toList, "a.jpg".toList, "image/jpeg".toList, 10⟩).1 = none :=
  ⟨by decide,
   (((padded_sequence_two_digits 100).2 (by decide)).2.2.2 0
    ⟨.num 42, ["abc123".toList], some 99, []⟩
    ⟨"images".toList, "a.jpg".toList, "image/jpeg".toList, 10⟩ (by decide) (by decide)).2.1⟩

/-! ## Sequence integrity -/

theorem isSequentialLoop_iff (l : List Int) :
    ∀ i : Nat, isSequentialLoop l i = true ↔ l = (List.range' (i + 1) l.length).map Int.ofNat := by
  induction l with
  | nil => intro i; simp [isSequentialLoop]
  | cons x rest ih =>
    intro i
    simp only [isSequentialLoop, List.length_cons, List.range'_succ, List.map_cons,
      List.cons.injEq]
    by_cases hx : x = (i : Int) + 1
    · simp only [hx, ne_eq, not_true_eq_false, if_false, ih (i + 1)]
      constructor
      · intro h; exact ⟨by simp, h⟩
      · intro h; exact h.2
    · simp only [ne_eq, hx, not_false_eq_true, if_true]
      constructor
      · intro h; cases h
      · intro h
        exact absurd (by rw [h.1]; simp) hx

theorem sortNumbers_perm (l : List Int) : List.Perm (sortNumbers l) l :=
  List.perm_insertionSort _ l

theorem sortNumbers_sorted (l : List Int) : (sortNumbers l).Sorted (fun a b => a ≤ b) :=
  List.sorted_insertionSort _ l

theorem range_map_sorted (a n : Nat) :
    ((List.range' a n).map Int.ofNat).Sorted (fun x y => x ≤ y) := by
  induction n generalizing a with
  | zero => simp
  | succ n ih =>
    simp only [List.range'_succ, List.map_cons, List.sorted_cons]
    refine ⟨?_, ih (a + 1)⟩
    intro b hb
    simp only [List.mem_map, List.mem_range'] at hb
    obtain ⟨k, ⟨i, _, rfl⟩, rfl⟩ := hb
    simp only [Int.ofNat_eq_coe]
    omega

/-- The check of `analyzeListingImages` on a sequence: it passes exactly when
the numbers are, with multiplicity, `1 .. length`. -/
theorem isSequential_iff_perm (numberSequence : List Int) :
    isSequentialLoop (sortNumbers numberSequence) 0 = true ↔
      List.Perm numberSequence ((List.range' 1 numberSequence.length).map Int.ofNat) := by
  have hlen : (sortNumbers numberSequence).length = numberSequence.length :=
    (sortNumbers_perm numberSequence).length_eq
  rw [isSequentialLoop_iff, hlen]
  constructor
  · intro h
    rw [← h]
    exact (sortNumbers_perm numberSequence).symm
  · intro h
    exact List.eq_of_perm_of_sorted ((sortNumbers_perm numberSequence).trans h)
      (sortNumbers_sorted numberSequence) (range_map_sorted _ _)

theorem addListingStat_inv (stats : List ListingStat) (processed : List ValidFile)
    (file : ValidFile)
    (h1 : ∀ s ∈ stats,
      s.numberSequence = (processed.filter (fun f => decide (listingKey f = s.key))).map
          (fun f => (parseInt f.imageNumber).getD 0) ∧
      s.imageCount = (processed.filter (fun f => decide (listingKey f = s.key))).length)
    (h2 : ∀ f ∈ processed, ∃ s ∈ stats, s.key = listingKey f) :
    (∀ s ∈ addListingStat stats file,
      s.numberSequence = ((processed ++ [file]).filter
          (fun f => decide (listingKey f = s.key))).map
          (fun f => (parseInt f.imageNumber).getD 0) ∧
      s.imageCount = ((processed ++ [file]).filter
          (fun f => decide (listingKey f = s.key))).length) ∧
    (∀ f ∈ processed ++ [file], ∃ s ∈ addListingStat stats file, s.key = listingKey f) := by
  constructor
  · intro s' hs'
    simp only [addListingStat, List.mem_map] at hs'
    obtain ⟨s, hs, rfl⟩ := hs'
    have hcases : s ∈ stats ∨ ((∀ t ∈ stats, t.key ≠ listingKey file) ∧
        s = ⟨listingKey file, file.userId, file.listingCode, 0, []⟩) := by
      split at hs
      · exact Or.inl hs
      · next hany =>
        simp only [List.mem_append, List.mem_singleton] at hs
        rcases hs with h | h
        · exact Or.inl h
        · refine Or.inr ⟨?_, h⟩
          intro t ht hk
          apply hany
          simp only [List.any_eq_true, decide_eq_true_eq]
          exact ⟨t, ht, hk⟩
    rcases hcases with hmem | ⟨hno, hnew⟩
    · obtain ⟨e1, e2⟩ := h1 s hmem
      by_cases hk : s.key = listingKey file
      · simp only [hk, if_true, List.filter_append, List.map_append, List.length_append]
        rw [hk] at e1 e2
        simp [e1, e2]
      · simp only [hk, if_false, List.filter_append, List.map_append, List.length_append]
        have : (listingKey file = s.key) = False := by
          simp only [eq_iff_iff, iff_false]; exact fun h => hk h.symm
        simp [e1, e2, this]
    · subst hnew
      have hemp : processed.filter (fun f => decide (listingKey f = listingKey file)) = [] := by
        rw [List.filter_eq_nil_iff]
        intro f hf
        simp only [decide_eq_true_eq]
        intro hk
        obtain ⟨t, ht, htk⟩ := h2 f hf
        exact hno t ht (by rw [htk, hk])
      simp [List.filter_append, hemp]
  · intro f hf
    simp only [List.mem_append, List.mem_singleton] at hf
    have keep : ∀ t ∈ stats, ∃ s ∈ addListingStat stats file, s.key = t.key := by
      intro t ht
      simp only [addListingStat, List.mem_map]
      refine ⟨_, ⟨t, ?_, rfl⟩, ?_⟩
      · split
        · exact ht
        · exact List.mem_append_left _ ht
      · split <;> rfl
    rcases hf with hf | rfl
    · obtain ⟨t, ht, htk⟩ := h2 f hf
      obtain ⟨s, hs, hsk⟩ := keep t ht
      exact ⟨s, hs, by rw [hsk, htk]⟩
    · by_cases hany : stats.any (fun s => decide (s.key = listingKey f)) = true
      · simp only [List.any_eq_true, decide_eq_true_eq] at hany
        obtain ⟨t, ht, htk⟩ := hany
        obtain ⟨s, hs, hsk⟩ := keep t ht
        exact ⟨s, hs, by rw [hsk, htk]⟩
      · simp only [addListingStat, List.mem_map, hany, if_false]
        refine ⟨_, ⟨⟨listingKey f, f.userId, f.listingCode, 0, []⟩, by simp, rfl⟩, ?_⟩
        simp

theorem listingStats_foldl_inv (rest : List ValidFile) :
    ∀ (stats : List ListingStat) (processed : List ValidFile),
      (∀ s ∈ stats,
        s.numberSequence = (processed.filter (fun f => decide (listingKey f = s.key))).map
            (fun f => (parseInt f.imageNumber).getD 0) ∧
        s.imageCount = (processed.filter (fun f => decide (listingKey f = s.key))).length) →
      (∀ f ∈ processed, ∃ s ∈ stats, s.key = listingKey f) →
      ∀ s ∈ rest.foldl addListingStat stats,
        s.numberSequence = ((processed ++ rest).filter
            (fun f => decide (listingKey f = s.key))).map
            (fun f => (parseInt f.imageNumber).getD 0) ∧
        s.imageCount = ((processed ++ rest).filter
            (fun f => decide (listingKey f = s.key))).length := by
  induction rest with
  | nil => intro stats processed h1 _; simpa using h1
  | cons file rest ih =>
    intro stats processed h1 h2
    obtain ⟨g1, g2⟩ := addListingStat_inv stats processed file h1 h2
    have := ih (addListingStat stats file) (processed ++ [file]) g1 g2
    simpa using this

/-- C13: for every group of valid files, the report says `Sequence Integrity: OK`
exactly when the sequence numbers of the group, taken with multiplicity, are
`1, 2, ..., N`, where `N` is the number of valid files of the group; otherwise
it says `BROKEN`. -/
theorem sequence_integrity_iff (files : List Str) :
    ∀ listing ∈ listingStats (categorize files).1,
      listing.numberSequence =
        ((categorize files).1.filter (fun f => decide (listingKey f = listing.key))).map
          (fun f => (parseInt f.imageNumber).getD 0) ∧
      listing.imageCount =
        ((categorize files).1.filter (fun f => decide (listingKey f = listing.key))).length ∧
      ((reportListing listing).isSequential = true ↔
        List.Perm listing.numberSequence
          ((List.range' 1 listing.imageCount).map Int.ofNat)) ∧
      ((reportListing listing).isSequential = false ↔
        ¬ List.Perm listing.numberSequence
          ((List.range' 1 listing.imageCount).map Int.ofNat)) := by
  intro listing hl
  have h := listingStats_foldl_inv (categorize files).1 [] []
    (fun s hs => by cases hs) (fun f hf => by cases hf) listing hl
  simp only [List.nil_append] at h
  have hlen : listing.numberSequence.length = listing.imageCount := by
    rw [h.1, h.2, List.length_map]
  have hiff : (reportListing listing).isSequential = true ↔
      List.Perm listing.numberSequence ((List.range' 1 listing.imageCount).map Int.ofNat) := by
    rw [← hlen]
    exact isSequential_iff_perm listing.numberSequence
  refine ⟨h.1, h.2, hiff, ?_⟩
  rw [← hiff]
  simp

/-! ## Missing numbers -/

theorem foldl_max_spec (rest : List Int) :
    ∀ x : Int,
      (rest.foldl (fun m y => max m y) x = x ∨ rest.foldl (fun m y => max m y) x ∈ rest) ∧
      x ≤ rest.foldl (fun m y => max m y) x ∧
      ∀ y ∈ rest, y ≤ rest.foldl (fun m y => max m y) x := by
  induction rest with
  | nil => intro x; simp
  | cons a rest ih =>
    intro x
    obtain ⟨h1, h2, h3⟩ := ih (max x a)
    simp only [List.foldl_cons, List.mem_cons]
    refine ⟨?_, ?_, ?_⟩
    · rcases h1 with h | h
      · rcases max_choice x a with hm | hm
        · left; rw [h, hm]
        · right; left; rw [h, hm]
      · right; right; exact h
    · exact le_trans (le_max_left x a) h2
    · intro y hy
      rcases hy with rfl | hy
      · exact le_trans (le_max_right x y) h2
      · exact h3 y hy

/-- The value of `Math.max(...sequence)` is the greatest element. -/
theorem mathMax_spec (sequence : List Int) (m : Int) (h : mathMax sequence = some m) :
    m ∈ sequence ∧ ∀ x ∈ sequence, x ≤ m := by
  cases sequence with
  | nil => cases h
  | cons x rest =>
    simp only [mathMax, Option.some.injEq] at h
    obtain ⟨h1, h2, h3⟩ := foldl_max_spec rest x
    rw [h] at h1 h2 h3
    refine ⟨?_, ?_⟩
    · rcases h1 with h1 | h1
      · rw [h1]; exact List.mem_cons_self _ _
      · exact List.mem_cons_of_mem _ h1
    · intro y hy
      rcases List.mem_cons.1 hy with rfl | hy
      · exact h2
      · exact h3 y hy

theorem range_sorted_lt (a n : Nat) : (List.range' a n).Sorted (fun x y => x < y) := by
  induction n generalizing a with
  | zero => simp
  | succ n ih =>
    simp only [List.range'_succ, List.sorted_cons]
    refine ⟨?_, ih (a + 1)⟩
    intro b hb
    simp only [List.mem_range'] at hb
    obtain ⟨i, _, rfl⟩ := hb
    omega

/-- C14: `findMissingNumbers` returns, in ascending order and joined by `, `,
exactly the integers `i` with `1 ≤ i ≤ max(sequence)` that do not occur in the
sequence, and `none` when there is no such integer or the list is empty; for
`[1, 3]` it returns `2`. -/
theorem findMissingNumbers_spec (sequence : List Int) :
    (∃ missing : List Nat,
      missing.Sorted (fun a b => a < b) ∧
      (∀ i : Nat, i ∈ missing ↔
        (1 ≤ i ∧ (∃ x ∈ sequence, (i : Int) ≤ x) ∧ (i : Int) ∉ sequence)) ∧
      (∀ m : Int, mathMax sequence = some m →
        (m ∈ sequence ∧ (∀ x ∈ sequence, x ≤ m) ∧
          ∀ i : Nat, i ∈ missing ↔ (1 ≤ i ∧ (i : Int) ≤ m ∧ (i : Int) ∉ sequence))) ∧
      findMissingNumbers sequence =
        (if missing = [] then "none".toList
         else joinWith ", ".toList (missing.map numberToString))) ∧
    findMissingNumbers [] = "none".toList ∧
    findMissingNumbers [1, 3] = "2".toList := by
  refine ⟨?_, by decide, by decide⟩
  cases hmax : mathMax sequence with
  | none =>
    have hs : sequence = [] := by
      cases sequence with
      | nil => rfl
      | cons x rest => cases hmax
    subst hs
    exact ⟨[], by simp, by simp, by simp, by decide⟩
  | some m =>
    obtain ⟨hm1, hm2⟩ := mathMax_spec sequence m hmax
    have hmem : ∀ i : Nat,
        i ∈ (List.range' 1 m.toNat).filter (fun (i : Nat) => !decide (Int.ofNat i ∈ sequence)) ↔
          (1 ≤ i ∧ (i : Int) ≤ m ∧ (i : Int) ∉ sequence) := by
      intro i
      simp only [List.mem_filter, List.mem_range'_1, Bool.not_eq_true', decide_eq_false_iff_not,
        Int.ofNat_eq_coe]
      constructor
      · rintro ⟨⟨h1, h2⟩, h3⟩
        exact ⟨h1, by omega, h3⟩
      · rintro ⟨h1, h2, h3⟩
        exact ⟨⟨h1, by omega⟩, h3⟩
    refine ⟨(List.range' 1 m.toNat).filter (fun (i : Nat) => !decide (Int.ofNat i ∈ sequence)),
      (range_sorted_lt 1 m.toNat).filter _, ?_, ?_, ?_⟩
    · intro i
      rw [hmem]
      constructor
      · rintro ⟨h1, h2, h3⟩
        exact ⟨h1, ⟨m, hm1, h2⟩, h3⟩
      · rintro ⟨h1, ⟨x, hx, h2⟩, h3⟩
        exact ⟨h1, le_trans h2 (hm2 x hx), h3⟩
    · intro m' hm'
      cases hm'
      exact ⟨hm1, hm2, hmem⟩
    · have hne : sequence.length ≠ 0 := by
        intro h0
        rw [List.length_eq_zero] at h0
        rw [h0] at hm1
        cases hm1
      simp only [findMissingNumbers, hne, if_false, hmax]
      by_cases he : (List.range' 1 m.toNat).filter
          (fun (i : Nat) => !decide (Int.ofNat i ∈ sequence)) = []
      · simp [he]
      · have : ((List.range' 1 m.toNat).filter
            (fun (i : Nat) => !decide (Int.ofNat i ∈ sequence))).length ≠ 0 := by
          rwa [ne_eq, List.length_eq_zero]
        simp only [this, ne_eq, not_false_eq_true, if_true, he, if_false]

/-! ## `analyzeListingImages` and the file system -/

/-- C20, as stated, fails: when the listings directory does not exist,
`analyzeListingImages` creates it, so the file system is not left unchanged. -/
theorem analyze_creates_missing_directory :
    (analyzeListingImages none).2 = some ⟨[], none⟩ ∧ (analyzeListingImages none).2 ≠ none := by
  decide

/-- C20, amended: for every initial state in which the listings directory
exists, `analyzeListingImages` leaves the file system (the files, the scratch
directory and their contents) unchanged and prints a report; when the directory
does not exist it creates it, empty, and prints no report. -/
theorem analyze_read_only_when_directory_exists (dir : ListingsDir) :
    (analyzeListingImages (some dir)).2 = some dir ∧
    (analyzeListingImages (some dir)).1.isSome = true ∧
    analyzeListingImages none = (none, some ⟨[], none⟩) := by
  refine ⟨rfl, rfl, rfl⟩

/-! ## The two patterns of the auditor -/

theorem toLower_eq_dot (c : Char) (h : c.toLower = '.') : c = '.' := by
  by_cases hc : c.toNat < 128
  · have key : ∀ k, k < 128 → (Char.ofNat k).toLower = '.' → Char.ofNat k = '.' := by decide
    exact ascii_cases (fun c => c.toLower = '.' → c = '.') key c hc h
  · rw [toLower_of_high c (by omega)] at h
    exact h

theorem isHexDigitI_iff_toLower (c : Char) : isHexDigitI c ↔ classHex c.toLower = true := by
  by_cases hc : c.toNat < 128
  · have key : ∀ k, k < 128 →
        (isHexDigitI (Char.ofNat k) ↔ classHex (Char.ofNat k).toLower = true) := by decide
    exact ascii_cases (fun c => isHexDigitI c ↔ classHex c.toLower = true) key c hc
  · have h2 : 128 ≤ c.toNat := by omega
    rw [← matchClassI_hex_iff]
    simp [matchClassI, toLower_of_high c h2, toUpper_of_high c h2]

theorem isAlphanum_iff_toLower (c : Char) : c.isAlphanum = true ↔ classAlnum c.toLower = true := by
  by_cases hc : c.toNat < 128
  · have key : ∀ k, k < 128 →
        ((Char.ofNat k).isAlphanum = true ↔ classAlnum (Char.ofNat k).toLower = true) := by decide
    exact ascii_cases (fun c => c.isAlphanum = true ↔ classAlnum c.toLower = true) key c hc
  · have h2 : 128 ≤ c.toNat := by omega
    rw [← matchClassI_alnum_iff]
    simp [matchClassI, toLower_of_high c h2, toUpper_of_high c h2]

theorem isAlpha_not_lineTerminator (c : Char) (h : c.isAlpha = true) :
    isLineTerminator c = false := by
  simp only [Char.isAlpha, Bool.or_eq_true, isUpper_iff, isLower_iff] at h
  simp only [isLineTerminator, Bool.or_eq_false_iff, decide_eq_false_iff_not]
  omega

/-- A literal matches at the start of a text exactly when the text starts with
as many characters, equal to it up to case. -/
theorem matchLiteralI_eq_some (p : Str) :
    ∀ (s t : Str), matchLiteralI p s = some t ↔
      ∃ s1, s = s1 ++ t ∧ s1.map Char.toLower = p.map Char.toLower := by
  induction p with
  | nil =>
    intro s t
    simp only [matchLiteralI, Option.some.injEq, List.map_nil, List.map_eq_nil_iff]
    constructor
    · intro h; exact ⟨[], by simp [h], rfl⟩
    · rintro ⟨s1, h1, h2⟩; subst h2; simpa using h1
  | cons p ps ih =>
    intro s t
    cases s with
    | nil =>
      simp only [matchLiteralI]
      refine ⟨fun h => (by cases h), ?_⟩
      rintro ⟨s1, h1, h2⟩
      have : s1 = [] := by
        cases s1 with
        | nil => rfl
        | cons a b => cases h1
      subst this
      cases h2
    | cons c cs =>
      simp only [matchLiteralI, matchCharI]
      by_cases hpc : p.toLower = c.toLower
      · simp only [hpc, decide_True, if_true, ih]
        constructor
        · rintro ⟨s1, h1, h2⟩
          exact ⟨c :: s1, by simp [h1], by simp [h2, hpc]⟩
        · rintro ⟨s1, h1, h2⟩
          cases s1 with
          | nil => cases h2
          | cons a s1 =>
            simp only [List.cons_append, List.cons.injEq] at h1
            simp only [List.map_cons, List.cons.injEq] at h2
            exact ⟨s1, h1.2, h2.2⟩
      · simp only [hpc, decide_False, Bool.false_eq_true, if_false]
        refine ⟨fun h => (by cases h), ?_⟩
        rintro ⟨s1, h1, h2⟩
        exfalso
        cases s1 with
        | nil => cases h2
        | cons a s1 =>
          simp only [List.cons_append, List.cons.injEq] at h1
          simp only [List.map_cons, List.cons.injEq] at h2
          apply hpc
          rw [← h2.1, h1.1]

/-- What a match of the pattern of `fixSequenceNumbers` says about the name. -/
theorem matchFixPattern_eq_some (userId listingCode file : Str) (m : Str × Str) :
    matchFixPattern userId listingCode file = some m ↔
      ∃ s1 d1 d2, file = s1 ++ d1 :: d2 :: '.' :: m.2 ∧ m.1 = [d1, d2] ∧
        s1.map Char.toLower =
          ("img.".toList ++ userId ++ '.' :: listingCode ++ ['.']).map Char.toLower ∧
        classDigit d1 = true ∧ classDigit d2 = true ∧
        ∀ c ∈ m.2, isLineTerminator c = false := by
  obtain ⟨md, mext⟩ := m
  unfold matchFixPattern
  constructor
  · intro h
    split at h
    · next d1 d2 extension hlit =>
      split at h
      · next hchk =>
        simp only [Option.some.injEq, Prod.mk.injEq] at h
        obtain ⟨rfl, rfl⟩ := h
        obtain ⟨s1, hs1, hmap⟩ := (matchLiteralI_eq_some _ _ _).1 hlit
        simp only [Bool.and_eq_true, List.all_eq_true, Bool.not_eq_true'] at hchk
        exact ⟨s1, d1, d2, hs1, rfl, hmap, hchk.1.1, hchk.1.2, hchk.2⟩
      · cases h
    · cases h
  · rintro ⟨s1, d1, d2, hfile, hd, hmap, hd1, hd2, hlt⟩
    simp only at hfile hd hlt
    have hlit := (matchLiteralI_eq_some
      ("img.".toList ++ userId ++ '.' :: listingCode ++ ['.']) file (d1 :: d2 :: '.' :: mext)).2
      ⟨s1, hfile, hmap⟩
    rw [hlit]
    have hall : mext.all (fun c => !isLineTerminator c) = true := by
      rw [List.all_eq_true]
      intro c hc
      simp [hlt c hc]
    simp only [hd1, hd2, hall, Bool.and_self, if_true, hd]

theorem toLower_transfer (a b : Str) (h : a.map Char.toLower = b.map Char.toLower)
    (P : Char → Prop) (hb : ∀ c ∈ b, P c.toLower) : ∀ c ∈ a, P c.toLower := by
  intro c hc
  have : c.toLower ∈ b.map Char.toLower := by
    rw [← h]; exact List.mem_map_of_mem _ hc
  obtain ⟨c', hc', e⟩ := List.mem_map.1 this
  rw [← e]
  exact hb c' hc'

/-- A name the analysis accepts for the user and listing, up to case, is
selected by the pattern of `fixSequenceNumbers`. -/
theorem matchFixPattern_of_matchPattern (userId listingCode name : Str) (m : FileMatch)
    (hm : matchPattern name = some m)
    (hu : toLowerCase m.userId = toLowerCase userId)
    (hl : toLowerCase m.listingCode = toLowerCase listingCode) :
    ∃ ext, m.extension = '.' :: ext ∧ ext ≠ [] ∧ (∀ c ∈ ext, c.isAlpha = true) ∧
      matchFixPattern userId listingCode name = some (m.imageNumber, ext) := by
  obtain ⟨c1, c2, c3, ext, d1, d2, hname, hnum, hext, h1, h2, h3, _, _, _, _, hd1, hd2,
    hne, hall⟩ := matchPattern_some name m hm
  refine ⟨ext, hext, hne, fun c hc => (matchClassI_alpha_iff c).1 (hall c hc), ?_⟩
  rw [matchFixPattern_eq_some]
  refine ⟨c1 :: c2 :: c3 :: '.' :: (m.userId ++ '.' :: (m.listingCode ++ ['.'])), d1, d2, ?_,
    hnum, ?_, hd1, hd2, ?_⟩
  · rw [hname]; simp
  · simp only [toLowerCase] at hu hl
    have e0 : "img.".toList = ['i', 'm', 'g', '.'] := rfl
    rw [e0]
    simp only [List.map_cons, List.map_append, List.cons_append, List.nil_append, List.map_nil,
      h1, h2, h3, hu, hl, List.append_assoc]
    rfl
  · intro c hc
    exact isAlpha_not_lineTerminator c ((matchClassI_alpha_iff c).1 (hall c hc))

/-- A name selected by the pattern of `fixSequenceNumbers` whose extension is
made of letters is accepted by the analysis, for that user and listing up to
case. -/
theorem matchPattern_of_matchFixPattern (userId listingCode name d ext : Str)
    (hu7 : userId.length = 7) (huhex : ∀ c ∈ userId, isHexDigitI c)
    (hlne : listingCode ≠ []) (hlal : ∀ c ∈ listingCode, c.isAlphanum = true)
    (hm : matchFixPattern userId listingCode name = some (d, ext))
    (hne : ext ≠ []) (hall : ∀ c ∈ ext, c.isAlpha = true) :
    ∃ m, matchPattern name = some m ∧ toLowerCase m.userId = toLowerCase userId ∧
      toLowerCase m.listingCode = toLowerCase listingCode ∧ m.imageNumber = d ∧
      m.extension = '.' :: ext := by
  obtain ⟨s1, d1, d2, hfile, hd, hmap, hd1, hd2, _⟩ :=
    (matchFixPattern_eq_some userId listingCode name (d, ext)).1 hm
  simp only at hfile hd
  have e0 : "img.".toList = ['i', 'm', 'g', '.'] := rfl
  rw [e0] at hmap
  simp only [List.map_append, List.map_cons, List.map_nil, List.cons_append, List.nil_append,
    List.append_assoc] at hmap
  obtain ⟨c1, s2, rfl, h1, hmap⟩ := List.map_eq_cons_iff.1 hmap
  obtain ⟨c2, s3, rfl, h2, hmap⟩ := List.map_eq_cons_iff.1 hmap
  obtain ⟨c3, s4, rfl, h3, hmap⟩ := List.map_eq_cons_iff.1 hmap
  obtain ⟨c4, s5, rfl, h4, hmap⟩ := List.map_eq_cons_iff.1 hmap
  obtain ⟨uid, s6, rfl, huid, hmap⟩ := List.map_eq_append_iff.1 hmap
  obtain ⟨x, s7, rfl, hx, hmap⟩ := List.map_eq_cons_iff.1 hmap
  obtain ⟨code, s8, rfl, hcode, hmap⟩ := List.map_eq_append_iff.1 hmap
  obtain ⟨y, s9, rfl, hy, hmap⟩ := List.map_eq_cons_iff.1 hmap
  have hs9 : s9 = [] := by simpa using hmap
  subst hs9
  have hc4 : c4 = '.' := toLower_eq_dot c4 h4
  have hxd : x = '.' := toLower_eq_dot x hx
  have hyd : y = '.' := toLower_eq_dot y hy
  subst hc4 hxd hyd
  have hform : name = c1 :: c2 :: c3 :: '.' ::
      (uid ++ '.' :: (code ++ '.' :: d1 :: d2 :: '.' :: ext)) := by
    rw [hfile]; simp
  have huidlen : uid.length = 7 := by
    have := congrArg List.length huid
    simpa [hu7] using this
  have huidhex : uid.all (matchClassI classHex) = true := by
    rw [List.all_eq_true]
    intro c hc
    rw [matchClassI_hex_iff, isHexDigitI_iff_toLower]
    exact toLower_transfer uid userId huid (fun c => classHex c = true)
      (fun c hc => (isHexDigitI_iff_toLower c).1 (huhex c hc)) c hc
  have hcodene : code ≠ [] := by
    intro h
    subst h
    simp only [List.map_nil] at hcode
    exact hlne (List.map_eq_nil_iff.1 hcode.symm)
  have hcodeal : ∀ c ∈ code, matchClassI classAlnum c = true := by
    intro c hc
    rw [matchClassI_alnum_iff, isAlphanum_iff_toLower]
    exact toLower_transfer code listingCode hcode (fun c => classAlnum c = true)
      (fun c hc => (isAlphanum_iff_toLower c).1 (hlal c hc)) c hc
  refine ⟨⟨uid, code, [d1, d2], '.' :: ext⟩, ?_, huid, hcode, hd.symm, rfl⟩
  rw [hform]
  exact matchPattern_of_parts c1 c2 c3 uid code ext d1 d2 h1 h2 h3 huidlen huidhex hcodene
    hcodeal hd1 hd2 hne
    (List.all_eq_true.2 (fun c hc => (matchClassI_alpha_iff c).2 (hall c hc)))

theorem mem_matchingFiles (userId listingCode : Str) (names : List Str) (f : FixFile) :
    f ∈ matchingFiles userId listingCode names ↔
      f.filename ∈ names ∧ ∃ d,
        matchFixPattern userId listingCode f.filename = some (d, f.extension) ∧
        f.number = (parseInt d).getD 0 := by
  simp only [matchingFiles, List.mem_filterMap, Option.map_eq_some']
  constructor
  · rintro ⟨file, hfile, ⟨d, ext⟩, hm, rfl⟩
    exact ⟨hfile, d, hm, rfl⟩
  · rintro ⟨hfile, d, hm, hnum⟩
    refine ⟨f.filename, hfile, (d, f.extension), hm, ?_⟩
    cases f
    simp only at hnum
    simp [hnum]

theorem mem_selectFiles (userId listingCode : Str) (names : List Str) (f : FixFile) :
    f ∈ selectFiles userId listingCode names ↔ f ∈ matchingFiles userId listingCode names := by
  simp only [selectFiles, List.mem_insertionSort]

theorem mem_categorize_valid (names : List Str) (v : ValidFile) :
    v ∈ (categorize names).1 ↔
      v.filename ∈ names ∧
        matchPattern v.filename = some ⟨v.userId, v.listingCode, v.imageNumber, v.extension⟩ := by
  simp only [categorize, categorizeLoop_eq, List.nil_append, List.mem_filterMap,
    Option.map_eq_some']
  constructor
  · rintro ⟨file, hfile, m, hm, rfl⟩
    exact ⟨hfile, hm⟩
  · rintro ⟨hfile, hm⟩
    exact ⟨v.filename, hfile, _, hm, rfl⟩

/-- C18, as stated, fails: `fixSequenceNumbers` selects a name whose extension
holds a digit, which the analysis classifies as invalid. -/
theorem repair_selects_invalid_name :
    (selectFiles "0000042".toList "abc".toList ["img.0000042.abc.01.jp2".toList]).map
        (fun f => f.filename) = ["img.0000042.abc.01.jp2".toList] ∧
    (categorize ["img.0000042.abc.01.jp2".toList]).1 = [] ∧
    (categorize ["img.0000042.abc.01.jp2".toList]).2 = ["img.0000042.abc.01.jp2".toList] := by
  decide

/-- C18, amended: for every directory listing, every user id of 7 characters of
`0-9a-f` and every alphanumeric listing code, the files the analysis classifies
as valid with that user id and listing code (compared case-insensitively) are
exactly the files `fixSequenceNumbers` selects whose extension is one or more
letters; `fixSequenceNumbers` also selects names with any other extension. -/
theorem repair_selection_vs_analysis (names : List Str) (userId listingCode : Str)
    (hu7 : userId.length = 7) (huhex : ∀ c ∈ userId, isHexDigitI c)
    (hlne : listingCode ≠ []) (hlal : ∀ c ∈ listingCode, c.isAlphanum = true) (name : Str) :
    (∃ v ∈ (categorize names).1, v.filename = name ∧
        toLowerCase v.userId = toLowerCase userId ∧
        toLowerCase v.listingCode = toLowerCase listingCode) ↔
      (∃ f ∈ selectFiles userId listingCode names, f.filename = name ∧
        f.extension ≠ [] ∧ ∀ c ∈ f.extension, c.isAlpha = true) := by
  constructor
  · rintro ⟨v, hv, rfl, hu, hl⟩
    obtain ⟨hfile, hm⟩ := (mem_categorize_valid names v).1 hv
    obtain ⟨ext, _, hne, hall, hfix⟩ :=
      matchFixPattern_of_matchPattern userId listingCode v.filename _ hm hu hl
    refine ⟨⟨v.filename, (parseInt v.imageNumber).getD 0, ext⟩, ?_, rfl, hne, hall⟩
    rw [mem_selectFiles, mem_matchingFiles]
    exact ⟨hfile, v.imageNumber, hfix, rfl⟩
  · rintro ⟨f, hf, rfl, hne, hall⟩
    rw [mem_selectFiles, mem_matchingFiles] at hf
    obtain ⟨hfile, d, hfix, _⟩ := hf
    obtain ⟨m, hm, hu, hl, _, _⟩ := matchPattern_of_matchFixPattern userId listingCode
      f.filename d f.extension hu7 huhex hlne hlal hfix hne hall
    refine ⟨⟨f.filename, m.userId, m.listingCode, m.imageNumber, m.extension⟩, ?_, rfl, hu, hl⟩
    rw [mem_categorize_valid]
    exact ⟨hfile, hm⟩

/-- C18, amended, on a listing with a valid name of another case. -/
theorem repair_selection_vs_analysis_witness :
    (∃ v ∈ (categorize ["IMG.000000A.Abc.01.JPG".toList, "x.txt".toList]).1,
        v.filename = "IMG.000000A.Abc.01.JPG".toList ∧
        toLowerCase v.userId = toLowerCase "000000a".toList ∧
        toLowerCase v.listingCode = toLowerCase "abc".toList) ↔
      (∃ f ∈ selectFiles "000000a".toList "abc".toList
          ["IMG.000000A.Abc.01.JPG".toList, "x.txt".toList],
        f.filename = "IMG.000000A.Abc.01.JPG".toList ∧
        f.extension ≠ [] ∧ ∀ c ∈ f.extension, c.isAlpha = true) :=
  repair_selection_vs_analysis ["IMG.000000A.Abc.01.JPG".toList, "x.txt".toList]
    "000000a".toList "abc".toList (by decide) (by decide) (by decide) (by decide)
    "IMG.000000A.Abc.01.JPG".toList

/-! ## The order of `fixSequenceNumbers` -/

theorem fixFile_le_total : IsTotal FixFile (fun a b => a.number ≤ b.number) :=
  ⟨fun a b => le_total a.number b.number⟩

theorem fixFile_le_trans : IsTrans FixFile (fun a b => a.number ≤ b.number) :=
  ⟨fun _ _ _ h1 h2 => le_trans h1 h2⟩

theorem pair_sublist_indices {α : Type} (a b : α) (l : List α) (h : List.Sublist [a, b] l) :
    ∃ i j : Nat, i < j ∧ l[i]? = some a ∧ l[j]? = some b := by
  induction l with
  | nil => cases h
  | cons x rest ih =>
    cases h with
    | cons _ h =>
      obtain ⟨i, j, hij, hi, hj⟩ := ih h
      exact ⟨i + 1, j + 1, by omega, by simpa using hi, by simpa using hj⟩
    | cons₂ _ h =>
      have hb : b ∈ rest := by
        have := h.subset
        exact this (List.mem_singleton_self b)
      obtain ⟨j, hj⟩ := List.mem_iff_getElem?.1 hb
      exact ⟨0, j + 1, by omega, by simp, by simpa using hj⟩

/-- C19, as stated, fails: with `01.png` listed before `01.jpg`, the file
`01.png` keeps number 01 and `01.jpg` receives 02, although the name of the
latter is the smaller one. -/
theorem repair_tie_not_by_filename :
    "img.0000042.abc.01.jpg".toList < "img.0000042.abc.01.png".toList ∧
    (selectFiles "0000042".toList "abc".toList
        (readdirListings ⟨[("img.0000042.abc.01.png".toList, [1]),
          ("img.0000042.abc.01.jpg".toList, [2])], none⟩)).map (fun f => f.filename) =
      ["img.0000042.abc.01.png".toList, "img.0000042.abc.01.jpg".toList] ∧
    fixSequenceNumbers "0000042".toList "abc".toList
        ⟨[("img.0000042.abc.01.png".toList, [1]), ("img.0000042.abc.01.jpg".toList, [2])],
          none⟩ =
      ⟨[("img.0000042.abc.01.png".toList, [1]), ("img.0000042.abc.02.jpg".toList, [2])],
        none⟩ := by
  decide

/-- Two names of the group with equal current number keep, in the sorted array
`files`, the order in which the listing has them. -/
theorem selectFiles_ties_in_listing_order (userId listingCode : Str) (names : List Str)
    (x y dx dy ex ey : Str)
    (hx : matchFixPattern userId listingCode x = some (dx, ex))
    (hy : matchFixPattern userId listingCode y = some (dy, ey))
    (hnum : (parseInt dx).getD 0 = (parseInt dy).getD 0)
    (hlisted : List.Sublist [x, y] names) :
    ∃ i j : Nat, i < j ∧
      (selectFiles userId listingCode names)[i]? = some ⟨x, (parseInt dx).getD 0, ex⟩ ∧
      (selectFiles userId listingCode names)[j]? = some ⟨y, (parseInt dy).getD 0, ey⟩ := by
  have hsub := hlisted.filterMap (fun file =>
    (matchFixPattern userId listingCode file).map (fun m =>
      (⟨file, (parseInt m.1).getD 0, m.2⟩ : FixFile)))
  simp only [List.filterMap_cons, hx, hy, Option.map_some', List.filterMap_nil] at hsub
  haveI := fixFile_le_total
  haveI := fixFile_le_trans
  have hab : (fun a b : FixFile => a.number ≤ b.number)
      ⟨x, (parseInt dx).getD 0, ex⟩ ⟨y, (parseInt dy).getD 0, ey⟩ := le_of_eq hnum
  have hsorted : List.Sublist
      [(⟨x, (parseInt dx).getD 0, ex⟩ : FixFile), ⟨y, (parseInt dy).getD 0, ey⟩]
      (selectFiles userId listingCode names) :=
    List.pair_sublist_insertionSort hab hsub
  exact pair_sublist_indices _ _ _ hsorted

/-! ## File tables -/

theorem readFile_append (a b : FileTable) (name : Str) :
    readFile (a ++ b) name = (readFile a name).orElse (fun _ => readFile b name) := by
  induction a with
  | nil => simp [readFile]
  | cons e rest ih =>
    obtain ⟨n, c⟩ := e
    by_cases h : n = name
    · simp [readFile, h]
    · simp [readFile, h, ih]

theorem readFile_filter (t : FileTable) (p : Str → Bool) (name : Str) :
    readFile (t.filter (fun e => p e.1)) name = if p name then readFile t name else none := by
  induction t with
  | nil => simp [readFile]
  | cons e rest ih =>
    obtain ⟨n, c⟩ := e
    by_cases hp : p n = true
    · by_cases h : n = name
      · subst h; simp [List.filter_cons, hp, readFile]
      · simp [List.filter_cons, hp, readFile, h, ih]
    · by_cases h : n = name
      · subst h
        simp only [List.filter_cons, hp, if_false, Bool.false_eq_true, ih]
      · simp only [List.filter_cons, hp, if_false, Bool.false_eq_true, ih, readFile, h]

theorem readFile_remove (t : FileTable) (n name : Str) :
    readFile (t.remove n) name = if name = n then none else readFile t name := by
  unfold FileTable.remove
  rw [readFile_filter t (fun m => decide (m ≠ n)) name]
  by_cases h : name = n <;> simp [h]

theorem readFile_write (t : FileTable) (n : Str) (c : Bytes) (name : Str) :
    readFile (t.write n c) name = if name = n then some c else readFile t name := by
  unfold FileTable.write
  rw [readFile_append, readFile_filter t (fun m => decide (m ≠ n)) name]
  by_cases h : name = n
  · subst h; simp [readFile]
  · have h2 : ¬ n = name := fun e => h e.symm
    cases hr : readFile t name <;> simp [h, h2, readFile, hr]

theorem readFile_isSome_iff (t : FileTable) (name : Str) :
    (readFile t name).isSome = true ↔ name ∈ t.map Prod.fst := by
  induction t with
  | nil => simp [readFile]
  | cons e rest ih =>
    obtain ⟨n, c⟩ := e
    by_cases h : n = name
    · simp [readFile, h]
    · have h2 : ¬ name = n := fun e => h e.symm
      simp [readFile, h, h2, ih]

theorem readFile_eq_none_iff (t : FileTable) (name : Str) :
    readFile t name = none ↔ name ∉ t.map Prod.fst := by
  rw [← readFile_isSome_iff]
  cases readFile t name <;> simp

theorem readFile_of_mem_nodup (t : FileTable) (h : (t.map Prod.fst).Nodup) (n : Str) (c : Bytes)
    (hm : (n, c) ∈ t) : readFile t n = some c := by
  induction t with
  | nil => cases hm
  | cons e rest ih =>
    obtain ⟨n0, c0⟩ := e
    simp only [List.map_cons, List.nodup_cons] at h
    rcases List.mem_cons.1 hm with he | hm
    · cases he; simp [readFile]
    · have : n0 ≠ n := by
        intro e
        apply h.1
        rw [e]
        exact List.mem_map_of_mem Prod.fst hm
      simp [readFile, this, ih h.2 hm]

/-! ## Runs of file-system calls -/

theorem runOps_length_le (ops : List FsOp) :
    ∀ dir : ListingsDir, (runOps ops dir).length ≤ ops.length := by
  induction ops with
  | nil => intro dir; simp [runOps]
  | cons op rest ih =>
    intro dir
    simp only [runOps]
    split
    · simp
    · next next _ =>
      simp only [List.length_cons]
      exact Nat.succ_le_succ (ih next)

/-- A run of two lists of calls: the second list is run, from the state the
first list leaves, exactly when no call of the first list throws. -/
theorem runOps_append (a b : List FsOp) :
    ∀ dir : ListingsDir,
      runOps (a ++ b) dir =
        runOps a dir ++
          (if (runOps a dir).length = a.length then runOps b ((runOps a dir).getLastD dir)
           else []) := by
  induction a with
  | nil => intro dir; simp [runOps]
  | cons op rest ih =>
    intro dir
    have e : (op :: rest) ++ b = op :: (rest ++ b) := rfl
    rw [e]
    cases hrun : op.run dir with
    | none => simp [runOps, hrun]
    | some next =>
      have h1 : runOps (op :: (rest ++ b)) dir = next :: runOps (rest ++ b) next := by
        simp only [runOps, hrun]
      have h2 : runOps (op :: rest) dir = next :: runOps rest next := by
        simp only [runOps, hrun]
      rw [h1, h2, ih next, List.getLastD_cons]
      simp

theorem runOps_preserve_files (ops : List FsOp)
    (h : ∀ op ∈ ops, ∀ d d2 : ListingsDir, op.run d = some d2 → d2.files = d.files) :
    ∀ dir : ListingsDir, ∀ s ∈ runOps ops dir, s.files = dir.files := by
  induction ops with
  | nil => intro dir s hs; simp [runOps] at hs
  | cons op rest ih =>
    intro dir s hs
    simp only [runOps] at hs
    cases hrun : op.run dir with
    | none => rw [hrun] at hs; cases hs
    | some next =>
      rw [hrun] at hs
      have h1 := h op (List.mem_cons_self _ _) dir next hrun
      rcases List.mem_cons.1 hs with rfl | hs
      · exact h1
      · rw [ih (fun o ho => h o (List.mem_cons_of_mem _ ho)) next s hs, h1]

theorem runOps_preserve_temp (ops : List FsOp)
    (h : ∀ op ∈ ops, ∀ d d2 : ListingsDir, op.run d = some d2 → d2.temp = d.temp) :
    ∀ dir : ListingsDir, ∀ s ∈ runOps ops dir, s.temp = dir.temp := by
  induction ops with
  | nil => intro dir s hs; simp [runOps] at hs
  | cons op rest ih =>
    intro dir s hs
    simp only [runOps] at hs
    cases hrun : op.run dir with
    | none => rw [hrun] at hs; cases hs
    | some next =>
      rw [hrun] at hs
      have h1 := h op (List.mem_cons_self _ _) dir next hrun
      rcases List.mem_cons.1 hs with rfl | hs
      · exact h1
      · rw [ih (fun o ho => h o (List.mem_cons_of_mem _ ho)) next s hs, h1]

theorem copyToTemp_files (source target : Str) (d d2 : ListingsDir)
    (h : (FsOp.copyToTemp source target).run d = some d2) : d2.files = d.files := by
  simp only [FsOp.run] at h
  split at h
  · cases h; rfl
  · cases h

theorem mkdirTemp_files (d d2 : ListingsDir) (h : FsOp.mkdirTemp.run d = some d2) :
    d2.files = d.files := by
  simp only [FsOp.run] at h
  split at h
  · cases h
  · cases h; rfl

theorem unlink_temp (name : Str) (d d2 : ListingsDir)
    (h : (FsOp.unlink name).run d = some d2) : d2.temp = d.temp := by
  simp only [FsOp.run] at h
  split at h
  · cases h; rfl
  · cases h

theorem copyFromTemp_temp (name : Str) (d d2 : ListingsDir)
    (h : (FsOp.copyFromTemp name).run d = some d2) : d2.temp = d.temp := by
  simp only [FsOp.run] at h
  split at h
  · split at h
    · split at h
      · cases h
      · cases h; rfl
    · cases h
  · cases h

theorem unlinkTemp_files (name : Str) (d d2 : ListingsDir)
    (h : (FsOp.unlinkTemp name).run d = some d2) : d2.files = d.files := by
  simp only [FsOp.run] at h
  split at h
  · split at h
    · cases h; rfl
    · cases h
  · cases h

theorem rmdirTemp_files (d d2 : ListingsDir) (h : FsOp.rmdirTemp.run d = some d2) :
    d2.files = d.files := by
  simp only [FsOp.run] at h
  split at h
  · cases h; rfl
  · cases h

/-! ## The phases of `fixSequenceNumbers` -/

theorem runOps_cons_some (op : FsOp) (rest : List FsOp) (dir next : ListingsDir)
    (h : op.run dir = some next) :
    runOps (op :: rest) dir = next :: runOps rest next := by
  simp only [runOps, h]

/-- The copies into the scratch directory all succeed when every source exists;
they leave the files alone and write the renamed files into the scratch
directory. -/
theorem runOps_copies (userId listingCode : Str) (table : FileTable) (files : List FixFile) :
    ∀ (k : Nat) (temp : FileTable),
      (∀ f ∈ files, (readFile table f.filename).isSome = true) →
      (runOps ((files.enumFrom k).map (fun p =>
          FsOp.copyToTemp p.2.filename (newFilename userId listingCode p.1 p.2)))
        ⟨table, some temp⟩).length = files.length ∧
      (runOps ((files.enumFrom k).map (fun p =>
          FsOp.copyToTemp p.2.filename (newFilename userId listingCode p.1 p.2)))
        ⟨table, some temp⟩).getLastD ⟨table, some temp⟩ =
        ⟨table, some ((renamedFiles userId listingCode table files k).foldl
          (fun t p => t.write p.1 p.2) temp)⟩ := by
  induction files with
  | nil => intro k temp _; simp [runOps, renamedFiles]
  | cons f rest ih =>
    intro k temp hsrc
    obtain ⟨c, hc⟩ := Option.isSome_iff_exists.1 (hsrc f (List.mem_cons_self _ _))
    have hrun : (FsOp.copyToTemp f.filename (newFilename userId listingCode k f)).run
        ⟨table, some temp⟩ =
        some ⟨table, some (temp.write (newFilename userId listingCode k f) c)⟩ := by
      simp only [FsOp.run, hc]
    obtain ⟨h1, h2⟩ := ih (k + 1) (temp.write (newFilename userId listingCode k f) c)
      (fun g hg => hsrc g (List.mem_cons_of_mem _ hg))
    simp only [List.enumFrom_cons, List.map_cons]
    rw [runOps_cons_some _ _ _ _ hrun]
    refine ⟨by simp [h1], ?_⟩
    rw [List.getLastD_cons, h2]
    simp [renamedFiles, List.enumFrom_cons, hc]

/-- The deletions of the originals all succeed when the names are distinct and
present; they leave the scratch directory alone. -/
theorem runOps_unlinks (names : List Str) :
    ∀ (table : FileTable) (temp : Option FileTable), names.Nodup →
      (∀ n ∈ names, (readFile table n).isSome = true) →
      (runOps (names.map FsOp.unlink) ⟨table, temp⟩).length = names.length ∧
      (runOps (names.map FsOp.unlink) ⟨table, temp⟩).getLastD ⟨table, temp⟩ =
        ⟨table.filter (fun e => decide (e.1 ∉ names)), temp⟩ := by
  induction names with
  | nil => intro table temp _ _; simp [runOps]
  | cons n rest ih =>
    intro table temp hnd hsrc
    simp only [List.nodup_cons] at hnd
    have hrun : (FsOp.unlink n).run ⟨table, temp⟩ = some ⟨table.remove n, temp⟩ := by
      simp only [FsOp.run, hsrc n (List.mem_cons_self _ _), if_true]
    have hsrc2 : ∀ m ∈ rest, (readFile (table.remove n) m).isSome = true := by
      intro m hm
      have hne : m ≠ n := fun e => hnd.1 (e ▸ hm)
      rw [readFile_remove, if_neg hne]
      exact hsrc m (List.mem_cons_of_mem _ hm)
    obtain ⟨h1, h2⟩ := ih (table.remove n) temp hnd.2 hsrc2
    simp only [List.map_cons]
    rw [runOps_cons_some _ _ _ _ hrun]
    refine ⟨by simp [h1], ?_⟩
    rw [List.getLastD_cons, h2]
    simp only [FileTable.remove, List.filter_filter, ListingsDir.mk.injEq, and_true]
    apply List.filter_congr
    intro e _
    by_cases he : e.1 = n <;> simp [he]

/-- The copies back from the scratch directory all succeed when every name is
in it and none is `temp`; they leave the scratch directory alone. -/
theorem runOps_copyBacks (temp : FileTable) (ps : FileTable) :
    ∀ (table : FileTable),
      (∀ p ∈ ps, readFile temp p.1 = some p.2 ∧ p.1 ≠ "temp".toList) →
      (runOps (ps.map (fun p => FsOp.copyFromTemp p.1)) ⟨table, some temp⟩).length = ps.length ∧
      (runOps (ps.map (fun p => FsOp.copyFromTemp p.1)) ⟨table, some temp⟩).getLastD
          ⟨table, some temp⟩ =
        ⟨ps.foldl (fun t p => t.write p.1 p.2) table, some temp⟩ := by
  induction ps with
  | nil => intro table _; simp [runOps]
  | cons p rest ih =>
    intro table hsrc
    obtain ⟨hp1, hp2⟩ := hsrc p (List.mem_cons_self _ _)
    have hrun : (FsOp.copyFromTemp p.1).run ⟨table, some temp⟩ =
        some ⟨table.write p.1 p.2, some temp⟩ := by
      simp only [FsOp.run, hp1, hp2, if_false]
    obtain ⟨h1, h2⟩ := ih (table.write p.1 p.2)
      (fun q hq => hsrc q (List.mem_cons_of_mem _ hq))
    simp only [List.map_cons]
    rw [runOps_cons_some _ _ _ _ hrun]
    refine ⟨by simp [h1], ?_⟩
    rw [List.getLastD_cons, h2]
    simp

/-- The deletions in the scratch directory of all its files, names distinct,
succeed and leave it empty. -/
theorem runOps_unlinkTemps (temp : FileTable) :
    ∀ (table : FileTable), (temp.map Prod.fst).Nodup →
      (runOps (temp.map (fun p => FsOp.unlinkTemp p.1)) ⟨table, some temp⟩).length =
        temp.length ∧
      (runOps (temp.map (fun p => FsOp.unlinkTemp p.1)) ⟨table, some temp⟩).getLastD
          ⟨table, some temp⟩ = ⟨table, some []⟩ := by
  induction temp with
  | nil => intro table _; simp [runOps]
  | cons p rest ih =>
    intro table hnd
    obtain ⟨n, c⟩ := p
    simp only [List.map_cons, List.nodup_cons] at hnd
    have hrem : FileTable.remove ((n, c) :: rest) n = rest := by
      simp only [FileTable.remove, List.filter_cons, ne_eq, not_true_eq_false, decide_False,
        Bool.false_eq_true, if_false]
      rw [List.filter_eq_self]
      intro e he
      simp only [decide_eq_true_eq]
      intro heq
      exact hnd.1 (heq ▸ List.mem_map_of_mem Prod.fst he)
    have hrun : (FsOp.unlinkTemp n).run ⟨table, some ((n, c) :: rest)⟩ =
        some ⟨table, some rest⟩ := by
      simp only [FsOp.run, readFile, if_true, Option.isSome_some, hrem]
    obtain ⟨h1, h2⟩ := ih table hnd.2
    simp only [List.map_cons]
    rw [runOps_cons_some _ _ _ _ hrun]
    refine ⟨by simp [h1], ?_⟩
    rw [List.getLastD_cons, h2]

/-- Writing files of distinct names one after the other: the files of other
names stay, in their order, and the written files follow. -/
theorem foldl_write_eq (ps : FileTable) :
    ∀ (table : FileTable), (ps.map Prod.fst).Nodup →
      ps.foldl (fun t p => t.write p.1 p.2) table =
        table.filter (fun e => decide (e.1 ∉ ps.map Prod.fst)) ++ ps := by
  induction ps with
  | nil => intro table _; simp
  | cons p rest ih =>
    intro table hnd
    simp only [List.map_cons, List.nodup_cons] at hnd
    rw [List.foldl_cons, ih _ hnd.2]
    simp only [FileTable.write, List.filter_append, List.filter_filter, List.map_cons,
      List.mem_cons, not_or, List.append_assoc]
    have h1 : List.filter (fun e => decide (e.1 ∉ rest.map Prod.fst)) [(p.1, p.2)] = [p] := by
      simp [List.filter_cons, hnd.1]
    rw [h1]
    congr 1
    apply List.filter_congr
    intro e _
    by_cases he : e.1 = p.1 <;> simp [he]

/-! ## New names -/

theorem digitsValue_foldl (l : Str) :
    ∀ acc : Nat,
      l.foldl (fun acc d => 10 * acc + (d.toNat - '0'.toNat)) acc =
        acc * 10 ^ l.length + digitsValue l := by
  induction l with
  | nil => intro acc; simp [digitsValue]
  | cons d rest ih =>
    intro acc
    simp only [List.foldl_cons, digitsValue, List.length_cons]
    rw [ih (10 * acc + (d.toNat - '0'.toNat)), ih (10 * 0 + (d.toNat - '0'.toNat))]
    ring

theorem digitsValue_cons (d : Char) (rest : Str) :
    digitsValue (d :: rest) = (d.toNat - '0'.toNat) * 10 ^ rest.length + digitsValue rest := by
  simp only [digitsValue, List.foldl_cons]
  rw [digitsValue_foldl rest (10 * 0 + (d.toNat - '0'.toNat))]
  simp [digitsValue]

theorem toStringRadixLoop_value (fuel : Nat) :
    ∀ (n : Nat) (acc : Str), n < fuel →
      digitsValue (toStringRadixLoop 10 fuel n acc) = n * 10 ^ acc.length + digitsValue acc := by
  induction fuel with
  | zero => intro n acc h; omega
  | succ fuel ih =>
    intro n acc h
    simp only [toStringRadixLoop]
    split
    · next h0 =>
      have hn : n % 10 = n := Nat.mod_eq_of_lt (by omega)
      rw [digitsValue_cons, digitChar_value _ (Nat.mod_lt _ (by decide)), hn]
    · next h0 =>
      rw [ih (n / 10) _ (by omega), digitsValue_cons,
        digitChar_value _ (Nat.mod_lt _ (by decide))]
      simp only [List.length_cons]
      have hdm := Nat.div_add_mod n 10
      generalize n / 10 = q at hdm
      generalize n % 10 = r at hdm
      subst hdm
      ring

theorem digitsValue_numberToString (n : Nat) : digitsValue (numberToString n) = n := by
  have := toStringRadixLoop_value (n + 1) n [] (by omega)
  simpa [numberToString, toStringRadix, digitsValue] using this

theorem digitsValue_pad2 (n : Nat) : digitsValue (padStart (numberToString n) 2 '0') = n := by
  rw [padStart_eq]
  have hz : ∀ k : Nat, ∀ s : Str, digitsValue (List.replicate k '0' ++ s) = digitsValue s := by
    intro k
    induction k with
    | zero => intro s; rfl
    | succ k ih =>
      intro s
      rw [List.replicate_succ, List.cons_append, digitsValue_cons, ih]
      simp
  rw [hz, digitsValue_numberToString]

theorem newFilename_eq (userId listingCode : Str) (i : Nat) (f : FixFile) :
    newFilename userId listingCode i f =
      ("img.".toList ++ userId ++ '.' :: listingCode ++ ['.']) ++
        (padStart (numberToString (i + 1)) 2 '0' ++ '.' :: f.extension) := by
  simp [newFilename]

theorem classDigit_ne_dot (l : Str) (h : ∀ c ∈ l, classDigit c = true) : ∀ c ∈ l, c ≠ '.' := by
  intro c hc hdot
  have := h c hc
  rw [hdot] at this
  exact absurd this (by decide)

/-- The new names of two positions are different; equal new names have the same
position and the same extension. -/
theorem newFilename_inj (userId listingCode : Str) (i j : Nat) (f g : FixFile)
    (h : newFilename userId listingCode i f = newFilename userId listingCode j g) :
    i = j ∧ f.extension = g.extension := by
  rw [newFilename_eq, newFilename_eq] at h
  have h2 := List.append_cancel_left h
  rcases split_at_first_dot _ (classDigit_ne_dot _ (pad2_digits (i + 1))) _ _ _ h2 with
    ⟨h3, h4⟩ | ⟨l2, h3, _⟩
  · have := congrArg digitsValue h3
    rw [digitsValue_pad2, digitsValue_pad2] at this
    exact ⟨by omega, h4⟩
  · exfalso
    exact classDigit_ne_dot _ (pad2_digits (j + 1)) '.' (by rw [h3]; simp) rfl

theorem renamedFiles_names (userId listingCode : Str) (table : FileTable)
    (files : List FixFile) :
    ∀ k : Nat,
      ((renamedFiles userId listingCode table files k).map Prod.fst).Nodup ∧
      ∀ n ∈ (renamedFiles userId listingCode table files k).map Prod.fst,
        ∃ j g, k ≤ j ∧ n = newFilename userId listingCode j g := by
  induction files with
  | nil => intro k; simp [renamedFiles]
  | cons f rest ih =>
    intro k
    obtain ⟨h1, h2⟩ := ih (k + 1)
    have e : (renamedFiles userId listingCode table (f :: rest) k).map Prod.fst =
        newFilename userId listingCode k f ::
          (renamedFiles userId listingCode table rest (k + 1)).map Prod.fst := by
      simp [renamedFiles, List.enumFrom_cons]
    rw [e]
    refine ⟨List.nodup_cons.2 ⟨?_, h1⟩, ?_⟩
    · intro hmem
      obtain ⟨j, g, hj, hn⟩ := h2 _ hmem
      have := (newFilename_inj userId listingCode k j f g hn).1
      omega
    · intro n hn
      rcases List.mem_cons.1 hn with rfl | hn
      · exact ⟨k, f, Nat.le_refl _, rfl⟩
      · obtain ⟨j, g, hj, hn⟩ := h2 n hn
        exact ⟨j, g, by omega, hn⟩

theorem newFilename_ne_temp (userId listingCode : Str) (i : Nat) (f : FixFile) :
    newFilename userId listingCode i f ≠ "temp".toList := by
  intro h
  have e0 : "img.".toList = ['i', 'm', 'g', '.'] := rfl
  have e1 : "temp".toList = ['t', 'e', 'm', 'p'] := rfl
  rw [newFilename, e0, e1] at h
  simp only [List.cons_append, List.cons.injEq] at h
  exact absurd h.1 (by decide)

/-! ## The group of `fixSequenceNumbers` -/

theorem getLastD_append_eq {α : Type} (a b : List α) :
    ∀ d : α, (a ++ b).getLastD d = b.getLastD (a.getLastD d) := by
  induction a with
  | nil => intro d; rfl
  | cons x a ih =>
    intro d
    rw [List.cons_append, List.getLastD_cons, List.getLastD_cons, ih]

/-- Two lists of calls that both succeed, run one after the other. -/
theorem runOps_append_complete (a b : List FsOp) (dir : ListingsDir)
    (ha : (runOps a dir).length = a.length)
    (hb : (runOps b ((runOps a dir).getLastD dir)).length = b.length) :
    (runOps (a ++ b) dir).length = (a ++ b).length ∧
    (runOps (a ++ b) dir).getLastD dir =
      (runOps b ((runOps a dir).getLastD dir)).getLastD ((runOps a dir).getLastD dir) := by
  rw [runOps_append, if_pos ha]
  refine ⟨by rw [List.length_append, List.length_append, ha, hb], ?_⟩
  rw [getLastD_append_eq]

theorem matchFixPattern_temp (userId listingCode : Str) :
    matchFixPattern userId listingCode "temp".toList = none := by
  cases h : matchFixPattern userId listingCode "temp".toList with
  | none => rfl
  | some m =>
    exfalso
    obtain ⟨s1, d1, d2, hfile, _, hmap, _, _, _⟩ :=
      (matchFixPattern_eq_some userId listingCode _ m).1 h
    have hlen := congrArg List.length hmap
    have hlen2 := congrArg List.length hfile
    have e0 : "img.".toList = ['i', 'm', 'g', '.'] := rfl
    have e1 : "temp".toList = ['t', 'e', 'm', 'p'] := rfl
    rw [e0] at hlen
    rw [e1] at hlen2
    simp only [List.length_map, List.length_append, List.length_cons, List.length_nil] at hlen hlen2
    omega

theorem matchingFiles_filenames (userId listingCode : Str) (names : List Str) :
    (matchingFiles userId listingCode names).map (fun f => f.filename) =
      names.filter (fun n => (matchFixPattern userId listingCode n).isSome) := by
  induction names with
  | nil => rfl
  | cons n rest ih =>
    simp only [matchingFiles] at ih
    cases h : matchFixPattern userId listingCode n with
    | none => simp [matchingFiles, List.filterMap_cons, List.filter_cons, h, ih]
    | some m => simp [matchingFiles, List.filterMap_cons, List.filter_cons, h, ih]

/-- The files `fixSequenceNumbers` selects are regular files of the directory,
each selected once when the directory lists each name once. -/
theorem selectFiles_sources (userId listingCode : Str) (dir : ListingsDir) :
    (∀ f ∈ selectFiles userId listingCode (readdirListings dir),
      f.filename ∈ dir.files.map Prod.fst) ∧
    ((dir.files.map Prod.fst).Nodup →
      ((selectFiles userId listingCode (readdirListings dir)).map (fun f => f.filename)).Nodup) := by
  constructor
  · intro f hf
    rw [mem_selectFiles, mem_matchingFiles] at hf
    obtain ⟨hmem, d, hm, _⟩ := hf
    simp only [readdirListings, List.mem_append] at hmem
    rcases hmem with h | h
    · exact h
    · exfalso
      split at h
      · simp only [List.mem_singleton] at h
        rw [h, matchFixPattern_temp] at hm
        cases hm
      · cases h
  · intro hnd
    have hperm : List.Perm
        ((selectFiles userId listingCode (readdirListings dir)).map (fun f => f.filename))
        ((matchingFiles userId listingCode (readdirListings dir)).map (fun f => f.filename)) :=
      (List.perm_insertionSort _ _).map _
    rw [hperm.nodup_iff, matchingFiles_filenames]
    have e : (readdirListings dir).filter
          (fun n => (matchFixPattern userId listingCode n).isSome) =
        (dir.files.map Prod.fst).filter
          (fun n => (matchFixPattern userId listingCode n).isSome) := by
      simp only [readdirListings, List.filter_append]
      split
      · have ht := matchFixPattern_temp userId listingCode
        rw [List.filter_cons, ht]
        simp
      · simp
    rw [e]
    exact hnd.filter _

/-- The directory after `fixSequenceNumbers` when it starts without a file named
`temp` and with the scratch directory absent or empty, for a non-empty group:
the files outside the group stay (unless a new name replaces one), the renamed
files follow, and the scratch directory is gone. -/
theorem fixSequenceNumbers_clean_start (userId listingCode : Str) (dir : ListingsDir)
    (hu : userId ≠ []) (hl : listingCode ≠ [])
    (hnd : (dir.files.map Prod.fst).Nodup)
    (hnotemp : readFile dir.files "temp".toList = none)
    (htemp : dir.temp = none ∨ dir.temp = some [])
    (hgroup : selectFiles userId listingCode (readdirListings dir) ≠ []) :
    fixSequenceNumbers userId listingCode dir =
      ⟨(dir.files.filter (fun e => decide (e.1 ∉
            (selectFiles userId listingCode (readdirListings dir)).map
              (fun f => f.filename)))).filter
          (fun e => decide (e.1 ∉ (renamedFiles userId listingCode dir.files
            (selectFiles userId listingCode (readdirListings dir)) 0).map Prod.fst)) ++
        renamedFiles userId listingCode dir.files
          (selectFiles userId listingCode (readdirListings dir)) 0, none⟩ := by
  obtain ⟨table, temp0⟩ := dir
  simp only at hnd hnotemp htemp
  generalize hG : selectFiles userId listingCode (readdirListings ⟨table, temp0⟩) = G at hgroup
  obtain ⟨hsrc, hgnd⟩ := selectFiles_sources userId listingCode ⟨table, temp0⟩
  rw [hG] at hsrc hgnd
  simp only at hsrc hgnd
  have hgnd := hgnd hnd
  have hsome : ∀ f ∈ G, (readFile table f.filename).isSome = true :=
    fun f hf => (readFile_isSome_iff table f.filename).2 (hsrc f hf)
  -- the scratch directory exists and is empty once the first calls are done
  have hA : (runOps (if existsTemp ⟨table, temp0⟩ then [] else [FsOp.mkdirTemp])
        ⟨table, temp0⟩).length =
        (if existsTemp ⟨table, temp0⟩ then [] else [FsOp.mkdirTemp]).length ∧
      (runOps (if existsTemp ⟨table, temp0⟩ then [] else [FsOp.mkdirTemp])
        ⟨table, temp0⟩).getLastD ⟨table, temp0⟩ = ⟨table, some []⟩ := by
    rcases htemp with h | h
    · subst h
      have he : existsTemp ⟨table, none⟩ = false := by
        simp only [existsTemp, hnotemp]; rfl
      simp [he, runOps, FsOp.run]
    · subst h
      have he : existsTemp ⟨table, some []⟩ = true := rfl
      simp [he, runOps]
  have hB := runOps_copies userId listingCode table G 0 [] hsome
  have hT1 : (renamedFiles userId listingCode table G 0).foldl
      (fun (t : FileTable) p => t.write p.1 p.2) [] =
      renamedFiles userId listingCode table G 0 := by
    rw [foldl_write_eq _ _ (renamedFiles_names userId listingCode table G 0).1]
    simp
  rw [hT1] at hB
  have hAB := runOps_append_complete _
    ((G.enumFrom 0).map (fun p =>
      FsOp.copyToTemp p.2.filename (newFilename userId listingCode p.1 p.2)))
    ⟨table, temp0⟩ hA.1 (by rw [hA.2]; simpa using hB.1)
  rw [hA.2, hB.2] at hAB
  have hC := runOps_unlinks (G.map (fun f => f.filename)) table
    (some (renamedFiles userId listingCode table G 0)) hgnd
    (by
      intro n hn
      obtain ⟨f, hf, rfl⟩ := List.mem_map.1 hn
      exact hsome f hf)
  have hABC := runOps_append_complete _ ((G.map (fun f => f.filename)).map FsOp.unlink)
    ⟨table, temp0⟩ hAB.1 (by rw [hAB.2]; simpa using hC.1)
  rw [hAB.2, hC.2] at hABC
  have hphase1 : phase1Ops userId listingCode ⟨table, temp0⟩ G =
      ((if existsTemp ⟨table, temp0⟩ then [] else [FsOp.mkdirTemp]) ++
        (G.enumFrom 0).map (fun p =>
          FsOp.copyToTemp p.2.filename (newFilename userId listingCode p.1 p.2))) ++
        (G.map (fun f => f.filename)).map FsOp.unlink := by
    simp [phase1Ops, List.enum, List.map_map, Function.comp_def]
  -- the second phase
  have hnames := renamedFiles_names userId listingCode table G 0
  have hD := runOps_copyBacks (renamedFiles userId listingCode table G 0)
    (renamedFiles userId listingCode table G 0)
    (table.filter (fun e => decide (e.1 ∉ G.map (fun f => f.filename))))
    (by
      intro p hp
      refine ⟨readFile_of_mem_nodup _ hnames.1 p.1 p.2 hp, ?_⟩
      obtain ⟨j, g, _, hn⟩ := hnames.2 p.1 (List.mem_map_of_mem Prod.fst hp)
      rw [hn]
      exact newFilename_ne_temp _ _ _ _)
  have hE := runOps_unlinkTemps (renamedFiles userId listingCode table G 0)
    ((renamedFiles userId listingCode table G 0).foldl (fun t p => t.write p.1 p.2)
      (table.filter (fun e => decide (e.1 ∉ G.map (fun f => f.filename))))) hnames.1
  have hDE := runOps_append_complete
    ((renamedFiles userId listingCode table G 0).map (fun p => FsOp.copyFromTemp p.1))
    ((renamedFiles userId listingCode table G 0).map (fun p => FsOp.unlinkTemp p.1))
    ⟨table.filter (fun e => decide (e.1 ∉ G.map (fun f => f.filename))),
      some (renamedFiles userId listingCode table G 0)⟩
    (by simpa using hD.1) (by rw [hD.2]; simpa using hE.1)
  rw [hD.2, hE.2] at hDE
  have hF : runOps [FsOp.rmdirTemp]
      ⟨(renamedFiles userId listingCode table G 0).foldl (fun t p => t.write p.1 p.2)
        (table.filter (fun e => decide (e.1 ∉ G.map (fun f => f.filename)))), some []⟩ =
      [⟨(renamedFiles userId listingCode table G 0).foldl (fun t p => t.write p.1 p.2)
        (table.filter (fun e => decide (e.1 ∉ G.map (fun f => f.filename)))), none⟩] := by
    simp [runOps, FsOp.run]
  have hDEF := runOps_append_complete _ [FsOp.rmdirTemp]
    ⟨table.filter (fun e => decide (e.1 ∉ G.map (fun f => f.filename))),
      some (renamedFiles userId listingCode table G 0)⟩ hDE.1
    (by rw [hDE.2, hF]; rfl)
  rw [hDE.2, hF] at hDEF
  have hphase2 : phase2Ops ((renamedFiles userId listingCode table G 0).map Prod.fst) =
      ((renamedFiles userId listingCode table G 0).map (fun p => FsOp.copyFromTemp p.1) ++
        (renamedFiles userId listingCode table G 0).map (fun p => FsOp.unlinkTemp p.1)) ++
        [FsOp.rmdirTemp] := by
    simp [phase2Ops, List.map_map, Function.comp_def]
  have hlen0 : ¬ G.length = 0 := fun h => hgroup (List.length_eq_zero.1 h)
  have hids : ¬ (userId = [] ∨ listingCode = []) := fun h => h.elim hu hl
  have hnot : ¬ (runOps (phase1Ops userId listingCode ⟨table, temp0⟩ G) ⟨table, temp0⟩).length <
      (phase1Ops userId listingCode ⟨table, temp0⟩ G).length := by
    rw [hphase1, hABC.1]; omega
  unfold fixSequenceNumbers fixSequenceTrace
  simp only [hids, if_false, hG, hlen0, hnot]
  rw [getLastD_append_eq]
  rw [hphase1, hABC.2]
  simp only [Option.getD_some]
  rw [hphase2, hDEF.2]
  simp only [List.getLastD_cons, List.getLastD_nil]
  rw [foldl_write_eq _ _ hnames.1]

/-! ## The directory after `fixSequenceNumbers` -/

theorem renamedFiles_mem (userId listingCode : Str) (table : FileTable) (files : List FixFile)
    (i : Nat) (f : FixFile) (h : files[i]? = some f) :
    (newFilename userId listingCode i f, (readFile table f.filename).getD []) ∈
      renamedFiles userId listingCode table files 0 := by
  simp only [renamedFiles, List.mem_map]
  exact ⟨(i, f), List.mk_mem_enum_iff_getElem?.2 h, rfl⟩

theorem selectFiles_extension (userId listingCode : Str) (names : List Str) (f : FixFile)
    (hf : f ∈ selectFiles userId listingCode names) :
    ∀ c ∈ f.extension, isLineTerminator c = false := by
  rw [mem_selectFiles, mem_matchingFiles] at hf
  obtain ⟨_, d, hm, _⟩ := hf
  obtain ⟨_, _, _, _, _, _, _, _, hlt⟩ := (matchFixPattern_eq_some _ _ _ _).1 hm
  exact hlt

/-- A new name is selected by the pattern of `fixSequenceNumbers`, with its new
number, exactly when that number has two digits. -/
theorem matchFixPattern_newFilename (userId listingCode : Str) (i : Nat) (f : FixFile)
    (hext : ∀ c ∈ f.extension, isLineTerminator c = false) :
    (i + 1 ≤ 99 →
      (matchFixPattern userId listingCode (newFilename userId listingCode i f)).map
          (fun m => (⟨newFilename userId listingCode i f, (parseInt m.1).getD 0, m.2⟩ : FixFile)) =
        some ⟨newFilename userId listingCode i f, (i : Int) + 1, f.extension⟩) ∧
    (100 ≤ i + 1 →
      matchFixPattern userId listingCode (newFilename userId listingCode i f) = none) := by
  constructor
  · intro hi
    obtain ⟨hlen, hdig, hparse⟩ := pad2_facts (i + 1) (by omega) hi
    obtain ⟨d1, d2, hpad⟩ : ∃ d1 d2, padStart (numberToString (i + 1)) 2 '0' = [d1, d2] := by
      match hp : padStart (numberToString (i + 1)) 2 '0', hlen with
      | [a, b], _ => exact ⟨a, b, rfl⟩
    have hm : matchFixPattern userId listingCode (newFilename userId listingCode i f) =
        some ([d1, d2], f.extension) := by
      rw [matchFixPattern_eq_some]
      refine ⟨"img.".toList ++ userId ++ '.' :: listingCode ++ ['.'], d1, d2, ?_, rfl, rfl, ?_,
        ?_, hext⟩
      · rw [newFilename_eq, hpad]; simp
      · exact pad2_digits (i + 1) d1 (by rw [hpad]; simp)
      · exact pad2_digits (i + 1) d2 (by rw [hpad]; simp)
    rw [hm]
    rw [hpad] at hparse
    simp only [Option.map_some', hparse, Option.getD_some, Option.some.injEq, FixFile.mk.injEq,
      true_and, and_true]
    push_cast
    rfl
  · intro hi
    cases hm : matchFixPattern userId listingCode (newFilename userId listingCode i f) with
    | none => rfl
    | some m =>
      exfalso
      obtain ⟨s1, d1, d2, hfile, _, hmap, _, _, _⟩ := (matchFixPattern_eq_some _ _ _ _).1 hm
      rw [newFilename_eq] at hfile
      have hlen := congrArg List.length hmap
      simp only [List.length_map] at hlen
      have h1 := List.append_inj_right hfile hlen.symm
      have h3 := numberToString_length_ge_three (i + 1) hi
      rw [padStart_of_le _ _ _ (by omega)] at h1
      obtain ⟨a, b, c, r, hr⟩ : ∃ a b c r, numberToString (i + 1) = a :: b :: c :: r := by
        match numberToString (i + 1), h3 with
        | a :: b :: c :: r, _ => exact ⟨a, b, c, r, rfl⟩
      have hc := numberToString_digits (i + 1) c (by rw [hr]; simp)
      rw [hr] at h1
      simp only [List.cons_append, List.cons.injEq] at h1
      rw [h1.2.2.1] at hc
      exact absurd hc (by decide)

theorem matchingFiles_renamed (userId listingCode : Str) (files : List FixFile) :
    ∀ k : Nat, (∀ f ∈ files, ∀ c ∈ f.extension, isLineTerminator c = false) →
      matchingFiles userId listingCode
          ((files.enumFrom k).map (fun p => newFilename userId listingCode p.1 p.2)) =
        ((files.enumFrom k).take (99 - k)).map (fun p =>
          (⟨newFilename userId listingCode p.1 p.2, (p.1 : Int) + 1, p.2.extension⟩ : FixFile)) := by
  induction files with
  | nil => intro k _; simp [matchingFiles]
  | cons f rest ih =>
    intro k hext
    have hrest := ih (k + 1) (fun g hg => hext g (List.mem_cons_of_mem _ hg))
    simp only [matchingFiles] at hrest
    obtain ⟨h1, h2⟩ := matchFixPattern_newFilename userId listingCode k f
      (hext f (List.mem_cons_self _ _))
    simp only [matchingFiles, List.enumFrom_cons, List.map_cons, List.filterMap_cons]
    by_cases hk : k + 1 ≤ 99
    · rw [h1 hk]
      have e : 99 - k = (99 - (k + 1)) + 1 := by omega
      rw [e, List.take_succ_cons, List.map_cons, hrest]
    · rw [h2 (by omega)]
      have e1 : 99 - k = 0 := by omega
      have e2 : 99 - (k + 1) = 0 := by omega
      rw [e2] at hrest
      simp only [Option.map_none', hrest, e1, List.take_zero, List.map_nil]

theorem renumbered_sorted (userId listingCode : Str) (files : List FixFile) :
    ∀ k m : Nat,
      (((files.enumFrom k).take m).map (fun p =>
          (⟨newFilename userId listingCode p.1 p.2, (p.1 : Int) + 1, p.2.extension⟩ : FixFile))).Sorted
        (fun a b => a.number < b.number) := by
  induction files with
  | nil => intro k m; simp
  | cons f rest ih =>
    intro k m
    cases m with
    | zero => simp
    | succ m =>
      simp only [List.enumFrom_cons, List.take_succ_cons, List.map_cons, List.sorted_cons]
      refine ⟨?_, ih (k + 1) m⟩
      intro b hb
      obtain ⟨p, hp, rfl⟩ := List.mem_map.1 hb
      have := List.le_fst_of_mem_enumFrom (List.mem_of_mem_take hp)
      simp only
      omega

theorem sorted_lt_le (l : List FixFile) (h : l.Sorted (fun a b => a.number < b.number)) :
    l.Sorted (fun a b => a.number ≤ b.number) := by
  induction l with
  | nil => simp
  | cons a rest ih =>
    simp only [List.sorted_cons] at h ⊢
    exact ⟨fun b hb => le_of_lt (h.1 b hb), ih h.2⟩

/-- The array `files` of a second run: under the clean-start conditions, the
group `fixSequenceNumbers` finds after a run is the renamed files in order. -/
theorem selectFiles_after_fix (userId listingCode : Str) (dir : ListingsDir)
    (hu : userId ≠ []) (hl : listingCode ≠ [])
    (hnd : (dir.files.map Prod.fst).Nodup)
    (hnotemp : readFile dir.files "temp".toList = none)
    (htemp : dir.temp = none ∨ dir.temp = some [])
    (hgroup : selectFiles userId listingCode (readdirListings dir) ≠ []) :
    selectFiles userId listingCode
        (readdirListings (fixSequenceNumbers userId listingCode dir)) =
      renumbered userId listingCode (selectFiles userId listingCode (readdirListings dir)) := by
  rw [fixSequenceNumbers_clean_start userId listingCode dir hu hl hnd hnotemp htemp hgroup]
  generalize hG : selectFiles userId listingCode (readdirListings dir) = G
  have hext : ∀ f ∈ G, ∀ c ∈ f.extension, isLineTerminator c = false := by
    intro f hf
    rw [← hG] at hf
    exact selectFiles_extension _ _ _ f hf
  have hkeep : matchingFiles userId listingCode
      (((dir.files.filter (fun e => decide (e.1 ∉ G.map (fun f => f.filename)))).filter
        (fun e => decide (e.1 ∉ (renamedFiles userId listingCode dir.files G 0).map
          Prod.fst))).map Prod.fst) = [] := by
    simp only [matchingFiles, List.filterMap_eq_nil_iff, List.mem_map, List.mem_filter,
      decide_eq_true_eq, Option.map_eq_none']
    rintro n ⟨e, ⟨⟨hmem, hng⟩, _⟩, rfl⟩
    cases hm : matchFixPattern userId listingCode e.1 with
    | none => rfl
    | some m =>
      exfalso
      apply hng
      have : (⟨e.1, (parseInt m.1).getD 0, m.2⟩ : FixFile) ∈ G := by
        rw [← hG, mem_selectFiles, mem_matchingFiles]
        refine ⟨?_, m.1, hm, rfl⟩
        simp only [readdirListings, List.mem_append]
        exact Or.inl (List.mem_map_of_mem Prod.fst hmem)
      exact ⟨_, this, rfl⟩
  have hnames : (renamedFiles userId listingCode dir.files G 0).map Prod.fst =
      (G.enumFrom 0).map (fun p => newFilename userId listingCode p.1 p.2) := by
    simp [renamedFiles, List.map_map, Function.comp_def]
  have hmatch : matchingFiles userId listingCode
      (readdirListings
        ⟨(dir.files.filter (fun e => decide (e.1 ∉ G.map (fun f => f.filename)))).filter
            (fun e => decide (e.1 ∉ (renamedFiles userId listingCode dir.files G 0).map
              Prod.fst)) ++ renamedFiles userId listingCode dir.files G 0, none⟩) =
      renumbered userId listingCode G := by
    simp only [readdirListings, Option.isSome_none, Bool.false_eq_true, if_false,
      List.append_nil, List.map_append]
    have happ : ∀ a b : List Str, matchingFiles userId listingCode (a ++ b) =
        matchingFiles userId listingCode a ++ matchingFiles userId listingCode b := by
      intro a b
      simp [matchingFiles]
    rw [happ, hkeep, hnames, matchingFiles_renamed userId listingCode G 0 hext]
    rfl
  unfold selectFiles
  rw [hmatch]
  exact List.Sorted.insertionSort_eq (sorted_lt_le _ (renumbered_sorted userId listingCode G 0 99))

/-- The regular files after a complete run under the clean-start conditions:
a new name holds the content copied under it, a name of the group that is not
a new name is gone, and every other name is as before. -/
theorem fixSequenceNumbers_readFile (userId listingCode : Str) (dir : ListingsDir)
    (hu : userId ≠ []) (hl : listingCode ≠ [])
    (hnd : (dir.files.map Prod.fst).Nodup)
    (hnotemp : readFile dir.files "temp".toList = none)
    (htemp : dir.temp = none ∨ dir.temp = some [])
    (hgroup : selectFiles userId listingCode (readdirListings dir) ≠ []) (name : Str) :
    readFile (fixSequenceNumbers userId listingCode dir).files name =
      if name ∈ (renamedFiles userId listingCode dir.files
          (selectFiles userId listingCode (readdirListings dir)) 0).map Prod.fst then
        readFile (renamedFiles userId listingCode dir.files
          (selectFiles userId listingCode (readdirListings dir)) 0) name
      else if name ∈ (selectFiles userId listingCode (readdirListings dir)).map
          (fun f => f.filename) then none
      else readFile dir.files name := by
  rw [fixSequenceNumbers_clean_start userId listingCode dir hu hl hnd hnotemp htemp hgroup]
  generalize selectFiles userId listingCode (readdirListings dir) = G
  generalize renamedFiles userId listingCode dir.files G 0 = R
  have h1 := readFile_filter
    (dir.files.filter (fun e => decide (e.1 ∉ G.map (fun f => f.filename))))
    (fun n => decide (n ∉ R.map Prod.fst)) name
  have h2 := readFile_filter dir.files (fun n => decide (n ∉ G.map (fun f => f.filename))) name
  simp only [readFile_append]
  rw [h1, h2]
  by_cases hR : name ∈ R.map Prod.fst
  · simp [hR]
  · have hnone : readFile R name = none := (readFile_eq_none_iff R name).2 hR
    by_cases hG : name ∈ G.map (fun f => f.filename)
    · simp [hR, hG, hnone]
    · simp only [hR, hG, not_false_eq_true, decide_True, if_true, if_false, hnone]
      cases readFile dir.files name <;> rfl

/-- The file at position `i` of the sorted group is, after a complete run
under the clean-start conditions, found under its new name with its content. -/
theorem fixSequenceNumbers_lookup (userId listingCode : Str) (dir : ListingsDir)
    (hu : userId ≠ []) (hl : listingCode ≠ [])
    (hnd : (dir.files.map Prod.fst).Nodup)
    (hnotemp : readFile dir.files "temp".toList = none)
    (htemp : dir.temp = none ∨ dir.temp = some [])
    (i : Nat) (f : FixFile)
    (hf : (selectFiles userId listingCode (readdirListings dir))[i]? = some f) :
    ∃ content, readFile dir.files f.filename = some content ∧
      readFile (fixSequenceNumbers userId listingCode dir).files
        (newFilename userId listingCode i f) = some content := by
  have hgroup : selectFiles userId listingCode (readdirListings dir) ≠ [] := by
    intro h; rw [h] at hf; simp at hf
  have hmem : f ∈ selectFiles userId listingCode (readdirListings dir) :=
    List.getElem?_mem hf
  have hsrc := (selectFiles_sources userId listingCode dir).1 f hmem
  obtain ⟨content, hc⟩ := Option.isSome_iff_exists.1
    ((readFile_isSome_iff dir.files f.filename).2 hsrc)
  refine ⟨content, hc, ?_⟩
  rw [fixSequenceNumbers_readFile userId listingCode dir hu hl hnd hnotemp htemp hgroup]
  have hin := renamedFiles_mem userId listingCode dir.files _ i f hf
  have hname : newFilename userId listingCode i f ∈
      (renamedFiles userId listingCode dir.files
        (selectFiles userId listingCode (readdirListings dir)) 0).map Prod.fst :=
    List.mem_map.2 ⟨_, hin, rfl⟩
  rw [if_pos hname]
  rw [readFile_of_mem_nodup _ (renamedFiles_names userId listingCode dir.files _ 0).1 _ _ hin, hc]
  rfl

theorem selectFiles_sorted (userId listingCode : Str) (names : List Str) :
    (selectFiles userId listingCode names).Sorted (fun a b => a.number ≤ b.number) := by
  haveI := fixFile_le_total
  haveI := fixFile_le_trans
  exact List.sorted_insertionSort _ _

theorem selectFiles_perm (userId listingCode : Str) (names : List Str) :
    (selectFiles userId listingCode names).Perm (matchingFiles userId listingCode names) :=
  List.perm_insertionSort _ _

theorem sorted_lt_of_nodup (l : List FixFile)
    (h : l.Sorted (fun a b => a.number ≤ b.number))
    (hnd : (l.map (fun f => f.number)).Nodup) :
    l.Sorted (fun a b => a.number < b.number) := by
  induction l with
  | nil => simp
  | cons a rest ih =>
    simp only [List.sorted_cons] at h ⊢
    simp only [List.map_cons, List.nodup_cons, List.mem_map, not_exists, not_and] at hnd
    refine ⟨fun b hb => lt_of_le_of_ne (h.1 b hb) (fun e => hnd.1 b hb e.symm), ih h.2 hnd.2⟩

theorem renumbered_length (userId listingCode : Str) (files : List FixFile) :
    (renumbered userId listingCode files).length = min files.length 99 := by
  simp [renumbered, Nat.min_comm]

/-- C15, counterexample: a group of one file (number 05) repaired while the
scratch directory `temp` holds a leftover file of the same group: the run copies
every entry of `temp` back, so the group has two files afterwards, not one, and
one of them is numbered 09. -/
theorem repair_stale_scratch_adds_file :
    (selectFiles "0000042".toList "abc".toList (readdirListings
        ⟨[("img.0000042.abc.05.jpg".toList, [5])],
         some [("img.0000042.abc.09.jpg".toList, [9])]⟩)).map (fun f => f.number) = [5] ∧
    (selectFiles "0000042".toList "abc".toList (readdirListings
        (fixSequenceNumbers "0000042".toList "abc".toList
          ⟨[("img.0000042.abc.05.jpg".toList, [5])],
           some [("img.0000042.abc.09.jpg".toList, [9])]⟩))).map (fun f => f.number) = [1, 9] ∧
    readFile (fixSequenceNumbers "0000042".toList "abc".toList
        ⟨[("img.0000042.abc.05.jpg".toList, [5])],
         some [("img.0000042.abc.09.jpg".toList, [9])]⟩).files
      "img.0000042.abc.09.jpg".toList = some [9] := by
  decide

/-- C15, amended: for every user id of 7 characters of `0-9a-f` and every
alphanumeric listing code, when `fixSequenceNumbers` starts on a directory with
distinct file names, no regular file named `temp`, and no scratch directory
`temp` or an empty one, and the group has `N >= 1` files with pairwise distinct
numbers: the array `files` is the group in strictly ascending number order;
after the run the scratch directory is gone; the file at position `i` of that
order (0-based) is found under `img.<userId>.<listingCode>.<i+1 padded to two
digits>.<its extension>` with its content; and the group found afterwards is
exactly these renamed files, those with a new number up to 99 (`min N 99`
files, a name with number 100 no longer matching the two-digit pattern). -/
theorem repair_renumbers_group (userId listingCode : Str) (dir : ListingsDir)
    (hu7 : userId.length = 7) (_huhex : ∀ c ∈ userId, isHexDigitI c)
    (hlne : listingCode ≠ []) (_hlal : ∀ c ∈ listingCode, c.isAlphanum = true)
    (hnd : (dir.files.map Prod.fst).Nodup)
    (hnotemp : readFile dir.files "temp".toList = none)
    (htemp : dir.temp = none ∨ dir.temp = some [])
    (hN : selectFiles userId listingCode (readdirListings dir) ≠ [])
    (hdistinct : ((selectFiles userId listingCode (readdirListings dir)).map
      (fun f => f.number)).Nodup) :
    (selectFiles userId listingCode (readdirListings dir)).Sorted
        (fun a b => a.number < b.number) ∧
    (selectFiles userId listingCode (readdirListings dir)).Perm
        (matchingFiles userId listingCode (readdirListings dir)) ∧
    (fixSequenceNumbers userId listingCode dir).temp = none ∧
    (∀ (i : Nat) (f : FixFile),
      (selectFiles userId listingCode (readdirListings dir))[i]? = some f →
      ∃ content, readFile dir.files f.filename = some content ∧
        readFile (fixSequenceNumbers userId listingCode dir).files
          (newFilename userId listingCode i f) = some content) ∧
    selectFiles userId listingCode
        (readdirListings (fixSequenceNumbers userId listingCode dir)) =
      renumbered userId listingCode (selectFiles userId listingCode (readdirListings dir)) ∧
    (selectFiles userId listingCode
        (readdirListings (fixSequenceNumbers userId listingCode dir))).length =
      min (selectFiles userId listingCode (readdirListings dir)).length 99 := by
  have hu : userId ≠ [] := by
    intro h; rw [h] at hu7; simp at hu7
  have hafter := selectFiles_after_fix userId listingCode dir hu hlne hnd hnotemp htemp hN
  refine ⟨sorted_lt_of_nodup _ (selectFiles_sorted _ _ _) hdistinct, selectFiles_perm _ _ _, ?_,
    ?_, hafter, ?_⟩
  · rw [fixSequenceNumbers_clean_start userId listingCode dir hu hlne hnd hnotemp htemp hN]
  · intro i f hf
    exact fixSequenceNumbers_lookup userId listingCode dir hu hlne hnd hnotemp htemp i f hf
  · rw [hafter, renumbered_length]

/-- C15, amended, on the files numbered 05, 02, 09: the file numbered 02 is
first in the order and is found under the name with number 01, content kept. -/
theorem repair_renumbers_group_witness :
    ∃ content,
      readFile [("img.0000042.abc.05.jpg".toList, [5]), ("img.0000042.abc.02.png".toList, [2]),
          ("img.0000042.abc.09.jpg".toList, [9])]
        "img.0000042.abc.02.png".toList = some content ∧
      readFile (fixSequenceNumbers "0000042".toList "abc".toList
          ⟨[("img.0000042.abc.05.jpg".toList, [5]), ("img.0000042.abc.02.png".toList, [2]),
            ("img.0000042.abc.09.jpg".toList, [9])], none⟩).files
        (newFilename "0000042".toList "abc".toList 0
          ⟨"img.0000042.abc.02.png".toList, 2, "png".toList⟩) = some content :=
  (repair_renumbers_group "0000042".toList "abc".toList
    ⟨[("img.0000042.abc.05.jpg".toList, [5]), ("img.0000042.abc.02.png".toList, [2]),
      ("img.0000042.abc.09.jpg".toList, [9])], none⟩
    (by decide) (by decide) (by decide) (by decide) (by decide) (by decide) (by decide)
    (by decide) (by decide)).2.2.2.1 0
    ⟨"img.0000042.abc.02.png".toList, 2, "png".toList⟩ (by decide)

/-! ## Running `fixSequenceNumbers` again -/

theorem fixSequenceNumbers_empty_group (userId listingCode : Str) (dir : ListingsDir)
    (h : selectFiles userId listingCode (readdirListings dir) = []) :
    fixSequenceNumbers userId listingCode dir = dir := by
  unfold fixSequenceNumbers fixSequenceTrace
  by_cases h0 : userId = [] ∨ listingCode = []
  · rw [if_pos h0]; rfl
  · rw [if_neg h0]
    simp only [h, List.length_nil, if_true]
    rfl

theorem renamedFiles_mem_iff (userId listingCode : Str) (table : FileTable)
    (files : List FixFile) (p : Str × Bytes) :
    p ∈ renamedFiles userId listingCode table files 0 ↔
      ∃ (i : Nat) (f : FixFile), files[i]? = some f ∧
        p = (newFilename userId listingCode i f, (readFile table f.filename).getD []) := by
  simp only [renamedFiles, List.mem_map]
  constructor
  · rintro ⟨⟨i, f⟩, hm, rfl⟩
    exact ⟨i, f, List.mk_mem_enum_iff_getElem?.1 hm, rfl⟩
  · rintro ⟨i, f, hf, rfl⟩
    exact ⟨(i, f), List.mk_mem_enum_iff_getElem?.2 hf, rfl⟩

/-- A group whose files already bear the names a run gives them is left as it
is: under the clean-start conditions every name holds the same content after
the run as before. -/
theorem fixSequenceNumbers_canonical (userId listingCode : Str) (dir : ListingsDir)
    (hu : userId ≠ []) (hl : listingCode ≠ [])
    (hnd : (dir.files.map Prod.fst).Nodup)
    (hnotemp : readFile dir.files "temp".toList = none)
    (htemp : dir.temp = none ∨ dir.temp = some [])
    (hcanon : ∀ (i : Nat) (f : FixFile),
      (selectFiles userId listingCode (readdirListings dir))[i]? = some f →
      f.filename = newFilename userId listingCode i f) (name : Str) :
    readFile (fixSequenceNumbers userId listingCode dir).files name =
      readFile dir.files name := by
  by_cases hgroup : selectFiles userId listingCode (readdirListings dir) = []
  · rw [fixSequenceNumbers_empty_group userId listingCode dir hgroup]
  rw [fixSequenceNumbers_readFile userId listingCode dir hu hl hnd hnotemp htemp hgroup]
  by_cases hR : name ∈ (renamedFiles userId listingCode dir.files
      (selectFiles userId listingCode (readdirListings dir)) 0).map Prod.fst
  · rw [if_pos hR]
    obtain ⟨p, hp, rfl⟩ := List.mem_map.1 hR
    have hp2 := hp
    rw [renamedFiles_mem_iff] at hp2
    obtain ⟨i, f, hf, rfl⟩ := hp2
    rw [readFile_of_mem_nodup _ (renamedFiles_names userId listingCode dir.files _ 0).1 _ _ hp]
    have hsrc := (selectFiles_sources userId listingCode dir).1 f (List.getElem?_mem hf)
    obtain ⟨content, hc⟩ := Option.isSome_iff_exists.1
      ((readFile_isSome_iff dir.files f.filename).2 hsrc)
    simp only
    rw [← hcanon i f hf, hc]
    rfl
  · rw [if_neg hR]
    by_cases hG : name ∈ (selectFiles userId listingCode (readdirListings dir)).map
        (fun f => f.filename)
    · exfalso
      apply hR
      obtain ⟨f, hf, rfl⟩ := List.mem_map.1 hG
      obtain ⟨i, hi⟩ := List.mem_iff_getElem?.1 hf
      rw [hcanon i f hi]
      exact List.mem_map.2 ⟨_, renamedFiles_mem userId listingCode dir.files _ i f hi, rfl⟩
    · rw [if_neg hG]

/-- The clean-start conditions hold again after a complete run, and the group
found then bears the names a run gives. -/
theorem fixSequenceNumbers_clean_after (userId listingCode : Str) (dir : ListingsDir)
    (hu : userId ≠ []) (hl : listingCode ≠ [])
    (hnd : (dir.files.map Prod.fst).Nodup)
    (hnotemp : readFile dir.files "temp".toList = none)
    (htemp : dir.temp = none ∨ dir.temp = some [])
    (hgroup : selectFiles userId listingCode (readdirListings dir) ≠ []) :
    ((fixSequenceNumbers userId listingCode dir).files.map Prod.fst).Nodup ∧
    readFile (fixSequenceNumbers userId listingCode dir).files "temp".toList = none ∧
    (fixSequenceNumbers userId listingCode dir).temp = none ∧
    (∀ (i : Nat) (f : FixFile),
      (selectFiles userId listingCode
        (readdirListings (fixSequenceNumbers userId listingCode dir)))[i]? = some f →
      f.filename = newFilename userId listingCode i f) := by
  refine ⟨?_, ?_, ?_, ?_⟩
  · rw [fixSequenceNumbers_clean_start userId listingCode dir hu hl hnd hnotemp htemp hgroup]
    simp only [List.map_append]
    rw [List.nodup_append]
    refine ⟨?_, (renamedFiles_names userId listingCode dir.files _ 0).1, ?_⟩
    · exact List.Nodup.sublist
        (((List.filter_sublist _).trans (List.filter_sublist _)).map Prod.fst) hnd
    · intro x hx hx2
      obtain ⟨e, he, rfl⟩ := List.mem_map.1 hx
      have := (List.mem_filter.1 he).2
      simp only [decide_eq_true_eq] at this
      exact this hx2
  · rw [fixSequenceNumbers_readFile userId listingCode dir hu hl hnd hnotemp htemp hgroup]
    have hR : "temp".toList ∉ (renamedFiles userId listingCode dir.files
        (selectFiles userId listingCode (readdirListings dir)) 0).map Prod.fst := by
      intro hin
      obtain ⟨j, g, _, hj⟩ := (renamedFiles_names userId listingCode dir.files _ 0).2 _ hin
      exact newFilename_ne_temp userId listingCode j g hj.symm
    rw [if_neg hR]
    split
    · rfl
    · exact hnotemp
  · rw [fixSequenceNumbers_clean_start userId listingCode dir hu hl hnd hnotemp htemp hgroup]
  · intro i f hf
    rw [selectFiles_after_fix userId listingCode dir hu hl hnd hnotemp htemp hgroup] at hf
    simp only [renumbered, List.getElem?_map, List.getElem?_take, List.getElem?_enumFrom,
      Option.map_eq_some'] at hf
    obtain ⟨p, hp, rfl⟩ := hf
    split at hp
    · obtain ⟨g, _, rfl⟩ := Option.map_eq_some'.1 hp
      simp only [Nat.zero_add]
      rfl
    · cases hp

/-- C16, counterexample: (1) the group of `IMG.0000042.ABC.01.jpg`, already the
contiguous run 01..1, repaired with the arguments `0000042` and `abc` (the
pattern is case-insensitive): one call moves the file to another name;
(2) a run started with a leftover file in the scratch directory `temp`: the
name numbered 09 exists after one call and no longer after a second call. -/
theorem repair_changes_contiguous_group :
    ((selectFiles "0000042".toList "abc".toList (readdirListings
        ⟨[("IMG.0000042.ABC.01.jpg".toList, [1])], none⟩)).map (fun f => f.number) = [1] ∧
     readFile (fixSequenceNumbers "0000042".toList "abc".toList
        ⟨[("IMG.0000042.ABC.01.jpg".toList, [1])], none⟩).files
       "IMG.0000042.ABC.01.jpg".toList = none ∧
     readFile (fixSequenceNumbers "0000042".toList "abc".toList
        ⟨[("IMG.0000042.ABC.01.jpg".toList, [1])], none⟩).files
       "img.0000042.abc.01.jpg".toList = some [1]) ∧
    (readFile (fixSequenceNumbers "0000042".toList "abc".toList
        ⟨[("img.0000042.abc.05.jpg".toList, [5])],
         some [("img.0000042.abc.09.jpg".toList, [9])]⟩).files
       "img.0000042.abc.09.jpg".toList = some [9] ∧
     readFile (fixSequenceNumbers "0000042".toList "abc".toList
        (fixSequenceNumbers "0000042".toList "abc".toList
          ⟨[("img.0000042.abc.05.jpg".toList, [5])],
           some [("img.0000042.abc.09.jpg".toList, [9])]⟩)).files
       "img.0000042.abc.09.jpg".toList = none) := by
  decide

/-- C16, amended: for every user id of 7 characters of `0-9a-f` and every
alphanumeric listing code, when `fixSequenceNumbers` starts on a directory with
distinct file names, no regular file named `temp`, and no scratch directory
`temp` or an empty one: after two successive calls every name holds the same
content (or is absent) as after one call, and the scratch directory is in the
same state; and if every file of the group already bears the name a run gives
it (`img.<userId>.<listingCode>.<position padded to two digits>.<extension>`,
in the letter case of the arguments), one call leaves every name with the same
content as before. -/
theorem repair_idempotent (userId listingCode : Str) (dir : ListingsDir)
    (hu7 : userId.length = 7) (_huhex : ∀ c ∈ userId, isHexDigitI c)
    (hlne : listingCode ≠ []) (_hlal : ∀ c ∈ listingCode, c.isAlphanum = true)
    (hnd : (dir.files.map Prod.fst).Nodup)
    (hnotemp : readFile dir.files "temp".toList = none)
    (htemp : dir.temp = none ∨ dir.temp = some []) :
    (∀ name : Str,
      readFile (fixSequenceNumbers userId listingCode
          (fixSequenceNumbers userId listingCode dir)).files name =
        readFile (fixSequenceNumbers userId listingCode dir).files name) ∧
    (fixSequenceNumbers userId listingCode (fixSequenceNumbers userId listingCode dir)).temp =
      (fixSequenceNumbers userId listingCode dir).temp ∧
    ((∀ (i : Nat) (f : FixFile),
        (selectFiles userId listingCode (readdirListings dir))[i]? = some f →
        f.filename = newFilename userId listingCode i f) →
      ∀ name : Str,
        readFile (fixSequenceNumbers userId listingCode dir).files name =
          readFile dir.files name) := by
  have hu : userId ≠ [] := by
    intro h; rw [h] at hu7; simp at hu7
  refine ⟨?_, ?_, fun hcanon name =>
    fixSequenceNumbers_canonical userId listingCode dir hu hlne hnd hnotemp htemp hcanon name⟩
  · intro name
    by_cases hgroup : selectFiles userId listingCode (readdirListings dir) = []
    · rw [fixSequenceNumbers_empty_group userId listingCode dir hgroup,
        fixSequenceNumbers_empty_group userId listingCode dir hgroup]
    · obtain ⟨h1, h2, h3, h4⟩ :=
        fixSequenceNumbers_clean_after userId listingCode dir hu hlne hnd hnotemp htemp hgroup
      exact fixSequenceNumbers_canonical userId listingCode _ hu hlne h1 h2 (Or.inl h3) h4 name
  · by_cases hgroup : selectFiles userId listingCode (readdirListings dir) = []
    · rw [fixSequenceNumbers_empty_group userId listingCode dir hgroup,
        fixSequenceNumbers_empty_group userId listingCode dir hgroup]
    · obtain ⟨h1, h2, h3, h4⟩ :=
        fixSequenceNumbers_clean_after userId listingCode dir hu hlne hnd hnotemp htemp hgroup
      rw [h3]
      by_cases hgroup2 : selectFiles userId listingCode
          (readdirListings (fixSequenceNumbers userId listingCode dir)) = []
      · rw [fixSequenceNumbers_empty_group userId listingCode _ hgroup2, h3]
      · exact (fixSequenceNumbers_clean_after userId listingCode _ hu hlne h1 h2 (Or.inl h3)
          hgroup2).2.2.1

/-- C16, amended, on the files numbered 05, 02, 09 (the name numbered 03 holds
the same content after two calls as after one) and on the contiguous group
01, 02 (one call leaves the name numbered 02 with its content). -/
theorem repair_idempotent_witness :
    readFile (fixSequenceNumbers "0000042".toList "abc".toList
        (fixSequenceNumbers "0000042".toList "abc".toList
          ⟨[("img.0000042.abc.05.jpg".toList, [5]), ("img.0000042.abc.02.png".toList, [2]),
            ("img.0000042.abc.09.jpg".toList, [9])], none⟩)).files
        "img.0000042.abc.03.jpg".toList =
      readFile (fixSequenceNumbers "0000042".toList "abc".toList
        ⟨[("img.0000042.abc.05.jpg".toList, [5]), ("img.0000042.abc.02.png".toList, [2]),
          ("img.0000042.abc.09.jpg".toList, [9])], none⟩).files
        "img.0000042.abc.03.jpg".toList ∧
    readFile (fixSequenceNumbers "0000042".toList "abc".toList
        ⟨[("img.0000042.abc.01.jpg".toList, [1]), ("img.0000042.abc.02.png".toList, [2])],
          none⟩).files "img.0000042.abc.02.png".toList =
      readFile [("img.0000042.abc.01.jpg".toList, [1]), ("img.0000042.abc.02.png".toList, [2])]
        "img.0000042.abc.02.png".toList :=
  ⟨(repair_idempotent "0000042".toList "abc".toList
      ⟨[("img.0000042.abc.05.jpg".toList, [5]), ("img.0000042.abc.02.png".toList, [2]),
        ("img.0000042.abc.09.jpg".toList, [9])], none⟩
      (by decide) (by decide) (by decide) (by decide) (by decide) (by decide)
      (by decide)).1 "img.0000042.abc.03.jpg".toList,
   (repair_idempotent "0000042".toList "abc".toList
      ⟨[("img.0000042.abc.01.jpg".toList, [1]), ("img.0000042.abc.02.png".toList, [2])], none⟩
      (by decide) (by decide) (by decide) (by decide) (by decide) (by decide)
      (by decide)).2.2
      (by
        intro i f h
        have hG : selectFiles "0000042".toList "abc".toList (readdirListings
            ⟨[("img.0000042.abc.01.jpg".toList, [1]), ("img.0000042.abc.02.png".toList, [2])],
              none⟩) =
            [⟨"img.0000042.abc.01.jpg".toList, 1, "jpg".toList⟩,
             ⟨"img.0000042.abc.02.png".toList, 2, "png".toList⟩] := by decide
        rw [hG] at h
        match i, h with
        | 0, h =>
          have e : f = ⟨"img.0000042.abc.01.jpg".toList, 1, "jpg".toList⟩ := by
            simpa using h.symm
          rw [e]; decide
        | 1, h =>
          have e : f = ⟨"img.0000042.abc.02.png".toList, 2, "png".toList⟩ := by
            simpa using h.symm
          rw [e]; decide
        | n + 2, h => simp at h)
      "img.0000042.abc.02.png".toList⟩

/-! ## The states during a run of `fixSequenceNumbers` -/

theorem getLastD_eq_or_mem {α : Type} (l : List α) :
    ∀ d : α, l.getLastD d = d ∨ l.getLastD d ∈ l := by
  induction l with
  | nil => intro d; exact Or.inl rfl
  | cons x rest ih =>
    intro d
    rw [List.getLastD_cons]
    rcases ih x with h | h
    · exact Or.inr (by rw [h]; exact List.mem_cons_self _ _)
    · exact Or.inr (List.mem_cons_of_mem _ h)

/-- The scratch directory after all the copies into it holds, under the new
name of each file of the group, the content of that file. -/
theorem renamed_in_scratch (userId listingCode : Str) (table temp : FileTable)
    (files : List FixFile) (i : Nat) (f : FixFile) (content : Bytes)
    (hf : files[i]? = some f) (hc : readFile table f.filename = some content) :
    readFile ((renamedFiles userId listingCode table files 0).foldl
        (fun (t : FileTable) p => t.write p.1 p.2) temp)
      (newFilename userId listingCode i f) = some content := by
  have hnd := (renamedFiles_names userId listingCode table files 0).1
  have hin := renamedFiles_mem userId listingCode table files i f hf
  rw [foldl_write_eq _ _ hnd, readFile_append]
  have h1 := readFile_filter temp
    (fun n => decide (n ∉ (renamedFiles userId listingCode table files 0).map Prod.fst))
    (newFilename userId listingCode i f)
  rw [h1]
  have hname : newFilename userId listingCode i f ∈
      (renamedFiles userId listingCode table files 0).map Prod.fst :=
    List.mem_map.2 ⟨_, hin, rfl⟩
  simp only [hname, not_true_eq_false, decide_False, Bool.false_eq_true, if_false]
  rw [readFile_of_mem_nodup _ hnd _ _ hin, hc]
  rfl

/-- The copies back leave alone every name that is not copied. -/
theorem copyBacks_other (temp : FileTable) (name : Str) (names : List Str) :
    ∀ table : FileTable, name ∉ names →
      ∀ s ∈ runOps (names.map FsOp.copyFromTemp) ⟨table, some temp⟩,
        readFile s.files name = readFile table name := by
  induction names with
  | nil => intro table _ s hs; simp [runOps] at hs
  | cons m rest ih =>
    intro table hn s hs
    simp only [List.mem_cons, not_or] at hn
    simp only [List.map_cons, runOps, FsOp.run] at hs
    cases hm : readFile temp m with
    | none => simp [hm] at hs
    | some c =>
      by_cases ht : m = "temp".toList
      · rw [hm] at hs
        simp only [if_pos ht] at hs
        cases hs
      · simp only [hm, ht, if_false, List.mem_cons] at hs
        have hw : readFile (table.write m c) name = readFile table name := by
          rw [readFile_write, if_neg hn.1]
        rcases hs with rfl | hs
        · exact hw
        · rw [ih (table.write m c) hn.2 s hs, hw]

/-- Once every file of the scratch directory is copied back, each copied name
holds in the listings directory the content it has in the scratch directory. -/
theorem copyBacks_complete (temp : FileTable) (names : List Str) :
    ∀ table : FileTable,
      (runOps (names.map FsOp.copyFromTemp) ⟨table, some temp⟩).length = names.length →
      ∀ n ∈ names,
        readFile ((runOps (names.map FsOp.copyFromTemp) ⟨table, some temp⟩).getLastD
          ⟨table, some temp⟩).files n = readFile temp n := by
  induction names with
  | nil => intro table _ n hn; cases hn
  | cons m rest ih =>
    intro table hlen n hn
    simp only [List.map_cons, runOps, FsOp.run] at hlen ⊢
    cases hm : readFile temp m with
    | none => simp [hm] at hlen
    | some c =>
      by_cases ht : m = "temp".toList
      · rw [hm] at hlen
        simp only [if_pos ht] at hlen
        cases hlen
      · simp only [hm, ht, if_false, List.length_cons, Nat.add_right_cancel_iff] at hlen
        simp only [hm, ht, if_false, List.getLastD_cons]
        by_cases hrest : n ∈ rest
        · exact ih (table.write m c) hlen n hrest
        · have hnm : n = m := by
            rcases List.mem_cons.1 hn with h | h
            · exact h
            · exact absurd h hrest
          subst hnm
          have hw : readFile (table.write n c) n = some c := by
            rw [readFile_write, if_pos rfl]
          rcases getLastD_eq_or_mem
            (runOps (rest.map FsOp.copyFromTemp) ⟨table.write n c, some temp⟩)
            ⟨table.write n c, some temp⟩ with h | h
          · rw [h, hm]; exact hw
          · rw [copyBacks_other temp n rest (table.write n c) hrest _ h, hw, hm]

/-- The copies into the scratch directory followed by the deletions of the
originals, started with a scratch directory and every source present: a state
has the files of the start, or has the scratch directory with every copy in it;
the last state has that scratch directory. -/
theorem copies_unlinks_states (userId listingCode : Str) (table temp : FileTable)
    (files : List FixFile)
    (hsrc : ∀ f ∈ files, (readFile table f.filename).isSome = true) :
    (∀ s ∈ runOps ((files.enumFrom 0).map (fun p =>
          FsOp.copyToTemp p.2.filename (newFilename userId listingCode p.1 p.2)) ++
        files.map (fun file => FsOp.unlink file.filename)) ⟨table, some temp⟩,
      s.files = table ∨
      s.temp = some ((renamedFiles userId listingCode table files 0).foldl
        (fun (t : FileTable) p => t.write p.1 p.2) temp)) ∧
    ((runOps ((files.enumFrom 0).map (fun p =>
          FsOp.copyToTemp p.2.filename (newFilename userId listingCode p.1 p.2)) ++
        files.map (fun file => FsOp.unlink file.filename)) ⟨table, some temp⟩).getLastD
        ⟨table, some temp⟩).temp =
      some ((renamedFiles userId listingCode table files 0).foldl
        (fun (t : FileTable) p => t.write p.1 p.2) temp) := by
  obtain ⟨hlen, hlast⟩ := runOps_copies userId listingCode table files 0 temp hsrc
  have hlen2 : (runOps ((files.enumFrom 0).map (fun p =>
      FsOp.copyToTemp p.2.filename (newFilename userId listingCode p.1 p.2)))
      ⟨table, some temp⟩).length = ((files.enumFrom 0).map (fun p =>
      FsOp.copyToTemp p.2.filename (newFilename userId listingCode p.1 p.2))).length := by
    rw [hlen]; simp
  have hpf : ∀ s ∈ runOps ((files.enumFrom 0).map (fun p =>
      FsOp.copyToTemp p.2.filename (newFilename userId listingCode p.1 p.2)))
      ⟨table, some temp⟩, s.files = table := by
    intro s hs
    refine runOps_preserve_files _ ?_ _ s hs
    intro op hop d d2 hrun
    obtain ⟨p, _, rfl⟩ := List.mem_map.1 hop
    exact copyToTemp_files _ _ d d2 hrun
  have hpt : ∀ s ∈ runOps (files.map (fun file => FsOp.unlink file.filename))
      ⟨table, some ((renamedFiles userId listingCode table files 0).foldl
        (fun (t : FileTable) p => t.write p.1 p.2) temp)⟩,
      s.temp = some ((renamedFiles userId listingCode table files 0).foldl
        (fun (t : FileTable) p => t.write p.1 p.2) temp) := by
    intro s hs
    refine runOps_preserve_temp _ ?_ _ s hs
    intro op hop d d2 hrun
    obtain ⟨p, _, rfl⟩ := List.mem_map.1 hop
    exact unlink_temp _ d d2 hrun
  rw [runOps_append, if_pos hlen2, hlast]
  constructor
  · intro s hs
    rcases List.mem_append.1 hs with h | h
    · exact Or.inl (hpf s h)
    · exact Or.inr (hpt s h)
  · rw [getLastD_append_eq, hlast]
    rcases getLastD_eq_or_mem (runOps (files.map (fun file => FsOp.unlink file.filename))
      ⟨table, some ((renamedFiles userId listingCode table files 0).foldl
        (fun (t : FileTable) p => t.write p.1 p.2) temp)⟩)
      ⟨table, some ((renamedFiles userId listingCode table files 0).foldl
        (fun (t : FileTable) p => t.write p.1 p.2) temp)⟩ with h | h
    · rw [h]
    · exact hpt _ h

/-- The calls from `fs.readdirSync(tempDir)` on: a state still has the scratch
directory as it was, or holds in the listings directory, under each name of
the scratch directory, the content that name had there. -/
theorem phase2_states (table temp : FileTable) :
    ∀ s ∈ runOps (phase2Ops (temp.map Prod.fst)) ⟨table, some temp⟩,
      s.temp = some temp ∨
      ∀ n ∈ temp.map Prod.fst, readFile s.files n = readFile temp n := by
  intro s hs
  unfold phase2Ops at hs
  rw [List.append_assoc, runOps_append] at hs
  rcases List.mem_append.1 hs with h | h
  · left
    refine runOps_preserve_temp _ ?_ _ s h
    intro op hop d d2 hrun
    obtain ⟨p, _, rfl⟩ := List.mem_map.1 hop
    exact copyFromTemp_temp _ d d2 hrun
  · right
    split at h
    · rename_i hlen
      simp only [List.length_map] at hlen
      have hcb := copyBacks_complete temp (temp.map Prod.fst) table
        (by rw [hlen]; simp)
      have hfiles : s.files = ((runOps ((temp.map Prod.fst).map FsOp.copyFromTemp)
          ⟨table, some temp⟩).getLastD ⟨table, some temp⟩).files := by
        refine runOps_preserve_files _ ?_ _ s h
        intro op hop d d2 hrun
        rcases List.mem_append.1 hop with hop | hop
        · obtain ⟨p, _, rfl⟩ := List.mem_map.1 hop
          exact unlinkTemp_files _ d d2 hrun
        · rw [List.mem_singleton.1 hop] at hrun
          exact rmdirTemp_files d d2 hrun
      intro n hn
      rw [hfiles]
      exact hcb n hn
    · cases h

/-- The first calls of `fixSequenceNumbers`: either the first copy throws (no
scratch directory can be used), or, after the states `pre` that leave the files
alone, the copies and deletions run from a state with a scratch directory. -/
theorem phase1_shape (userId listingCode : Str) (dir : ListingsDir) (files : List FixFile)
    (hfiles : files ≠ []) :
    runOps (phase1Ops userId listingCode dir files) dir = [] ∨
    ∃ (temp : FileTable) (pre : List ListingsDir),
      (∀ s ∈ pre, s.files = dir.files) ∧
      pre.getLastD dir = ⟨dir.files, some temp⟩ ∧
      runOps (phase1Ops userId listingCode dir files) dir =
        pre ++ runOps ((files.enumFrom 0).map (fun p =>
            FsOp.copyToTemp p.2.filename (newFilename userId listingCode p.1 p.2)) ++
          files.map (fun file => FsOp.unlink file.filename)) ⟨dir.files, some temp⟩ := by
  obtain ⟨table, temp0⟩ := dir
  cases temp0 with
  | some temp =>
    right
    refine ⟨temp, [], (fun s hs => by cases hs), rfl, ?_⟩
    have he : existsTemp ⟨table, some temp⟩ = true := rfl
    simp only [phase1Ops, he, if_true, List.nil_append, List.enum]
  | none =>
    cases hr : readFile table "temp".toList with
    | some c =>
      left
      have he : existsTemp ⟨table, none⟩ = true := by
        simp only [existsTemp, hr]; rfl
      match files, hfiles with
      | f :: rest, _ =>
        have hrun : (FsOp.copyToTemp f.filename (newFilename userId listingCode 0 f)).run
            ⟨table, none⟩ = none := by
          simp only [FsOp.run]
          cases readFile table f.filename <;> rfl
        simp only [phase1Ops, he, if_true, List.nil_append, List.enum, List.enumFrom_cons,
          List.map_cons, List.cons_append, runOps, hrun]
    | none =>
      right
      have he : existsTemp ⟨table, none⟩ = false := by
        simp only [existsTemp, hr]; rfl
      refine ⟨[], [⟨table, some []⟩], ?_, rfl, ?_⟩
      · intro s hs
        rw [List.mem_singleton.1 hs]
      · have hrun : FsOp.mkdirTemp.run ⟨table, none⟩ = some ⟨table, some []⟩ := by
          simp only [FsOp.run, he]; rfl
        simp only [phase1Ops, he, Bool.false_eq_true, if_false, List.enum, List.append_assoc,
          List.singleton_append]
        rw [List.cons_append, runOps_cons_some _ _ _ _ hrun]

/-- The states of the first calls: each has the files of the start, or has the
scratch directory with every copy in it; the last one has that scratch
directory. -/
theorem phase1_states (userId listingCode : Str) (dir : ListingsDir) (files : List FixFile)
    (hfiles : files ≠ [])
    (hsrc : ∀ f ∈ files, (readFile dir.files f.filename).isSome = true) :
    ∃ temp : FileTable,
      (∀ s ∈ runOps (phase1Ops userId listingCode dir files) dir,
        s.files = dir.files ∨
        s.temp = some ((renamedFiles userId listingCode dir.files files 0).foldl
          (fun (t : FileTable) p => t.write p.1 p.2) temp)) ∧
      (runOps (phase1Ops userId listingCode dir files) dir ≠ [] →
        ((runOps (phase1Ops userId listingCode dir files) dir).getLastD dir).temp =
          some ((renamedFiles userId listingCode dir.files files 0).foldl
            (fun (t : FileTable) p => t.write p.1 p.2) temp)) := by
  rcases phase1_shape userId listingCode dir files hfiles with h | ⟨temp, pre, hpre, hlast, h⟩
  · refine ⟨[], ?_, fun hne => absurd h hne⟩
    intro s hs
    rw [h] at hs
    cases hs
  · obtain ⟨h1, h2⟩ := copies_unlinks_states userId listingCode dir.files temp files hsrc
    refine ⟨temp, ?_, fun _ => ?_⟩
    · intro s hs
      rw [h] at hs
      rcases List.mem_append.1 hs with hs | hs
      · exact Or.inl (hpre s hs)
      · exact h1 s hs
    · rw [h, getLastD_append_eq, hlast]
      exact h2

theorem phase1Ops_length (userId listingCode : Str) (dir : ListingsDir) (files : List FixFile) :
    files.length ≤ (phase1Ops userId listingCode dir files).length := by
  simp only [phase1Ops, List.length_append, List.length_map, List.enum_length]
  omega

theorem getLastD_of_getElem? {α : Type} (l : List α) (d s : α)
    (h : l[l.length - 1]? = some s) : l.getLastD d = s := by
  rw [List.getLastD_eq_getLast?, List.getLast?_eq_getElem?, h]
  rfl

/-- The states of a run of `fixSequenceNumbers`: for some content `temp` of the
scratch directory at the first copy, every state has the files of the start,
or has the scratch directory with every copy in it, or holds every file of the
group under its new name in the listings directory; and the state after the
last call of the first phase has the scratch directory with every copy. -/
theorem fixSequenceTrace_states (userId listingCode : Str) (dir : ListingsDir) :
    ∃ temp : FileTable,
      (∀ s ∈ fixSequenceTrace userId listingCode dir,
        s.files = dir.files ∨
        s.temp = some ((renamedFiles userId listingCode dir.files
            (selectFiles userId listingCode (readdirListings dir)) 0).foldl
          (fun (t : FileTable) p => t.write p.1 p.2) temp) ∨
        ∀ (i : Nat) (f : FixFile),
          (selectFiles userId listingCode (readdirListings dir))[i]? = some f →
          readFile s.files (newFilename userId listingCode i f) =
            readFile dir.files f.filename) ∧
      (∀ s : ListingsDir,
        (fixSequenceTrace userId listingCode dir)[(phase1Ops userId listingCode dir
          (selectFiles userId listingCode (readdirListings dir))).length - 1]? = some s →
        s.temp = some ((renamedFiles userId listingCode dir.files
            (selectFiles userId listingCode (readdirListings dir)) 0).foldl
          (fun (t : FileTable) p => t.write p.1 p.2) temp)) := by
  by_cases h0 : userId = [] ∨ listingCode = []
  · refine ⟨[], ?_, ?_⟩
    · intro s hs
      simp only [fixSequenceTrace, h0, if_true] at hs
      cases hs
    · intro s hs
      simp only [fixSequenceTrace, h0, if_true] at hs
      simp at hs
  by_cases hlen : (selectFiles userId listingCode (readdirListings dir)).length = 0
  · refine ⟨[], ?_, ?_⟩
    · intro s hs
      simp only [fixSequenceTrace, h0, hlen, if_true, if_false] at hs
      cases hs
    · intro s hs
      simp only [fixSequenceTrace, h0, hlen, if_true, if_false] at hs
      simp at hs
  have hG : selectFiles userId listingCode (readdirListings dir) ≠ [] :=
    fun h => hlen (by rw [h]; rfl)
  have hsrc : ∀ f ∈ selectFiles userId listingCode (readdirListings dir),
      (readFile dir.files f.filename).isSome = true :=
    fun f hf => (readFile_isSome_iff dir.files f.filename).2
      ((selectFiles_sources userId listingCode dir).1 f hf)
  obtain ⟨temp, hS1, hlast⟩ := phase1_states userId listingCode dir _ hG hsrc
  have hopsG := phase1Ops_length userId listingCode dir
    (selectFiles userId listingCode (readdirListings dir))
  have hGpos : 0 < (selectFiles userId listingCode (readdirListings dir)).length :=
    Nat.pos_of_ne_zero hlen
  have hle := runOps_length_le (phase1Ops userId listingCode dir
    (selectFiles userId listingCode (readdirListings dir))) dir
  refine ⟨temp, ?_, ?_⟩
  · intro s hs
    simp only [fixSequenceTrace, h0, hlen, if_false] at hs
    split at hs
    · rcases hS1 s hs with h | h
      · exact Or.inl h
      · exact Or.inr (Or.inl h)
    · rename_i hlt
      rcases List.mem_append.1 hs with hs | hs
      · rcases hS1 s hs with h | h
        · exact Or.inl h
        · exact Or.inr (Or.inl h)
      · have hne : runOps (phase1Ops userId listingCode dir
            (selectFiles userId listingCode (readdirListings dir))) dir ≠ [] := by
          intro h
          rw [h] at hlt
          simp only [List.length_nil] at hlt
          omega
        have hl := hlast hne
        generalize (runOps (phase1Ops userId listingCode dir
          (selectFiles userId listingCode (readdirListings dir))) dir).getLastD dir = dir1
          at hs hl
        obtain ⟨files1, temp1⟩ := dir1
        simp only at hl
        subst hl
        simp only [Option.getD_some] at hs
        rcases phase2_states files1 _ s hs with h | h
        · exact Or.inr (Or.inl h)
        · right; right
          intro i f hf
          obtain ⟨content, hc⟩ := Option.isSome_iff_exists.1 (hsrc f (List.getElem?_mem hf))
          have hin := renamed_in_scratch userId listingCode dir.files temp _ i f content hf hc
          have hname := (readFile_isSome_iff _ _).1 (by rw [hin]; rfl)
          rw [h _ hname, hin, hc]
  · intro s hs
    simp only [fixSequenceTrace, h0, hlen, if_false] at hs
    split at hs
    · rename_i hlt
      have := (List.getElem?_eq_some.1 hs).1
      omega
    · rename_i hlt
      have heq : (runOps (phase1Ops userId listingCode dir
          (selectFiles userId listingCode (readdirListings dir))) dir).length =
          (phase1Ops userId listingCode dir
            (selectFiles userId listingCode (readdirListings dir))).length := by omega
      rw [List.getElem?_append_left (by omega), ← heq] at hs
      have hne : runOps (phase1Ops userId listingCode dir
          (selectFiles userId listingCode (readdirListings dir))) dir ≠ [] := by
        intro h
        rw [h] at heq
        simp only [List.length_nil] at heq
        omega
      rw [← getLastD_of_getElem? _ dir s hs]
      exact hlast hne

/-- C17: for every user id of 7 characters of `0-9a-f` and every alphanumeric
listing code (on which the pattern built from them is the literal one), at the
start and after every file-system call of a run of `fixSequenceNumbers` (a run
that stops at a throwing call included), the
content each file of the group had at the start is present: in the listings
directory under the old name or under the new name, or in the scratch
directory `temp` under the new name. And the state right after the last
deletion of an original, before the first copy back, has the scratch directory
holding every file of the group, with its content, under its new name. -/
theorem repair_never_loses_content (userId listingCode : Str) (dir : ListingsDir)
    (_hu7 : userId.length = 7) (_huhex : ∀ c ∈ userId, isHexDigitI c)
    (_hlne : listingCode ≠ []) (_hlal : ∀ c ∈ listingCode, c.isAlphanum = true) :
    (∀ s ∈ dir :: fixSequenceTrace userId listingCode dir,
      ∀ (i : Nat) (f : FixFile),
        (selectFiles userId listingCode (readdirListings dir))[i]? = some f →
        ∃ content, readFile dir.files f.filename = some content ∧
          (readFile s.files f.filename = some content ∨
           readFile s.files (newFilename userId listingCode i f) = some content ∨
           ∃ t, s.temp = some t ∧
             readFile t (newFilename userId listingCode i f) = some content)) ∧
    (∀ s : ListingsDir,
      (fixSequenceTrace userId listingCode dir)[(phase1Ops userId listingCode dir
        (selectFiles userId listingCode (readdirListings dir))).length - 1]? = some s →
      ∃ t, s.temp = some t ∧
        ∀ (i : Nat) (f : FixFile),
          (selectFiles userId listingCode (readdirListings dir))[i]? = some f →
          ∃ content, readFile dir.files f.filename = some content ∧
            readFile t (newFilename userId listingCode i f) = some content) := by
  obtain ⟨temp, hstates, hmid⟩ := fixSequenceTrace_states userId listingCode dir
  have hsrc : ∀ (i : Nat) (f : FixFile),
      (selectFiles userId listingCode (readdirListings dir))[i]? = some f →
      ∃ content, readFile dir.files f.filename = some content := fun i f hf =>
    Option.isSome_iff_exists.1 ((readFile_isSome_iff dir.files f.filename).2
      ((selectFiles_sources userId listingCode dir).1 f (List.getElem?_mem hf)))
  constructor
  · intro s hs i f hf
    obtain ⟨content, hc⟩ := hsrc i f hf
    refine ⟨content, hc, ?_⟩
    rcases List.mem_cons.1 hs with rfl | hs
    · exact Or.inl hc
    · rcases hstates s hs with h | h | h
      · left; rw [h]; exact hc
      · right; right
        exact ⟨_, h, renamed_in_scratch userId listingCode dir.files temp _ i f content hf hc⟩
      · right; left
        rw [h i f hf]; exact hc
  · intro s hs
    refine ⟨_, hmid s hs, ?_⟩
    intro i f hf
    obtain ⟨content, hc⟩ := hsrc i f hf
    exact ⟨content, hc,
      renamed_in_scratch userId listingCode dir.files temp _ i f content hf hc⟩

/-- C17, on the files numbered 05, 02, 09: the seventh state of the run (one
`mkdirSync`, three copies, three deletions) has no file left in the listings
directory and holds the three contents in the scratch directory under the new
names. -/
theorem repair_never_loses_content_witness :
    ∃ t, (⟨[], some [("img.0000042.abc.01.png".toList, [2]),
          ("img.0000042.abc.02.jpg".toList, [5]),
          ("img.0000042.abc.03.jpg".toList, [9])]⟩ : ListingsDir).temp = some t ∧
      ∀ (i : Nat) (f : FixFile),
        (selectFiles "0000042".toList "abc".toList (readdirListings
          ⟨[("img.0000042.abc.05.jpg".toList, [5]), ("img.0000042.abc.02.png".toList, [2]),
            ("img.0000042.abc.09.jpg".toList, [9])], none⟩))[i]? = some f →
        ∃ content,
          readFile (⟨[("img.0000042.abc.05.jpg".toList, [5]),
              ("img.0000042.abc.02.png".toList, [2]),
              ("img.0000042.abc.09.jpg".toList, [9])], none⟩ : ListingsDir).files
            f.filename = some content ∧
          readFile t (newFilename "0000042".toList "abc".toList i f) = some content :=
  (repair_never_loses_content "0000042".toList "abc".toList
    ⟨[("img.0000042.abc.05.jpg".toList, [5]), ("img.0000042.abc.02.png".toList, [2]),
      ("img.0000042.abc.09.jpg".toList, [9])], none⟩
    (by decide) (by decide) (by decide) (by decide)).2
    ⟨[], some [("img.0000042.abc.01.png".toList, [2]),
      ("img.0000042.abc.02.jpg".toList, [5]),
      ("img.0000042.abc.03.jpg".toList, [9])]⟩ (by decide)

/-- C13, on a directory with the files numbered 01 and 03 of one listing: the
listing has the sequence 1, 3 and the count 2, and its report says `BROKEN`
exactly because 1, 3 is not a rearrangement of 1, 2. -/
theorem sequence_integrity_iff_witness :
    (⟨"0000042-abc".toList, "0000042".toList, "abc".toList, 2, [1, 3]⟩ : ListingStat) ∈
        listingStats (categorize
          ["img.0000042.abc.01.jpg".toList, "img.0000042.abc.03.jpg".toList]).1 ∧
    ((reportListing ⟨"0000042-abc".toList, "0000042".toList, "abc".toList, 2, [1, 3]⟩).isSequential
        = false ↔
      ¬ List.Perm
        (⟨"0000042-abc".toList, "0000042".toList, "abc".toList, 2, [1, 3]⟩ :
          ListingStat).numberSequence
        ((List.range'
          1 (⟨"0000042-abc".toList, "0000042".toList, "abc".toList, 2, [1, 3]⟩ :
            ListingStat).imageCount).map Int.ofNat)) :=
  ⟨by decide,
   (sequence_integrity_iff ["img.0000042.abc.01.jpg".toList, "img.0000042.abc.03.jpg".toList]
      ⟨"0000042-abc".toList, "0000042".toList, "abc".toList, 2, [1, 3]⟩ (by decide)).2.2.2⟩

/-! ## The command line of the auditor -/

/-- C21, counterexample: run with no argument, and with the unknown command
`frobnicate`, the script prints the usage text and ends with exit status 0, not
with a non-zero status. -/
theorem usage_exit_status_zero :
    manageListingImages [] (some ⟨[], none⟩) = ⟨[.usage], some ⟨[], none⟩, 0⟩ ∧
    manageListingImages ["frobnicate".toList] (some ⟨[], none⟩) =
      ⟨[.error "Unknown command: frobnicate".toList, .usage], some ⟨[], none⟩, 0⟩ := by
  decide

/-- C21, amended: for every argument list whose first argument is absent or is
none of `analyze`, `fix-sequence`, `help`, and for `fix-sequence` followed by
fewer than two further arguments, the script prints the usage text last (after
an error line when the command is unknown or the arguments are missing), the
file system is left as it was, and the exit status is 0: `main` returns without
setting a status. -/
theorem usage_printed_without_file_access (args : List Str) (fs : Option ListingsDir)
    (h : args.head? = none ∨
      (∃ command, args.head? = some command ∧ command ≠ "analyze".toList ∧
        command ≠ "fix-sequence".toList ∧ command ≠ "help".toList) ∨
      (args.head? = some "fix-sequence".toList ∧ args.length < 3)) :
    (manageListingImages args fs).output.getLast? = some .usage ∧
    (∀ out ∈ (manageListingImages args fs).output,
      out = .usage ∨ ∃ message, out = .error message) ∧
    (manageListingImages args fs).fs = fs ∧
    (manageListingImages args fs).exitCode = 0 := by
  rcases h with h | ⟨command, h, h1, h2, h3⟩ | ⟨h, hlen⟩
  · simp only [manageListingImages, main, h]
    simp
  · by_cases he : command = []
    · simp only [manageListingImages, main, h, he, true_or, if_true]
      simp
    · simp only [manageListingImages, main, h, he, h1, h2, h3, false_or, if_false]
      simp
  · have hne : "fix-sequence".toList ≠ ([] : Str) := by decide
    have h1 : "fix-sequence".toList ≠ "help".toList := by decide
    have h2 : "fix-sequence".toList ≠ "analyze".toList := by decide
    match args, h, hlen with
    | [a], h, _ =>
      simp only [List.head?_cons, Option.some.injEq] at h
      subst h
      simp only [manageListingImages, main, List.head?_cons, hne, h1, h2, false_or, if_false,
        if_true]
      simp
    | [a, b], h, _ =>
      simp only [List.head?_cons, Option.some.injEq] at h
      subst h
      simp only [manageListingImages, main, List.head?_cons, hne, h1, h2, false_or, if_false,
        if_true]
      simp
    | a :: b :: c :: rest, _, hlen =>
      simp only [List.length_cons] at hlen
      omega

/-- C21, amended, on `fix-sequence` followed by one argument only. -/
theorem usage_printed_without_file_access_witness :
    (manageListingImages ["fix-sequence".toList, "0000042".toList]
        (some ⟨[("img.0000042.abc.05.jpg".toList, [5])], none⟩)).output.getLast? = some .usage ∧
    (∀ out ∈ (manageListingImages ["fix-sequence".toList, "0000042".toList]
        (some ⟨[("img.0000042.abc.05.jpg".toList, [5])], none⟩)).output,
      out = .usage ∨ ∃ message, out = .error message) ∧
    (manageListingImages ["fix-sequence".toList, "0000042".toList]
        (some ⟨[("img.0000042.abc.05.jpg".toList, [5])], none⟩)).fs =
      some ⟨[("img.0000042.abc.05.jpg".toList, [5])], none⟩ ∧
    (manageListingImages ["fix-sequence".toList, "0000042".toList]
        (some ⟨[("img.0000042.abc.05.jpg".toList, [5])], none⟩)).exitCode = 0 :=
  usage_printed_without_file_access ["fix-sequence".toList, "0000042".toList]
    (some ⟨[("img.0000042.abc.05.jpg".toList, [5])], none⟩)
    (Or.inr (Or.inr ⟨by decide, by decide⟩))

/-! ## The route that serves an image -/

/-- The handler redirects exactly when nothing exists at the joined path. -/
theorem serveImage_redirect_iff (existsSync : Str → Bool) (imagesDir filename : Str) :
    (serveImage existsSync imagesDir filename = .redirect placeholderUrl ↔
      existsSync (pathJoin imagesDir filename) = false) ∧
    (serveImage existsSync imagesDir filename =
        .sendFile "public, max-age=31536000".toList (pathJoin imagesDir filename) ↔
      existsSync (pathJoin imagesDir filename) = true) := by
  unfold serveImage
  cases h : existsSync (pathJoin imagesDir filename) <;> simp [h]

/-- C22, failing input: on a server whose only file is `/srv/app/package.json`
(so that no file at all is in the storage directory
`/srv/app/src/api/uploads/listings`), the request with the filename segment
`..%2F..%2F..%2F..%2Fpackage.json` is not answered by the redirect to the
placeholder: the handler joins the decoded segment to the storage directory,
finds `/srv/app/package.json` and sends it with the cache directive. -/
theorem serve_image_escapes_storage_directory :
    (∀ name : Str,
      (fun p : Str => decide (p = "/srv/app/package.json".toList))
        ("/srv/app/src/api/uploads/listings/".toList ++ name) = false) ∧
    serveImage (fun p => decide (p = "/srv/app/package.json".toList))
        "/srv/app/src/api/uploads/listings".toList "../../../../package.json".toList =
      .sendFile "public, max-age=31536000".toList "/srv/app/package.json".toList ∧
    serveImage (fun p => decide (p = "/srv/app/package.json".toList))
        "/srv/app/src/api/uploads/listings".toList "img.0000042.abc.01.jpg".toList =
      .redirect placeholderUrl := by
  refine ⟨?_, by decide, by decide⟩
  intro name
  simp

/-! ## Collisions of `formatUserIdHex` -/

/-- C23: `formatUserIdHex` is not injective. Two distinct identifiers give the
same seven characters when they differ only in characters that are stripped
(`x42` and `42`), only in leading zeros (`042` and `42`, or the number 42), or
only beyond the seventh kept character (the numbers 12345678 and 12345679); so
no function recovers the identifier from the seven characters. -/
theorem formatUserIdHex_not_injective :
    (∃ u1 u2 : UserId, u1 ≠ u2 ∧ formatUserIdHex u1 = formatUserIdHex u2) ∧
    (UserId.str "x42".toList ≠ UserId.str "42".toList ∧
      formatUserIdHex (.str "x42".toList) = formatUserIdHex (.str "42".toList)) ∧
    (UserId.str "042".toList ≠ UserId.str "42".toList ∧
      formatUserIdHex (.str "042".toList) = formatUserIdHex (.str "42".toList) ∧
      formatUserIdHex (.str "42".toList) = formatUserIdHex (.num 42)) ∧
    (UserId.num 12345678 ≠ UserId.num 12345679 ∧
      formatUserIdHex (.num 12345678) = formatUserIdHex (.num 12345679)) ∧
    ¬ Function.Injective formatUserIdHex ∧
    ¬ ∃ recover : Str → UserId, ∀ u : UserId, recover (formatUserIdHex u) = u := by
  have h1 : UserId.str "x42".toList ≠ UserId.str "42".toList ∧
      formatUserIdHex (.str "x42".toList) = formatUserIdHex (.str "42".toList) := by decide
  have h2 : UserId.str "042".toList ≠ UserId.str "42".toList ∧
      formatUserIdHex (.str "042".toList) = formatUserIdHex (.str "42".toList) ∧
      formatUserIdHex (.str "42".toList) = formatUserIdHex (.num 42) := by decide
  have h3 : UserId.num 12345678 ≠ UserId.num 12345679 ∧
      formatUserIdHex (.num 12345678) = formatUserIdHex (.num 12345679) := by decide
  refine ⟨⟨_, _, h1.1, h1.2⟩, h1, h2, h3, fun hinj => h1.1 (hinj h1.2), ?_⟩
  rintro ⟨recover, hrec⟩
  apply h1.1
  rw [← hrec (.str "x42".toList), ← hrec (.str "42".toList), h1.2]

/-! ## The client-side check -/

/-- C24: `validateImageFile` returns `true` exactly for a file whose type is
`image/jpeg`, `image/png` or `image/webp` and whose size is at most 5242880
bytes; otherwise it throws, the invalid-type error whenever the type is not
allowed (also when the size is too large as well), the size error for an
allowed type; it never returns `false`. Its limits are the server's: the
types `fileFilter` accepts, the `fileSize` limit of 5 MiB, and 20 files (the
`files` limit and the `maxCount` of the field). -/
theorem validateImageFile_spec (file : ClientFile) :
    (validateImageFile file = .ok true ↔
      (file.type = "image/jpeg".toList ∨ file.type = "image/png".toList ∨
        file.type = "image/webp".toList) ∧ file.size ≤ 5242880) ∧
    validateImageFile file =
      (if file.type = "image/jpeg".toList ∨ file.type = "image/png".toList ∨
          file.type = "image/webp".toList then
        if file.size ≤ 5242880 then .ok true else .error (tooLargeMessage file)
       else .error (invalidTypeMessage file)) ∧
    validateImageFile file ≠ .ok false ∧
    (∀ part : FilePart, fileFilter part = .ok true ↔ part.mimetype ∈ ALLOWED_TYPES) ∧
    MAX_FILE_SIZE = limitFileSize ∧ MAX_FILE_SIZE = 5242880 ∧
    MAX_FILES = limitFiles ∧ MAX_FILES = arrayMaxCount ∧ MAX_FILES = 20 := by
  have hmem : ∀ t : Str, t ∈ ALLOWED_TYPES ↔
      (t = "image/jpeg".toList ∨ t = "image/png".toList ∨ t = "image/webp".toList) := by
    intro t
    simp only [ALLOWED_TYPES, List.mem_cons, List.mem_singleton, List.not_mem_nil, or_false]
  have hsize : MAX_FILE_SIZE = 5242880 := by decide
  have heq : validateImageFile file =
      (if file.type = "image/jpeg".toList ∨ file.type = "image/png".toList ∨
          file.type = "image/webp".toList then
        if file.size ≤ 5242880 then .ok true else .error (tooLargeMessage file)
       else .error (invalidTypeMessage file)) := by
    unfold validateImageFile
    rw [hsize]
    by_cases ht : file.type = "image/jpeg".toList ∨ file.type = "image/png".toList ∨
        file.type = "image/webp".toList
    · have hin : file.type ∈ ALLOWED_TYPES := (hmem _).2 ht
      rw [if_pos ht, if_neg (not_not.2 hin)]
      by_cases hs : file.size ≤ 5242880
      · rw [if_pos hs, if_neg (by omega)]
      · rw [if_neg hs, if_pos (by omega)]
    · have hin : ¬ file.type ∈ ALLOWED_TYPES := fun h => ht ((hmem _).1 h)
      rw [if_neg ht, if_pos hin]
  refine ⟨?_, heq, ?_, ?_, by decide, hsize, by decide, by decide, by decide⟩
  · rw [heq]
    by_cases ht : file.type = "image/jpeg".toList ∨ file.type = "image/png".toList ∨
        file.type = "image/webp".toList
    · by_cases hs : file.size ≤ 5242880
      · rw [if_pos ht, if_pos hs]
        exact ⟨fun _ => ⟨ht, hs⟩, fun _ => rfl⟩
      · rw [if_pos ht, if_neg hs]
        constructor
        · intro h; cases h
        · intro h; exact absurd h.2 hs
    · rw [if_neg ht]
      constructor
      · intro h; cases h
      · intro h; exact absurd h.1 ht
  · rw [heq]
    split
    · split
      · intro h; cases h
      · intro h; cases h
    · intro h; cases h
  · intro part
    rw [fileFilter_ok_iff, hmem]
    rfl

/-! ## The listing code of one request -/

/-- C25, failing input: user 42 uploads `a.jpg` and `b.jpg` without a
`listingCode` field, and `Date.now()` is 1700000000000 when the first file is
named and one millisecond more when the second is. The upload succeeds and the
two files get the listing codes `loyw3v28` and `loyw3v29`: `storage.filename`
takes the default from the clock at each file. -/
theorem default_listing_code_differs :
    (uploadMultiple (fun i => 1700000000000 + i) (.num 42)
        [.file ⟨"images".toList, "a.jpg".toList, "image/jpeg".toList, 10⟩,
         .file ⟨"images".toList, "b.jpg".toList, "image/jpeg".toList, 20⟩] []).1 =
      ⟨200, .success "Upload successful!".toList
        ["/uploads/listings/img.0000042.loyw3v28.01.jpg".toList,
         "/uploads/listings/img.0000042.loyw3v29.02.jpg".toList]⟩ ∧
    (matchPattern "img.0000042.loyw3v28.01.jpg".toList).map (fun m => m.listingCode) =
      some "loyw3v28".toList ∧
    (matchPattern "img.0000042.loyw3v29.02.jpg".toList).map (fun m => m.listingCode) =
      some "loyw3v29".toList := by
  decide

/-! ## Broken sequences and missing numbers -/

theorem joinWith_head (separator s : Str) (c : Char) (cs : Str) (rest : List Str)
    (h : s = c :: cs) : ∃ tail, joinWith separator (s :: rest) = c :: tail := by
  cases rest with
  | nil => exact ⟨cs, by simp [joinWith, h]⟩
  | cons r rest => exact ⟨cs ++ separator ++ joinWith separator (r :: rest), by simp [joinWith, h]⟩

theorem joinWith_numbers_ne_none (missing : List Nat) (h : missing ≠ []) :
    joinWith ", ".toList (missing.map numberToString) ≠ "none".toList := by
  match missing, h with
  | a :: rest, _ =>
    have hlen : 1 ≤ (numberToString a).length := by
      have := toStringRadixLoop_length_pos 10 a a []
      simpa [numberToString, toStringRadix] using this
    match hs : numberToString a, hlen with
    | c :: cs, _ =>
      have hc : classDigit c = true := numberToString_digits a c (by rw [hs]; simp)
      obtain ⟨tail, ht⟩ := joinWith_head ", ".toList (numberToString a) c cs
        (rest.map numberToString) hs
      rw [List.map_cons, ht]
      intro heq
      have e1 : "none".toList = ['n', 'o', 'n', 'e'] := rfl
      rw [e1] at heq
      simp only [List.cons.injEq] at heq
      rw [heq.1] at hc
      exact absurd hc (by decide)

theorem mathMax_isSome (x : Int) (rest : List Int) : ∃ m, mathMax (x :: rest) = some m :=
  ⟨_, rfl⟩

/-- The text `none` is returned exactly when every integer from 1 up to some
element of the sequence is in the sequence. -/
theorem findMissingNumbers_eq_none_iff (sequence : List Int) :
    findMissingNumbers sequence = "none".toList ↔
      ∀ i : Nat, 1 ≤ i → (∃ x ∈ sequence, (i : Int) ≤ x) → (i : Int) ∈ sequence := by
  cases sequence with
  | nil => simp [findMissingNumbers]
  | cons x rest =>
    obtain ⟨m, hm⟩ := mathMax_isSome x rest
    obtain ⟨hmem, hmax⟩ := mathMax_spec (x :: rest) m hm
    have hne : ¬ (x :: rest).length = 0 := by simp
    unfold findMissingNumbers
    rw [if_neg hne, hm]
    simp only
    generalize hmiss : (List.range' 1 m.toNat).filter
      (fun (i : Nat) => !decide (Int.ofNat i ∈ x :: rest)) = missing
    have hmiss_mem : ∀ i : Nat, i ∈ missing ↔
        (1 ≤ i ∧ (i : Int) ≤ m) ∧ (i : Int) ∉ x :: rest := by
      intro i
      rw [← hmiss]
      simp only [List.mem_filter, List.mem_range', Bool.not_eq_true', decide_eq_false_iff_not,
        Int.ofNat_eq_coe]
      constructor
      · rintro ⟨⟨k, hk, rfl⟩, h2⟩
        exact ⟨⟨by omega, by omega⟩, h2⟩
      · rintro ⟨⟨h1, h2⟩, h3⟩
        exact ⟨⟨i - 1, by omega, by omega⟩, h3⟩
    by_cases hnil : missing = []
    · have hl : ¬ missing.length ≠ 0 := by rw [hnil]; simp
      rw [if_neg hl]
      refine ⟨fun _ => ?_, fun _ => rfl⟩
      intro i hi ⟨y, hy, hiy⟩
      by_contra hnot
      have : i ∈ missing := (hmiss_mem i).2 ⟨⟨hi, le_trans hiy (hmax y hy)⟩, hnot⟩
      rw [hnil] at this
      cases this
    · have hl : missing.length ≠ 0 := fun h => hnil (List.length_eq_zero.1 h)
      rw [if_pos hl]
      refine ⟨fun h => absurd h (joinWith_numbers_ne_none missing hnil), ?_⟩
      intro hall
      exfalso
      obtain ⟨i, hi⟩ := List.exists_mem_of_ne_nil missing hnil
      obtain ⟨⟨h1, h2⟩, h3⟩ := (hmiss_mem i).1 hi
      exact h3 (hall i h1 ⟨m, hmem, h2⟩)

theorem mem_range_map (n : Nat) (x : Int) :
    x ∈ (List.range' 1 n).map Int.ofNat ↔ 1 ≤ x ∧ x ≤ (n : Int) := by
  simp only [List.mem_map, List.mem_range', Int.ofNat_eq_coe]
  constructor
  · rintro ⟨k, ⟨i, hi, rfl⟩, rfl⟩
    constructor <;> omega
  · rintro ⟨h1, h2⟩
    refine ⟨x.toNat, ⟨x.toNat - 1, by omega, by omega⟩, by omega⟩

theorem range_map_nodup (n : Nat) : ((List.range' 1 n).map Int.ofNat).Nodup := by
  refine List.Nodup.map ?_ (List.nodup_range' 1 n)
  intro a b h
  exact Int.ofNat.inj h

/-- A sorted sequence is `1, 2, ..., N` exactly when nothing is missing from
it, nothing is repeated in it and nothing in it is below 1. -/
theorem sequential_iff_complete (l : List Int) (hs : l.Sorted (fun a b => a ≤ b)) :
    l = (List.range' 1 l.length).map Int.ofNat ↔
      findMissingNumbers l = "none".toList ∧ l.Nodup ∧ ∀ x ∈ l, 1 ≤ x := by
  rw [findMissingNumbers_eq_none_iff]
  constructor
  · intro h
    refine ⟨?_, ?_, ?_⟩
    · intro i hi ⟨x, hx, hix⟩
      rw [h, mem_range_map] at hx ⊢
      exact ⟨by omega, by omega⟩
    · rw [h]; exact range_map_nodup _
    · intro x hx
      rw [h, mem_range_map] at hx
      exact hx.1
  · rintro ⟨hmiss, hnd, hpos⟩
    cases l with
    | nil => rfl
    | cons a rest =>
      obtain ⟨m, hm⟩ := mathMax_isSome a rest
      obtain ⟨hmem, hmax⟩ := mathMax_spec (a :: rest) m hm
      have hm1 : 1 ≤ m := hpos m hmem
      have hperm : List.Perm (a :: rest) ((List.range' 1 m.toNat).map Int.ofNat) := by
        rw [List.perm_ext_iff_of_nodup hnd (range_map_nodup _)]
        intro x
        rw [mem_range_map]
        constructor
        · intro hx
          exact ⟨hpos x hx, by have := hmax x hx; omega⟩
        · rintro ⟨h1, h2⟩
          have := hmiss x.toNat (by omega) ⟨m, hmem, by omega⟩
          have e : ((x.toNat : Nat) : Int) = x := by omega
          rw [e] at this
          exact this
      have hlen : (a :: rest).length = m.toNat := by
        rw [hperm.length_eq]; simp
      rw [hlen]
      exact List.eq_of_perm_of_sorted hperm hs (range_map_sorted _ _)

/-- C26: for every sorted list of sequence numbers, the loop of
`analyzeListingImages` finds the sequence broken exactly when
`findMissingNumbers` names a missing number, or the list has a repeated
number, or it has a number below 1. The lists `1, 1` and `0` are broken while
their missing numbers are `none`. -/
theorem broken_iff_missing_duplicate_or_low (numberSequence : List Int)
    (hsorted : numberSequence.Sorted (fun a b => a ≤ b)) :
    (isSequentialLoop numberSequence 0 = false ↔
      findMissingNumbers numberSequence ≠ "none".toList ∨ ¬ numberSequence.Nodup ∨
        ∃ x ∈ numberSequence, x < 1) ∧
    (isSequentialLoop [1, 1] 0 = false ∧ findMissingNumbers [1, 1] = "none".toList) ∧
    (isSequentialLoop [0] 0 = false ∧ findMissingNumbers [0] = "none".toList) := by
  refine ⟨?_, by decide, by decide⟩
  have h1 := isSequentialLoop_iff numberSequence 0
  rw [Nat.zero_add, sequential_iff_complete numberSequence hsorted] at h1
  constructor
  · intro hf
    by_contra hnot
    simp only [not_or, not_not, not_exists, not_and, not_lt] at hnot
    have := h1.2 ⟨hnot.1, hnot.2.1, hnot.2.2⟩
    rw [hf] at this
    cases this
  · intro hor
    cases hb : isSequentialLoop numberSequence 0 with
    | false => rfl
    | true =>
      exfalso
      obtain ⟨g1, g2, g3⟩ := h1.1 hb
      rcases hor with h | h | ⟨x, hx, hlt⟩
      · exact h g1
      · exact h g2
      · have := g3 x hx; omega

/-- C26, on the sorted sequence 1, 3: broken, with a missing number. -/
theorem broken_iff_missing_duplicate_or_low_witness :
    isSequentialLoop [1, 3] 0 = false ↔
      findMissingNumbers [1, 3] ≠ "none".toList ∨ ¬ ([1, 3] : List Int).Nodup ∨
        ∃ x ∈ ([1, 3] : List Int), x < 1 :=
  (broken_iff_missing_duplicate_or_low [1, 3] (by decide)).1

/-! ## What `fixSequenceNumbers` leaves alone -/

/-- With a regular file named `temp` and no scratch directory, the first copy
throws and nothing is changed. -/
theorem fixSequenceNumbers_blocked (userId listingCode : Str) (dir : ListingsDir)
    (htemp : dir.temp = none) (hfile : readFile dir.files "temp".toList ≠ none) :
    fixSequenceNumbers userId listingCode dir = dir := by
  by_cases hG : selectFiles userId listingCode (readdirListings dir) = []
  · exact fixSequenceNumbers_empty_group userId listingCode dir hG
  obtain ⟨table, temp0⟩ := dir
  simp only at htemp hfile
  subst htemp
  obtain ⟨c, hc⟩ := Option.ne_none_iff_exists'.1 hfile
  have he : existsTemp ⟨table, none⟩ = true := by
    simp only [existsTemp, hc]; rfl
  have hrun : runOps (phase1Ops userId listingCode ⟨table, none⟩
      (selectFiles userId listingCode (readdirListings ⟨table, none⟩))) ⟨table, none⟩ = [] := by
    match hsel : selectFiles userId listingCode (readdirListings ⟨table, none⟩), hG with
    | f :: rest, _ =>
      have hcopy : (FsOp.copyToTemp f.filename (newFilename userId listingCode 0 f)).run
          ⟨table, none⟩ = none := by
        simp only [FsOp.run]
        cases readFile table f.filename <;> rfl
      simp only [phase1Ops, he, if_true, List.nil_append, List.enum, List.enumFrom_cons,
        List.map_cons, List.cons_append, runOps, hcopy]
  have hlen := phase1Ops_length userId listingCode ⟨table, none⟩
    (selectFiles userId listingCode (readdirListings ⟨table, none⟩))
  have hpos : 0 < (selectFiles userId listingCode (readdirListings ⟨table, none⟩)).length :=
    List.length_pos.2 hG
  unfold fixSequenceNumbers fixSequenceTrace
  by_cases h0 : userId = [] ∨ listingCode = []
  · rw [if_pos h0]; rfl
  · rw [if_neg h0]
    simp only [hrun, List.length_nil]
    rw [if_neg (by omega), if_pos (by omega)]
    rfl

/-- C27, counterexample: `fixSequenceNumbers` on a group without files, with an
empty scratch directory `temp` present: the function returns at `No files to
fix` and the scratch directory still exists. -/
theorem repair_keeps_scratch_when_group_empty :
    selectFiles "0000042".toList "abc".toList
        (readdirListings ⟨[("notes.txt".toList, [1])], some []⟩) = [] ∧
    fixSequenceNumbers "0000042".toList "abc".toList ⟨[("notes.txt".toList, [1])], some []⟩ =
      ⟨[("notes.txt".toList, [1])], some []⟩ ∧
    (fixSequenceNumbers "0000042".toList "abc".toList
      ⟨[("notes.txt".toList, [1])], some []⟩).temp ≠ none := by
  decide

/-- C27, amended: for every user id of 7 characters of `0-9a-f`, every
alphanumeric listing code and every directory with distinct file names in
which `temp` does not exist or is an empty directory, when the group has at
most 99 files: after `fixSequenceNumbers` every name the pattern of the group
does not match holds the content it held before (present stays present with
the same content, absent stays absent); every file found afterwards was there
before under the same name with the same content or is a file of the group
under its new name with its content; and when the group has at least one file
the scratch directory does not exist afterwards, while for a group without
files the directory is left exactly as it was. -/
theorem repair_touches_only_group (userId listingCode : Str) (dir : ListingsDir)
    (hu7 : userId.length = 7) (_huhex : ∀ c ∈ userId, isHexDigitI c)
    (hlne : listingCode ≠ []) (_hlal : ∀ c ∈ listingCode, c.isAlphanum = true)
    (hnd : (dir.files.map Prod.fst).Nodup)
    (htemp : dir.temp = none ∨
      (dir.temp = some [] ∧ readFile dir.files "temp".toList = none))
    (h99 : (selectFiles userId listingCode (readdirListings dir)).length ≤ 99) :
    (∀ name : Str, matchFixPattern userId listingCode name = none →
      readFile (fixSequenceNumbers userId listingCode dir).files name =
        readFile dir.files name) ∧
    (∀ (name : Str) (content : Bytes),
      readFile (fixSequenceNumbers userId listingCode dir).files name = some content →
      readFile dir.files name = some content ∨
      ∃ (i : Nat) (f : FixFile),
        (selectFiles userId listingCode (readdirListings dir))[i]? = some f ∧
        name = newFilename userId listingCode i f ∧
        readFile dir.files f.filename = some content) ∧
    (selectFiles userId listingCode (readdirListings dir) ≠ [] →
      (fixSequenceNumbers userId listingCode dir).temp = none) ∧
    (selectFiles userId listingCode (readdirListings dir) = [] →
      fixSequenceNumbers userId listingCode dir = dir) := by
  have hu : userId ≠ [] := by
    intro h; rw [h] at hu7; simp at hu7
  have hsame : fixSequenceNumbers userId listingCode dir = dir →
      (∀ name : Str, matchFixPattern userId listingCode name = none →
        readFile (fixSequenceNumbers userId listingCode dir).files name =
          readFile dir.files name) ∧
      (∀ (name : Str) (content : Bytes),
        readFile (fixSequenceNumbers userId listingCode dir).files name = some content →
        readFile dir.files name = some content ∨
        ∃ (i : Nat) (f : FixFile),
          (selectFiles userId listingCode (readdirListings dir))[i]? = some f ∧
          name = newFilename userId listingCode i f ∧
          readFile dir.files f.filename = some content) := by
    intro h
    rw [h]
    exact ⟨fun _ _ => rfl, fun _ _ hc => Or.inl hc⟩
  by_cases hG : selectFiles userId listingCode (readdirListings dir) = []
  · have hfix := fixSequenceNumbers_empty_group userId listingCode dir hG
    exact ⟨(hsame hfix).1, (hsame hfix).2, fun h => absurd hG h, fun _ => hfix⟩
  by_cases hblocked : dir.temp = none ∧ readFile dir.files "temp".toList ≠ none
  · have hfix := fixSequenceNumbers_blocked userId listingCode dir hblocked.1 hblocked.2
    refine ⟨(hsame hfix).1, (hsame hfix).2, fun _ => ?_, fun h => absurd h hG⟩
    rw [hfix]; exact hblocked.1
  have hnotemp : readFile dir.files "temp".toList = none := by
    rcases htemp with h | h
    · by_contra hne
      exact hblocked ⟨h, hne⟩
    · exact h.2
  have htemp2 : dir.temp = none ∨ dir.temp = some [] := by
    rcases htemp with h | h
    · exact Or.inl h
    · exact Or.inr h.1
  have hread := fixSequenceNumbers_readFile userId listingCode dir hu hlne hnd hnotemp htemp2 hG
  have hnames := renamedFiles_names userId listingCode dir.files
    (selectFiles userId listingCode (readdirListings dir)) 0
  have hgroupname : ∀ name : Str,
      name ∈ (selectFiles userId listingCode (readdirListings dir)).map (fun f => f.filename) →
      matchFixPattern userId listingCode name ≠ none := by
    intro name hin
    obtain ⟨f, hf, rfl⟩ := List.mem_map.1 hin
    rw [mem_selectFiles, mem_matchingFiles] at hf
    obtain ⟨_, d, hm, _⟩ := hf
    rw [hm]; simp
  have hnewname : ∀ name : Str,
      name ∈ (renamedFiles userId listingCode dir.files
        (selectFiles userId listingCode (readdirListings dir)) 0).map Prod.fst →
      matchFixPattern userId listingCode name ≠ none := by
    intro name hin
    obtain ⟨p, hp, rfl⟩ := List.mem_map.1 hin
    rw [renamedFiles_mem_iff] at hp
    obtain ⟨i, f, hf, rfl⟩ := hp
    have hi : i < (selectFiles userId listingCode (readdirListings dir)).length :=
      (List.getElem?_eq_some.1 hf).1
    have hm := (matchFixPattern_newFilename userId listingCode i f
      (selectFiles_extension _ _ _ f (List.getElem?_mem hf))).1 (by omega)
    intro hnone
    simp only at hnone
    rw [hnone] at hm
    cases hm
  refine ⟨?_, ?_, fun _ => ?_, fun h => absurd h hG⟩
  · intro name hnone
    rw [hread name, if_neg (fun h => hnewname name h hnone),
      if_neg (fun h => hgroupname name h hnone)]
  · intro name content hc
    rw [hread name] at hc
    by_cases hR : name ∈ (renamedFiles userId listingCode dir.files
        (selectFiles userId listingCode (readdirListings dir)) 0).map Prod.fst
    · right
      rw [if_pos hR] at hc
      obtain ⟨p, hp, rfl⟩ := List.mem_map.1 hR
      have hp2 := hp
      rw [renamedFiles_mem_iff] at hp2
      obtain ⟨i, f, hf, rfl⟩ := hp2
      rw [readFile_of_mem_nodup _ hnames.1 _ _ hp] at hc
      obtain ⟨c0, hc0⟩ := Option.isSome_iff_exists.1
        ((readFile_isSome_iff dir.files f.filename).2
          ((selectFiles_sources userId listingCode dir).1 f (List.getElem?_mem hf)))
      refine ⟨i, f, hf, rfl, ?_⟩
      simp only [hc0, Option.getD_some, Option.some.injEq] at hc
      rw [hc0, hc]
    · rw [if_neg hR] at hc
      by_cases hGn : name ∈ (selectFiles userId listingCode (readdirListings dir)).map
          (fun f => f.filename)
      · rw [if_pos hGn] at hc; cases hc
      · rw [if_neg hGn] at hc; exact Or.inl hc
  · rw [fixSequenceNumbers_clean_start userId listingCode dir hu hlne hnd hnotemp htemp2 hG]

/-- C27, amended, on a directory with the group 05, 02 and the file
`notes.txt`: the file is still there with its content. -/
theorem repair_touches_only_group_witness :
    readFile (fixSequenceNumbers "0000042".toList "abc".toList
        ⟨[("img.0000042.abc.05.jpg".toList, [5]), ("notes.txt".toList, [7]),
          ("img.0000042.abc.02.png".toList, [2])], some []⟩).files "notes.txt".toList =
      readFile [("img.0000042.abc.05.jpg".toList, [5]), ("notes.txt".toList, [7]),
        ("img.0000042.abc.02.png".toList, [2])] "notes.txt".toList :=
  (repair_touches_only_group "0000042".toList "abc".toList
    ⟨[("img.0000042.abc.05.jpg".toList, [5]), ("notes.txt".toList, [7]),
      ("img.0000042.abc.02.png".toList, [2])], some []⟩
    (by decide) (by decide) (by decide) (by decide) (by decide) (Or.inr (by decide))
    (by decide)).1 "notes.txt".toList (by decide)

/-! ## The defaulted listing code -/

theorem digitChar_classAlnum (d : Nat) (h : d < 36) : classAlnum (digitChar d) = true := by
  interval_cases d <;> decide

theorem base36Digit_digitChar (d : Nat) (h : d < 36) : base36Digit (digitChar d) = d := by
  interval_cases d <;> decide

theorem digitChar_ne_zero (d : Nat) (h : d < 36) (h0 : d ≠ 0) : digitChar d ≠ '0' := by
  interval_cases d <;> first | exact absurd rfl h0 | decide

theorem toStringRadixLoop_alnum (fuel : Nat) :
    ∀ (n : Nat) (acc : Str), ∀ c ∈ toStringRadixLoop 36 fuel n acc,
      c ∈ acc ∨ classAlnum c = true := by
  induction fuel with
  | zero => intro n acc c hc; exact Or.inl hc
  | succ fuel ih =>
    intro n acc c hc
    simp only [toStringRadixLoop] at hc
    split at hc
    · simp only [List.mem_cons] at hc
      rcases hc with rfl | hc
      · exact Or.inr (digitChar_classAlnum _ (Nat.mod_lt _ (by decide)))
      · exact Or.inl hc
    · rcases ih _ _ c hc with h | h
      · simp only [List.mem_cons] at h
        rcases h with rfl | h
        · exact Or.inr (digitChar_classAlnum _ (Nat.mod_lt _ (by decide)))
        · exact Or.inl h
      · exact Or.inr h

theorem base36Value_foldl (l : Str) :
    ∀ acc : Nat,
      l.foldl (fun acc c => 36 * acc + base36Digit c) acc =
        acc * 36 ^ l.length + base36Value l := by
  induction l with
  | nil => intro acc; simp [base36Value]
  | cons d rest ih =>
    intro acc
    simp only [List.foldl_cons, base36Value, List.length_cons]
    rw [ih (36 * acc + base36Digit d), ih (36 * 0 + base36Digit d)]
    ring

theorem base36Value_cons (d : Char) (rest : Str) :
    base36Value (d :: rest) = base36Digit d * 36 ^ rest.length + base36Value rest := by
  simp only [base36Value, List.foldl_cons]
  rw [base36Value_foldl rest (36 * 0 + base36Digit d)]
  simp [base36Value]

theorem toStringRadixLoop_value36 (fuel : Nat) :
    ∀ (n : Nat) (acc : Str), n < fuel →
      base36Value (toStringRadixLoop 36 fuel n acc) = n * 36 ^ acc.length + base36Value acc := by
  induction fuel with
  | zero => intro n acc h; omega
  | succ fuel ih =>
    intro n acc h
    simp only [toStringRadixLoop]
    split
    · next h0 =>
      have hn : n % 36 = n := Nat.mod_eq_of_lt (by omega)
      rw [base36Value_cons, base36Digit_digitChar _ (Nat.mod_lt _ (by decide)), hn]
    · next h0 =>
      rw [ih (n / 36) _ (by omega), base36Value_cons,
        base36Digit_digitChar _ (Nat.mod_lt _ (by decide))]
      simp only [List.length_cons]
      have hdm := Nat.div_add_mod n 36
      generalize n / 36 = q at hdm
      generalize n % 36 = r at hdm
      subst hdm
      ring

/-- The first digit produced for a positive number is not `0`. -/
theorem toStringRadixLoop_head (fuel : Nat) :
    ∀ (n : Nat) (acc : Str), n < fuel → n ≠ 0 →
      ∃ (d : Nat) (tail : Str), d < 36 ∧ d ≠ 0 ∧
        toStringRadixLoop 36 fuel n acc = digitChar d :: tail := by
  induction fuel with
  | zero => intro n acc h; omega
  | succ fuel ih =>
    intro n acc h hn
    simp only [toStringRadixLoop]
    split
    · next h0 =>
      have hmod : n % 36 = n := Nat.mod_eq_of_lt (by omega)
      exact ⟨n % 36, acc, Nat.mod_lt _ (by decide), by omega, rfl⟩
    · next h0 =>
      exact ih (n / 36) _ (by omega) h0

/-- C28: for every non-negative integer `t`, the defaulted listing code
`t.toString(36)` is not empty, is made of the characters `0`-`9` and `a`-`z`
(each of which the class `[a-z0-9]` of the auditor's pattern accepts, so that a
name built with it is matched with it as listing code), denotes `t` in base
36, and does not start with `0` unless `t = 0`, whose code is `0`. -/
theorem default_listing_code_base36 (t : Nat) :
    toStringRadix t 36 ≠ [] ∧
    (∀ c ∈ toStringRadix t 36, classAlnum c = true) ∧
    (∀ c ∈ toStringRadix t 36, matchClassI classAlnum c = true) ∧
    (matchPattern ("img.0000042.".toList ++ (toStringRadix t 36 ++ ".01.jpg".toList))).map
        (fun m => m.listingCode) = some (toStringRadix t 36) ∧
    base36Value (toStringRadix t 36) = t ∧
    (t ≠ 0 → (toStringRadix t 36).head? ≠ some '0') ∧
    toStringRadix 0 36 = "0".toList := by
  have hne : toStringRadix t 36 ≠ [] := by
    intro h
    have := toStringRadixLoop_length_pos 36 t t []
    rw [toStringRadix] at h
    rw [h] at this
    simp at this
  have hcls : ∀ c ∈ toStringRadix t 36, classAlnum c = true := by
    intro c hc
    rcases toStringRadixLoop_alnum _ _ _ c hc with h | h
    · cases h
    · exact h
  have hclsI : ∀ c ∈ toStringRadix t 36, matchClassI classAlnum c = true :=
    fun c hc => matchClassI_of_class _ c (hcls c hc)
  refine ⟨hne, hcls, hclsI, ?_, ?_, ?_, by decide⟩
  · have := matchPattern_assembled "0000042".toList (toStringRadix t 36) "jpg".toList '0' '1'
      (by decide) (by decide) hne hclsI (by decide) (by decide) (by decide) (by decide)
    have e : "img.0000042.".toList ++ (toStringRadix t 36 ++ ".01.jpg".toList) =
        'i' :: 'm' :: 'g' :: '.' :: ("0000042".toList ++
          '.' :: (toStringRadix t 36 ++ '.' :: '0' :: '1' :: '.' :: "jpg".toList)) := rfl
    rw [e, this]
    rfl
  · have := toStringRadixLoop_value36 (t + 1) t [] (by omega)
    simpa [toStringRadix, base36Value] using this
  · intro ht
    obtain ⟨d, tail, hd, hd0, heq⟩ := toStringRadixLoop_head (t + 1) t [] (by omega) ht
    rw [toStringRadix, heq]
    simp only [List.head?_cons, ne_eq, Option.some.injEq]
    exact digitChar_ne_zero d hd hd0

/-! ## The groups of `analyzeListingImages` -/

theorem valid_userId_length (files : List Str) (v : ValidFile)
    (hv : v ∈ (categorize files).1) : v.userId.length = 7 := by
  obtain ⟨_, hm⟩ := (mem_categorize_valid files v).1 hv
  obtain ⟨_, _, _, _, _, _, _, _, _, _, _, _, hlen, _⟩ := matchPattern_some _ _ hm
  exact hlen

theorem key_eq_iff (u1 l1 u2 l2 : Str) (h : u1.length = u2.length) :
    u1 ++ '-' :: l1 = u2 ++ '-' :: l2 ↔ u1 = u2 ∧ l1 = l2 := by
  constructor
  · intro heq
    obtain ⟨e1, e2⟩ := List.append_inj heq h
    exact ⟨e1, (List.cons.inj e2).2⟩
  · rintro ⟨rfl, rfl⟩; rfl

theorem sum_unchanged (key : Str) (x : Int) (stats : List ListingStat)
    (hout : key ∉ stats.map (fun s => s.key)) :
    stats.map (fun s =>
      if s.key = key then
        { s with imageCount := s.imageCount + 1, numberSequence := s.numberSequence ++ [x] }
      else s) = stats := by
  induction stats with
  | nil => rfl
  | cons s rest ih =>
    simp only [List.map_cons, List.mem_cons, not_or] at hout
    simp only [List.map_cons]
    rw [if_neg (fun h => hout.1 h.symm), ih hout.2]

theorem sum_incremented (key : Str) (x : Int) (stats : List ListingStat)
    (hnd : (stats.map (fun s => s.key)).Nodup) (hin : key ∈ stats.map (fun s => s.key)) :
    ((stats.map (fun s =>
      if s.key = key then
        { s with imageCount := s.imageCount + 1, numberSequence := s.numberSequence ++ [x] }
      else s)).map (fun s => s.imageCount)).sum =
      (stats.map (fun s => s.imageCount)).sum + 1 := by
  induction stats with
  | nil => cases hin
  | cons s rest ih =>
    simp only [List.map_cons, List.nodup_cons] at hnd
    simp only [List.map_cons, List.sum_cons]
    by_cases hk : s.key = key
    · rw [if_pos hk, sum_unchanged key x rest (by rw [← hk]; exact hnd.1)]
      simp only
      omega
    · have hin2 : key ∈ rest.map (fun s => s.key) := by
        simp only [List.map_cons, List.mem_cons] at hin
        rcases hin with h | h
        · exact absurd h.symm hk
        · exact h
      rw [if_neg hk, ih hnd.2 hin2]
      omega

theorem map_update_fields (key : Str) (x : Int) (stats : List ListingStat) :
    (stats.map (fun s =>
      if s.key = key then
        { s with imageCount := s.imageCount + 1, numberSequence := s.numberSequence ++ [x] }
      else s)).map (fun s => (s.key, s.userId, s.listingCode)) =
      stats.map (fun s => (s.key, s.userId, s.listingCode)) := by
  induction stats with
  | nil => rfl
  | cons s rest ih =>
    simp only [List.map_cons, List.cons.injEq]
    refine ⟨?_, ih⟩
    by_cases hk : s.key = key
    · rw [if_pos hk]
    · rw [if_neg hk]

/-- One step of `validFiles.forEach`: the keys stay distinct, every entry keeps
the key made of its own `userId` and `listingCode`, and the counts grow by one
in total. -/
theorem addListingStat_step (stats : List ListingStat) (file : ValidFile)
    (hnd : (stats.map (fun s => s.key)).Nodup)
    (hkey : ∀ s ∈ stats, s.key = s.userId ++ '-' :: s.listingCode) :
    ((addListingStat stats file).map (fun s => s.key)).Nodup ∧
    (∀ s ∈ addListingStat stats file, s.key = s.userId ++ '-' :: s.listingCode) ∧
    ((addListingStat stats file).map (fun s => s.imageCount)).sum =
      (stats.map (fun s => s.imageCount)).sum + 1 := by
  have hfields : ∀ (created : List ListingStat),
      (∀ s ∈ created, s.key = s.userId ++ '-' :: s.listingCode) →
      ∀ s ∈ created.map (fun s =>
        if s.key = listingKey file then
          { s with imageCount := s.imageCount + 1,
                   numberSequence := s.numberSequence ++ [(parseInt file.imageNumber).getD 0] }
        else s), s.key = s.userId ++ '-' :: s.listingCode := by
    intro created hc s hs
    obtain ⟨t, ht, rfl⟩ := List.mem_map.1 hs
    by_cases hk : t.key = listingKey file
    · rw [if_pos hk]; exact hc t ht
    · rw [if_neg hk]; exact hc t ht
  have hkeys : ∀ (created : List ListingStat),
      (created.map (fun s =>
        if s.key = listingKey file then
          { s with imageCount := s.imageCount + 1,
                   numberSequence := s.numberSequence ++ [(parseInt file.imageNumber).getD 0] }
        else s)).map (fun s => s.key) = created.map (fun s => s.key) := by
    intro created
    have := congrArg (List.map (fun p : Str × Str × Str => p.1))
      (map_update_fields (listingKey file) ((parseInt file.imageNumber).getD 0) created)
    simpa [List.map_map, Function.comp_def] using this
  by_cases hany : stats.any (fun s => decide (s.key = listingKey file)) = true
  · have hin : listingKey file ∈ stats.map (fun s => s.key) := by
      simp only [List.any_eq_true, decide_eq_true_eq] at hany
      obtain ⟨t, ht, htk⟩ := hany
      exact List.mem_map.2 ⟨t, ht, htk⟩
    simp only [addListingStat, hany, if_true]
    refine ⟨?_, hfields stats hkey, sum_incremented _ _ stats hnd hin⟩
    rw [hkeys]; exact hnd
  · have hout : listingKey file ∉ stats.map (fun s => s.key) := by
      intro hin
      apply hany
      obtain ⟨t, ht, htk⟩ := List.mem_map.1 hin
      simp only [List.any_eq_true, decide_eq_true_eq]
      exact ⟨t, ht, htk⟩
    have hnd2 : ((stats ++ [(⟨listingKey file, file.userId, file.listingCode, 0, []⟩ :
        ListingStat)]).map (fun s => s.key)).Nodup := by
      rw [List.map_append, List.nodup_append]
      refine ⟨hnd, by simp, ?_⟩
      intro a ha hb
      simp only [List.map_cons, List.map_nil, List.mem_singleton] at hb
      rw [hb] at ha
      exact hout ha
    have hin2 : listingKey file ∈ (stats ++ [(⟨listingKey file, file.userId,
        file.listingCode, 0, []⟩ : ListingStat)]).map (fun s => s.key) := by
      simp
    have hkey2 : ∀ s ∈ stats ++ [(⟨listingKey file, file.userId, file.listingCode, 0, []⟩ :
        ListingStat)], s.key = s.userId ++ '-' :: s.listingCode := by
      intro s hs
      rcases List.mem_append.1 hs with h | h
      · exact hkey s h
      · rw [List.mem_singleton.1 h]; rfl
    simp only [addListingStat, hany, Bool.false_eq_true, if_false]
    refine ⟨?_, hfields _ hkey2, ?_⟩
    · rw [hkeys]; exact hnd2
    · rw [sum_incremented _ _ _ hnd2 hin2]
      simp

theorem listingStats_foldl_step (rest : List ValidFile) :
    ∀ stats : List ListingStat,
      (stats.map (fun s => s.key)).Nodup →
      (∀ s ∈ stats, s.key = s.userId ++ '-' :: s.listingCode) →
      ((rest.foldl addListingStat stats).map (fun s => s.key)).Nodup ∧
      (∀ s ∈ rest.foldl addListingStat stats, s.key = s.userId ++ '-' :: s.listingCode) ∧
      ((rest.foldl addListingStat stats).map (fun s => s.imageCount)).sum =
        (stats.map (fun s => s.imageCount)).sum + rest.length := by
  induction rest with
  | nil => intro stats hnd hkey; exact ⟨hnd, hkey, rfl⟩
  | cons file rest ih =>
    intro stats hnd hkey
    obtain ⟨g1, g2, g3⟩ := addListingStat_step stats file hnd hkey
    obtain ⟨k1, k2, k3⟩ := ih (addListingStat stats file) g1 g2
    refine ⟨k1, k2, ?_⟩
    rw [List.foldl_cons, k3, g3, List.length_cons]
    omega

theorem addListingStat_userId (stats : List ListingStat) (file : ValidFile)
    (hfile : file.userId.length = 7) (h : ∀ s ∈ stats, s.userId.length = 7) :
    ∀ s ∈ addListingStat stats file, s.userId.length = 7 := by
  intro s hs
  simp only [addListingStat, List.mem_map] at hs
  obtain ⟨t, ht, rfl⟩ := hs
  have htlen : t.userId.length = 7 := by
    split at ht
    · exact h t ht
    · rcases List.mem_append.1 ht with h1 | h1
      · exact h t h1
      · rw [List.mem_singleton.1 h1]; exact hfile
  by_cases hk : t.key = listingKey file
  · rw [if_pos hk]; exact htlen
  · rw [if_neg hk]; exact htlen

theorem listingStats_foldl_userId (rest : List ValidFile) :
    ∀ stats : List ListingStat,
      (∀ f ∈ rest, f.userId.length = 7) → (∀ s ∈ stats, s.userId.length = 7) →
      ∀ s ∈ rest.foldl addListingStat stats, s.userId.length = 7 := by
  induction rest with
  | nil => intro stats _ h; exact h
  | cons file rest ih =>
    intro stats hf h
    exact ih (addListingStat stats file) (fun f hin => hf f (List.mem_cons_of_mem _ hin))
      (addListingStat_userId stats file (hf file (List.mem_cons_self _ _)) h)

/-- C29: on the valid files of any directory, the key
`userId + '-' + listingCode` of `listingStats` is equal for two files exactly
when their `userId` are equal and their `listingCode` are equal; the groups
have distinct keys, each group counts exactly the valid files with its
`userId` and `listingCode`, and the counts of all groups sum to the number of
valid files. -/
theorem listing_key_injective (files : List Str) :
    (∀ v1 ∈ (categorize files).1, ∀ v2 ∈ (categorize files).1,
      (listingKey v1 = listingKey v2 ↔
        v1.userId = v2.userId ∧ v1.listingCode = v2.listingCode)) ∧
    ((listingStats (categorize files).1).map (fun s => s.key)).Nodup ∧
    (∀ s ∈ listingStats (categorize files).1,
      s.imageCount = ((categorize files).1.filter
        (fun f => decide (f.userId = s.userId ∧ f.listingCode = s.listingCode))).length) ∧
    ((listingStats (categorize files).1).map (fun s => s.imageCount)).sum =
      (categorize files).1.length := by
  have hlen7 : ∀ v ∈ (categorize files).1, v.userId.length = 7 :=
    fun v hv => valid_userId_length files v hv
  obtain ⟨k1, k2, k3⟩ := listingStats_foldl_step (categorize files).1 []
    (by simp) (fun s hs => by cases hs)
  have k4 := listingStats_foldl_userId (categorize files).1 [] hlen7 (fun s hs => by cases hs)
  refine ⟨?_, k1, ?_, ?_⟩
  · intro v1 hv1 v2 hv2
    exact key_eq_iff _ _ _ _ (by rw [hlen7 v1 hv1, hlen7 v2 hv2])
  · intro s hs
    have h := listingStats_foldl_inv (categorize files).1 [] []
      (fun s hs => by cases hs) (fun f hf => by cases hf) s hs
    simp only [List.nil_append] at h
    rw [h.2]
    congr 1
    apply List.filter_congr
    intro f hf
    have hiff : listingKey f = s.key ↔ f.userId = s.userId ∧ f.listingCode = s.listingCode := by
      rw [k2 s hs]
      exact key_eq_iff _ _ _ _ (by rw [hlen7 f hf, k4 s hs])
    by_cases hk : listingKey f = s.key
    · simp only [hk, decide_True]
      exact (decide_eq_true (hiff.1 hk)).symm
    · simp only [hk, decide_False]
      exact (decide_eq_false (fun h2 => hk (hiff.2 h2))).symm
  · simpa [listingStats] using k3

/-! ## The storage summary -/

/-- The average is a quotient exactly when there is a valid file; without one
it is `0 / 0`. -/
theorem averageFileSize_cases (dir : ListingsDir) :
    ∃ report, (analyzeListingImages (some dir)).1 = some report ∧
      report.validFiles = (categorize (readdirListings dir)).1 ∧
      (report.validFiles ≠ [] →
        averageFileSize report =
          .finite ((report.totalSize : ℚ) / (report.validFiles.length : ℚ))) ∧
      (report.validFiles = [] → averageFileSize report = .nan) := by
  refine ⟨_, rfl, rfl, ?_, ?_⟩
  · intro hne
    have hlen : (categorize (readdirListings dir)).1.length ≠ 0 :=
      fun h => hne (List.length_eq_zero.1 h)
    simp only [averageFileSize, jsDivide, if_neg hlen]
  · intro hnil
    simp only at hnil
    simp only [averageFileSize, jsDivide, hnil, List.length_nil, List.foldl_nil, if_true]

/-- C30, failing input: on a listings directory that holds only `notes.txt`
(no valid file), and on an empty one, `analyzeListingImages` prints its report
and computes the average as `0 / 0`: the divisor `validFiles.length` is zero
and the value is `NaN`. -/
theorem average_divides_by_zero :
    (analyzeListingImages (some ⟨[("notes.txt".toList, [1, 2, 3])], none⟩)).1.map
        (fun report => (report.validFiles.length, report.totalSize, averageFileSize report)) =
      some (0, 0, .nan) ∧
    (analyzeListingImages (some ⟨[], none⟩)).1.map
        (fun report => (report.validFiles.length, report.totalSize, averageFileSize report)) =
      some (0, 0, .nan) := by
  decide

/-! ## The files a request stores -/

theorem canonicalName_inj (u : UserId) (c : Str) (i j : Nat) (o1 o2 : Str)
    (hi : i ≤ 99) (hj : j ≤ 99)
    (h : canonicalName u c i o1 = canonicalName u c j o2) : i = j := by
  simp only [canonicalName, List.append_assoc] at h
  have h1 := List.append_cancel_left (List.append_cancel_left (List.append_cancel_left
    (List.append_cancel_left (List.append_cancel_left h))))
  have h2 := List.append_inj_left h1
    (by rw [(pad2_length_two_iff i).2 hi, (pad2_length_two_iff j).2 hj])
  have := congrArg digitsValue h2
  rwa [digitsValue_pad2, digitsValue_pad2] at this

theorem canonicalNames_nodup (u : UserId) (c : Str) (files : List FilePart) :
    ∀ k : Nat, k + files.length ≤ 100 →
      ((files.enumFrom k).map (fun p => canonicalName u c p.1 p.2.originalname)).Nodup := by
  induction files with
  | nil => intro k _; simp
  | cons f rest ih =>
    intro k hk
    simp only [List.length_cons] at hk
    simp only [List.enumFrom_cons, List.map_cons, List.nodup_cons]
    refine ⟨?_, ih (k + 1) (by omega)⟩
    intro hin
    obtain ⟨p, hp, heq⟩ := List.mem_map.1 hin
    have h1 := List.le_fst_of_mem_enumFrom hp
    have h2 := List.fst_lt_add_of_mem_enumFrom hp
    have := canonicalName_inj u c p.1 k _ _ (by omega) (by omega) heq
    omega

/-- The directory after a run of writes under pairwise distinct names: every
file written is there with its size, every entry is one of them or an entry
from before, and the entries from before under other names are kept. -/
theorem foldl_writeFile_spec (written : List StoredFile) :
    ∀ directory : Directory, (written.map (fun s => s.filename)).Nodup →
      (∀ s ∈ written, Entry.file s.filename s.size ∈
        written.foldl (fun d s => writeFile d s.filename s.size) directory) ∧
      (∀ e ∈ written.foldl (fun d s => writeFile d s.filename s.size) directory,
        e ∈ directory ∨ ∃ s ∈ written, e = Entry.file s.filename s.size) ∧
      (∀ e ∈ directory, (∀ s ∈ written, e.name ≠ s.filename) →
        e ∈ written.foldl (fun d s => writeFile d s.filename s.size) directory) := by
  induction written with
  | nil => intro directory _; simp
  | cons w rest ih =>
    intro directory hnd
    simp only [List.map_cons, List.nodup_cons] at hnd
    obtain ⟨k1, k2, k3⟩ := ih (writeFile directory w.filename w.size) hnd.2
    simp only [List.foldl_cons]
    refine ⟨?_, ?_, ?_⟩
    · intro s hs
      rcases List.mem_cons.1 hs with rfl | hs
      · apply k3
        · simp [writeFile]
        · intro t ht heq
          exact hnd.1 (List.mem_map.2 ⟨t, ht, heq.symm⟩)
      · exact k1 s hs
    · intro e he
      rcases k2 e he with h | ⟨s, hs, rfl⟩
      · simp only [writeFile, List.mem_append, List.mem_filter, List.mem_singleton] at h
        rcases h with ⟨h, _⟩ | h
        · exact Or.inl h
        · exact Or.inr ⟨w, List.mem_cons_self _ _, h⟩
      · exact Or.inr ⟨s, List.mem_cons_of_mem _ hs, rfl⟩
    · intro e he hne
      apply k3
      · simp only [writeFile, List.mem_append, List.mem_filter, decide_eq_true_eq]
        exact Or.inl ⟨he, hne w (List.mem_cons_self _ _)⟩
      · intro s hs
        exact hne s (List.mem_cons_of_mem _ hs)

/-- C3: a request that supplies the listing code `c` before its `k` acceptable
files (`1 ≤ k ≤ 20`, each in the field `images`, named, of an allowed MIME type
and below the size limit), whose names the file system takes, ends without
error; its `i`-th file in arrival order is recorded under
`img.<formatUserIdHex(u)>.<c>.<i as 2 digits>` followed by the lowercased
extension of its original name, the counter starting at 1 and growing by 1 per
file; afterwards the directory holds each of them as a regular file of that
name and size, every other entry is one it had before, and the entries it had
under other names are still there. UserId 42 with `abc123` and three `.jpg`
files gives `img.0000042.abc123.01.jpg`, `...02.jpg`, `...03.jpg` in that
order. -/
theorem upload_names_in_arrival_order (clock : Nat → Nat) (u : UserId) (c : Str)
    (files : List FilePart) (imagesDir : Directory)
    (hc : c ≠ []) (hk1 : 1 ≤ files.length) (hk20 : files.length ≤ 20)
    (hacc : ∀ f ∈ files, acceptable f)
    (_hstorable : ∀ p ∈ files.enumFrom 1,
      storable imagesDir (canonicalName u c p.1 p.2.originalname)) :
    (uploadArray clock u (Part.field "listingCode".toList c :: files.map Part.file)
        imagesDir).err = none ∧
    (uploadArray clock u (Part.field "listingCode".toList c :: files.map Part.file)
        imagesDir).req.files =
      (files.enumFrom 1).map (fun p =>
        (⟨p.2.fieldname, p.2.originalname, p.2.mimetype,
          "img.".toList ++ formatUserIdHex u ++ ".".toList ++ c ++ ".".toList ++
            padStart (numberToString p.1) 2 '0' ++ toLowerCase (extname p.2.originalname),
          p.2.size⟩ : StoredFile)) ∧
    (∀ s ∈ (uploadArray clock u (Part.field "listingCode".toList c :: files.map Part.file)
        imagesDir).req.files,
      Entry.file s.filename s.size ∈
        (uploadArray clock u (Part.field "listingCode".toList c :: files.map Part.file)
          imagesDir).directory) ∧
    (∀ e ∈ (uploadArray clock u (Part.field "listingCode".toList c :: files.map Part.file)
        imagesDir).directory,
      e ∈ imagesDir ∨
      ∃ s ∈ (uploadArray clock u (Part.field "listingCode".toList c :: files.map Part.file)
          imagesDir).req.files, e = Entry.file s.filename s.size) ∧
    (∀ e ∈ imagesDir,
      (∀ s ∈ (uploadArray clock u (Part.field "listingCode".toList c :: files.map Part.file)
          imagesDir).req.files, e.name ≠ s.filename) →
      e ∈ (uploadArray clock u (Part.field "listingCode".toList c :: files.map Part.file)
          imagesDir).directory) ∧
    ((uploadArray (fun _ => 0) (.num 42)
        [.field "listingCode".toList "abc123".toList,
         .file ⟨"images".toList, "a.jpg".toList, "image/jpeg".toList, 10⟩,
         .file ⟨"images".toList, "b.jpg".toList, "image/jpeg".toList, 20⟩,
         .file ⟨"images".toList, "c.jpg".toList, "image/jpeg".toList, 30⟩] []).req.files.map
        (fun s => s.filename) =
      ["img.0000042.abc123.01.jpg".toList, "img.0000042.abc123.02.jpg".toList,
        "img.0000042.abc123.03.jpg".toList]) := by
  have hbody : bodyListingCode [c] = some c := by simp [bodyListingCode, hc]
  have key := uploadArrayLoop_accepts clock u c files
    ⟨⟨u, [c], none, []⟩, imagesDir, 0, arrayMaxCount, []⟩ 0 rfl hbody (Or.inr ⟨rfl, rfl⟩)
    (by simp only [limitFiles]; omega) (by simp only [arrayMaxCount]; omega) hacc
  have hrun : uploadArray clock u (Part.field "listingCode".toList c :: files.map Part.file)
      imagesDir = uploadArrayLoop clock (files.map Part.file)
        ⟨⟨u, [c], none, []⟩, imagesDir, 0, arrayMaxCount, []⟩ := by
    simp [uploadArray, uploadArrayLoop]
  rw [hrun]
  obtain ⟨k1, k2, k3⟩ := key
  simp only [List.nil_append] at k2 k3
  have hnd : (((files.enumFrom (0 + 1)).map (fun p => storedAs u c p.1 p.2)).map
      (fun s => s.filename)).Nodup := by
    have := canonicalNames_nodup u c files 1 (by omega)
    simpa [List.map_map, Function.comp_def, storedAs] using this
  obtain ⟨g1, g2, g3⟩ := foldl_writeFile_spec _ imagesDir hnd
  rw [← k3, ← k2] at g1 g2 g3
  refine ⟨k1, ?_, g1, g2, g3, by decide⟩
  rw [k2]; simp [storedAs, canonicalName]

/-- C3 at userId 7, listing code `x1`, one PNG file. -/
theorem upload_names_in_arrival_order_witness :
    (uploadArray (fun _ => 0) (.num 7)
      (Part.field "listingCode".toList "x1".toList ::
        [(⟨"images".toList, "p.PNG".toList, "image/png".toList, 5⟩ : FilePart)].map Part.file)
      []).req.files.map (fun s => s.filename) = ["img.0000007.x1.01.png".toList] := by
  have h := (upload_names_in_arrival_order (fun _ => 0) (.num 7) "x1".toList
    [⟨"images".toList, "p.PNG".toList, "image/png".toList, 5⟩] [] (by decide) (by decide)
    (by decide) (by decide) (by decide)).2.1
  rw [h]
  decide

/-! ## Files of a group with the same number -/

/-- C19, amended: for every user id of 7 characters of `0-9a-f`, every
alphanumeric listing code and every directory with distinct file names in which
`temp` does not exist or is an empty directory: when two files `x`, `y` of the
group carry the same sequence number and the directory listing has `x` before
`y`, `fixSequenceNumbers` keeps that order: `x` is at an index `i` of the sorted
array `files` and `y` at a later index `j`, and after the run the content of `x`
is found under the new name with number `i + 1` and the content of `y` under the
new name with the larger number `j + 1`. -/
theorem repair_ties_follow_listing_order (userId listingCode : Str) (dir : ListingsDir)
    (x y dx dy ex ey : Str)
    (hu7 : userId.length = 7) (_huhex : ∀ c ∈ userId, isHexDigitI c)
    (hlne : listingCode ≠ []) (_hlal : ∀ c ∈ listingCode, c.isAlphanum = true)
    (hnd : (dir.files.map Prod.fst).Nodup)
    (hnotemp : readFile dir.files "temp".toList = none)
    (htemp : dir.temp = none ∨ dir.temp = some [])
    (hx : matchFixPattern userId listingCode x = some (dx, ex))
    (hy : matchFixPattern userId listingCode y = some (dy, ey))
    (hnum : (parseInt dx).getD 0 = (parseInt dy).getD 0)
    (hlisted : List.Sublist [x, y] (readdirListings dir)) :
    ∃ i j : Nat, i < j ∧
      (selectFiles userId listingCode (readdirListings dir))[i]? =
        some ⟨x, (parseInt dx).getD 0, ex⟩ ∧
      (selectFiles userId listingCode (readdirListings dir))[j]? =
        some ⟨y, (parseInt dy).getD 0, ey⟩ ∧
      newFilename userId listingCode i ⟨x, (parseInt dx).getD 0, ex⟩ =
        "img.".toList ++ userId ++ ".".toList ++ listingCode ++ ".".toList ++
          padStart (numberToString (i + 1)) 2 '0' ++ ".".toList ++ ex ∧
      newFilename userId listingCode j ⟨y, (parseInt dy).getD 0, ey⟩ =
        "img.".toList ++ userId ++ ".".toList ++ listingCode ++ ".".toList ++
          padStart (numberToString (j + 1)) 2 '0' ++ ".".toList ++ ey ∧
      (∃ content, readFile dir.files x = some content ∧
        readFile (fixSequenceNumbers userId listingCode dir).files
          (newFilename userId listingCode i ⟨x, (parseInt dx).getD 0, ex⟩) = some content) ∧
      (∃ content, readFile dir.files y = some content ∧
        readFile (fixSequenceNumbers userId listingCode dir).files
          (newFilename userId listingCode j ⟨y, (parseInt dy).getD 0, ey⟩) = some content) := by
  have hu : userId ≠ [] := by
    intro h; rw [h] at hu7; simp at hu7
  obtain ⟨i, j, hij, hi, hj⟩ := selectFiles_ties_in_listing_order userId listingCode
    (readdirListings dir) x y dx dy ex ey hx hy hnum hlisted
  refine ⟨i, j, hij, hi, hj, by simp [newFilename], by simp [newFilename], ?_, ?_⟩
  · exact fixSequenceNumbers_lookup userId listingCode dir hu hlne hnd hnotemp htemp i _ hi
  · exact fixSequenceNumbers_lookup userId listingCode dir hu hlne hnd hnotemp htemp j _ hj

/-- C19, amended, on `01.png` listed before `01.jpg`: the content of `01.png`
is found under number 01 and the content of `01.jpg` under number 02. -/
theorem repair_ties_follow_listing_order_witness :
    readFile (fixSequenceNumbers "0000042".toList "abc".toList
        ⟨[("img.0000042.abc.01.png".toList, [1]), ("img.0000042.abc.01.jpg".toList, [2])],
          none⟩).files "img.0000042.abc.01.png".toList = some [1] ∧
    readFile (fixSequenceNumbers "0000042".toList "abc".toList
        ⟨[("img.0000042.abc.01.png".toList, [1]), ("img.0000042.abc.01.jpg".toList, [2])],
          none⟩).files "img.0000042.abc.02.jpg".toList = some [2] ∧
    ∃ i j : Nat, i < j ∧
      (∃ content,
        readFile [("img.0000042.abc.01.png".toList, [1]), ("img.0000042.abc.01.jpg".toList, [2])]
          "img.0000042.abc.01.png".toList = some content ∧
        readFile (fixSequenceNumbers "0000042".toList "abc".toList
            ⟨[("img.0000042.abc.01.png".toList, [1]),
              ("img.0000042.abc.01.jpg".toList, [2])], none⟩).files
          (newFilename "0000042".toList "abc".toList i
            ⟨"img.0000042.abc.01.png".toList, (parseInt "01".toList).getD 0, "png".toList⟩) =
          some content) ∧
      (∃ content,
        readFile [("img.0000042.abc.01.png".toList, [1]), ("img.0000042.abc.01.jpg".toList, [2])]
          "img.0000042.abc.01.jpg".toList = some content ∧
        readFile (fixSequenceNumbers "0000042".toList "abc".toList
            ⟨[("img.0000042.abc.01.png".toList, [1]),
              ("img.0000042.abc.01.jpg".toList, [2])], none⟩).files
          (newFilename "0000042".toList "abc".toList j
            ⟨"img.0000042.abc.01.jpg".toList, (parseInt "01".toList).getD 0, "jpg".toList⟩) =
          some content) := by
  refine ⟨by decide, by decide, ?_⟩
  obtain ⟨i, j, hij, _, _, _, _, h1, h2⟩ :=
    repair_ties_follow_listing_order "0000042".toList "abc".toList
      ⟨[("img.0000042.abc.01.png".toList, [1]), ("img.0000042.abc.01.jpg".toList, [2])], none⟩
      "img.0000042.abc.01.png".toList "img.0000042.abc.01.jpg".toList
      "01".toList "01".toList "png".toList "jpg".toList
      (by decide) (by decide) (by decide) (by decide) (by decide) (by decide) (by decide)
      (by decide) (by decide) (by decide) (List.Sublist.refl _)
  exact ⟨i, j, hij, h1, h2⟩

end ListingImages
